import Mathlib

/-! # Hint decoding in read names (`hints.cpp`)

A shallow embedding of the three functions of `hints.cpp`

* `has_hint`             (lines 23-33),
* `parse_hints`          (lines 38-101),
* `parse_interval_hints` (lines 106-201),

and the properties of the hint format that hold of them.

Conventions of the embedding.

* Characters are Lean `Char`s and stand for the bytes of the name; a `char`
  converted to `int` is its code (`Char.toNat`), so `c - '0'` is
  `c.toNat - 48`.  This is exact for 7-bit characters.
* The pointer `buf` is a `Cursor`: the characters from `*buf` to the end of the
  buffer, together with the distance `buf - origbuf`.
* `size_t` is 64 bits wide and arithmetic on it is taken modulo `2^64`;
  `TRefOff` is a signed 64-bit integer, and an operation on it whose result
  does not fit has no defined behaviour.
* The assertion helpers (`assert`, `assert_eq`, `assert_gt`) are compiled in or
  out by the build; the flag `dbg` says which.
* An `int` is 32 bits wide.  The loop counter `int i` of `has_hint` counts up to
  `INT_MAX`; the sums `i+1`, `i+2` and the step `i++` have no defined behaviour
  when their result is above `INT_MAX`.  The argument `int hint_off` of the
  decoders is the integer that the caller passes.
-/

namespace Hints

/-! ## Data model -/

/-- How a call ends. -/
inductive Status where
  /-- The function ran to its closing brace. -/
  | returned
  /-- The statement `throw 1` was executed. -/
  | thrown
  /-- An assertion that is compiled in did not hold. -/
  | assertFailed
  /-- A read outside the name buffer, a write outside `refname[1024]`, or a
  signed overflow: what happens next is not determined by the program. -/
  | undefined
  deriving DecidableEq, Repr

/-- Modelled from the spec: the identifier string, "an immutable sequence of
characters with a known length" that gives "raw character access".  `name`
holds the `r.name.length()` characters of the name.  The pointer
`r.name.buf()` gives access to the buffer that stores them.  The buffer is not
NUL-terminated; it has room for one element behind the name, `behind` (the
place where the string class can put a terminator), and may have more,
`slack`; what these hold is left over from earlier use.  A read behind the end
of `name ++ behind :: slack` leaves the buffer. -/
structure Read where
  name : List Char
  behind : Char
  slack : List Char
  deriving DecidableEq, Repr

/-- The characters reachable from `r.name.buf()`. -/
def Read.storage (r : Read) : List Char := r.name ++ r.behind :: r.slack

/-- The pointer `buf`: `rest` are the characters from `*buf` to the end of the
buffer, `pos` is `buf - origbuf`. -/
structure Cursor where
  rest : List Char
  pos : Nat
  deriving DecidableEq, Repr

/-- Modelled from the spec: the reference id, reference offset, orientation and
length of a hit, that is the arguments of `Interval::init(refid, refoff, fw,
len)` as the decoders pass them. -/
structure Interval where
  refid : Int
  refoff : Int
  fw : Bool
  len : Int
  deriving DecidableEq, Repr

/-- Modelled from the spec: the point hit record, with the fields of `SeedHit`
that `parse_hints` sets. -/
structure SeedHit where
  refival : Interval
  rd5primeOff : Nat
  deriving DecidableEq, Repr

/-- Modelled from the spec: the interval hit record, with the fields of
`IntervalHit` that `parse_interval_hints` sets; `hitlen` holds the `size_t`
value assigned to it. -/
structure IntervalHit where
  refival : Interval
  rd5primeOff : Nat
  hitlen : Nat
  deriving DecidableEq, Repr

/-- What a part of a loop body leaves behind: a value, or the way the call
ends. -/
inductive Step (α : Type) where
  | ok : α → Step α
  | thrown : Step α
  | assertFailed : Step α
  | undefined : Step α
  deriving DecidableEq, Repr

/-- Sequencing of two parts of a loop body. -/
def Step.bind {α β : Type} : Step α → (α → Step β) → Step β
  | .ok a, f => f a
  | .thrown, _ => .thrown
  | .assertFailed, _ => .assertFailed
  | .undefined, _ => .undefined

/-- The state in which a decoder leaves its caller: how the call ended and the
caller-owned list `hints`. -/
structure Result (H : Type) where
  status : Status
  hints : List H
  deriving DecidableEq, Repr

/-! ## Machine integers -/

/-- The number of values of a `size_t`. -/
def SIZE_MOD : Nat := 18446744073709551616

/-- Modelled from the spec: reference offsets are signed integers.  `TRefOff`
is taken to be 64 bits wide.  An arithmetic operation on `TRefOff` whose exact
result is `x` gives `x` if it fits; a signed overflow has no defined
behaviour. -/
def checkRefOff (x : Int) : Step Int :=
  if -9223372036854775808 ≤ x ∧ x < 9223372036854775808 then .ok x else .undefined

/-- The statements `refoff *= 10; refoff += c - '0';` on a `TRefOff`. -/
def pushDigitOff (refoff : Int) (c : Char) : Step Int :=
  (checkRefOff (refoff * 10)).bind fun a => checkRefOff (a + ((c.toNat : Int) - 48))

/-- The statements `len *= 10; len += c - '0';` on a `size_t`. -/
def pushDigitSize (len : Nat) (c : Char) : Nat :=
  (len * 10 % SIZE_MOD + (c.toNat + (SIZE_MOD - 48)) % SIZE_MOD) % SIZE_MOD

/-- The largest value of an `int`. -/
def INT_MAX : Nat := 2147483647

/-! ## `has_hint` -/

/-- The loop of `has_hint` from counter `i` on, with `n` iterations left before
`i` reaches the bound.  `r.name[j]` is only defined for `j < r.name.length()`,
and the counter is an `int`: the sums `i+1` and `i+2` and the step `i++` are
only defined when their value is at most `INT_MAX`.  `none` says that the loop
read outside the name or that the counter overflowed.  The conjunction reads
its operands from left to right and stops at the first that fails. -/
def has_hint_loop (name : List Char) : Nat → Nat → Option Int
  | 0, _ => some (-1)
  | n + 1, i =>
    match name[i]? with
    | none => none
    | some c0 =>
      if c0 = '!' then
        if i + 1 ≤ INT_MAX then
          match name[i + 1]? with
          | none => none
          | some c1 =>
            if c1 = 'h' then
              if i + 2 ≤ INT_MAX then
                match name[i + 2]? with
                | none => none
                | some c2 =>
                  if c2 = '!' then some (i : Int)
                  else if i + 1 ≤ INT_MAX then has_hint_loop name n (i + 1) else none
              else none
            else if i + 1 ≤ INT_MAX then has_hint_loop name n (i + 1) else none
        else none
      else if i + 1 ≤ INT_MAX then has_hint_loop name n (i + 1) else none

/-- The bound `r.name.length()-2` of the loop of `has_hint`, computed in
`size_t`: below a length of 2 the subtraction wraps around. -/
def has_hint_bound (len : Nat) : Nat :=
  if 2 ≤ len then len - 2 else len + SIZE_MOD - 2

/-- The function `has_hint` (lines 23-33): the index of the first `!h!`, or
`-1`.  In `i < r.name.length()-2` the counter is converted to `size_t`; it is
never negative, so the conversion keeps its value. -/
def has_hint (r : Read) : Option Int :=
  has_hint_loop r.name (has_hint_bound r.name.length) 0

/-! ## Loops shared by the two decoders -/

/-- The loop `while(*buf != '!') *refbuf++ = *buf++;` followed by
`*refbuf = '\0';` (lines 57-60 and 125-128).  `name` is what has been written
to `refname` so far; `refname` has 1024 elements. -/
def copy_refname : List Char → Nat → List Char → Step (List Char × Cursor)
  | [], _, _ => .undefined
  | c :: cs, pos, name =>
    if c = '!' then
      if name.length < 1024 then .ok (name, ⟨c :: cs, pos⟩) else .undefined
    else if name.length < 1024 then copy_refname cs (pos + 1) (name ++ [c])
    else .undefined

/-- The loop `while(isdigit(*buf) && buf - origbuf < namelen)` that reads the
five-prime offset (lines 93-97 and 192-196).  `*buf` is read before the
cursor is compared with `namelen`. -/
def parse_fivepoff (namelen : Nat) : List Char → Nat → Nat → Step (Nat × Cursor)
  | [], _, _ => .undefined
  | c :: cs, pos, fivepoff =>
    if c.isDigit ∧ pos < namelen then
      parse_fivepoff namelen cs (pos + 1) (pushDigitSize fivepoff c)
    else .ok (fivepoff, ⟨c :: cs, pos⟩)

/-! ## `parse_hints` -/

/-- The loop that reads the reference offset (lines 71-76). -/
def parse_refoff (dbg : Bool) : List Char → Nat → Int → Step (Int × Cursor)
  | [], _, _ => .undefined
  | c :: cs, pos, refoff =>
    if c = '!' then .ok (refoff, ⟨c :: cs, pos⟩)
    else if dbg ∧ c.isDigit = false then .assertFailed
    else (pushDigitOff refoff c).bind fun a => parse_refoff dbg cs (pos + 1) a

/-- The loop that reads the length of the seed hit (lines 84-89). -/
def parse_len (dbg : Bool) : List Char → Nat → Nat → Step (Nat × Cursor)
  | [], _, _ => .undefined
  | c :: cs, pos, len =>
    if c = '!' then .ok (len, ⟨c :: cs, pos⟩)
    else if dbg ∧ c.isDigit = false then .assertFailed
    else parse_len dbg cs (pos + 1) (pushDigitSize len c)

/-- The statements `assert_eq(*buf, '!'); buf++;` of lines 81-82: the
character is only read when assertions are compiled in. -/
def expect_bang (dbg : Bool) (cur : Cursor) : Step Cursor :=
  if dbg then
    match cur.rest with
    | [] => .undefined
    | c :: cs => if c = '!' then .ok ⟨cs, cur.pos + 1⟩ else .assertFailed
  else .ok ⟨cur.rest.tail, cur.pos + 1⟩

/-- One pass through the body of the loop of `parse_hints` (lines 52-99),
entered with `*buf == '!'`: the hit that is pushed and the cursor behind it. -/
def seed_hit_body (dbg : Bool) (refidMap : List Char → Option Int) (namelen : Nat)
    (cur : Cursor) : Step (SeedHit × Cursor) :=
  -- lines 55-62: reference name
  (copy_refname cur.rest.tail (cur.pos + 1) []).bind fun nc =>
  -- lines 63-69: lookup
  match refidMap nc.1 with
  | none => .thrown
  | some refid =>
    -- lines 70-78: reference offset
    (parse_refoff dbg nc.2.rest.tail (nc.2.pos + 1) 0).bind fun oc =>
    -- line 80: orientation
    match oc.2.rest.tail with
    | [] => .undefined
    | o :: cs =>
      let fw : Bool := o = '+'
      -- lines 81-82
      (expect_bang dbg ⟨cs, oc.2.pos + 2⟩).bind fun c3 =>
      -- lines 83-91: length
      (parse_len dbg c3.rest c3.pos 0).bind fun lc =>
      -- lines 92-98: five-prime offset
      (parse_fivepoff namelen lc.2.rest.tail (lc.2.pos + 1) 0).bind fun fc =>
      .ok (⟨⟨refid, oc.1, fw, (lc.1 : Int)⟩, fc.1⟩, fc.2)

/-- The loop of `parse_hints` (lines 51-100).  The guard reads `*buf` before it
compares the cursor with `namelen`.  Every pass moves the cursor forward, so
`fuel` passes are enough when `fuel` exceeds the number of characters left. -/
def seed_loop (dbg : Bool) (refidMap : List Char → Option Int) (namelen : Nat) :
    Nat → Cursor → List SeedHit → Result SeedHit
  | 0, _, hints => ⟨.undefined, hints⟩
  | fuel + 1, cur, hints =>
    match cur.rest with
    | [] => ⟨.undefined, hints⟩
    | c :: _ =>
      if c = '!' ∧ cur.pos < namelen then
        match seed_hit_body dbg refidMap namelen cur with
        | .ok hc => seed_loop dbg refidMap namelen fuel hc.2 (hints ++ [hc.1])
        | .thrown => ⟨.thrown, hints⟩
        | .assertFailed => ⟨.assertFailed, hints⟩
        | .undefined => ⟨.undefined, hints⟩
      else ⟨.returned, hints⟩

/-- The assertions `assert_eq(buf[0], '!'); assert_eq(buf[1], 'h');
assert_eq(buf[2], '!');` at the head of both decoders: `none` when they pass or
are compiled out. -/
def entry_asserts (dbg : Bool) (buf : List Char) : Option Status :=
  if dbg then
    match buf with
    | c0 :: c1 :: c2 :: _ =>
      if c0 = '!' ∧ c1 = 'h' ∧ c2 = '!' then none else some .assertFailed
    | [c0, c1] => if c0 = '!' ∧ c1 = 'h' then some .undefined else some .assertFailed
    | [c0] => if c0 = '!' then some .undefined else some .assertFailed
    | [] => some .undefined
  else none

/-- The function `parse_hints` (lines 38-101).  The reference table is the
function `refidMap`: `refidMap.find(refname, refid)` finds the id
`refidMap name` for the name copied to `refname`, or nothing.  A negative
`hint_off` puts `buf` in front of the buffer. -/
def parse_hints (dbg : Bool) (r : Read) (hint_off : Int) (hints : List SeedHit)
    (refidMap : List Char → Option Int) : Result SeedHit :=
  if hint_off < 0 then ⟨.undefined, hints⟩
  else
    let buf := r.storage.drop hint_off.toNat
    match entry_asserts dbg buf with
    | some st => ⟨st, hints⟩
    | none =>
      seed_loop dbg refidMap r.name.length (r.storage.length + 1)
        ⟨buf.drop 2, hint_off.toNat + 2⟩ hints

/-! ## `parse_interval_hints` -/

/-- The loops that read the left and the right reference offset (lines 145-153
and 161-170): a character that is neither `!` nor a digit is reported and
`throw 1` follows.  The `assert` of line 167 stands behind that test and
cannot fail. -/
def parse_off_checked : List Char → Nat → Int → Step (Int × Cursor)
  | [], _, _ => .undefined
  | c :: cs, pos, refoff =>
    if c = '!' then .ok (refoff, ⟨c :: cs, pos⟩)
    else if c.isDigit = false then .thrown
    else (pushDigitOff refoff c).bind fun a => parse_off_checked cs (pos + 1) a

/-- The loop that reads the length of the seed hit (lines 176-184), with the
same test. -/
def parse_len_checked : List Char → Nat → Nat → Step (Nat × Cursor)
  | [], _, _ => .undefined
  | c :: cs, pos, len =>
    if c = '!' then .ok (len, ⟨c :: cs, pos⟩)
    else if c.isDigit = false then .thrown
    else parse_len_checked cs (pos + 1) (pushDigitSize len c)

/-- The statements `if(*buf == '-') { negative = true; buf++; }` of lines
140-144. -/
def parse_sign (cur : Cursor) : Step (Bool × Cursor) :=
  match cur.rest with
  | [] => .undefined
  | c :: cs => if c = '-' then .ok (true, ⟨cs, cur.pos + 1⟩) else .ok (false, cur)

/-- The statement `assert_gt(refoff_r, refoff_l);` of line 172. -/
def assert_gt (dbg : Bool) (refoff_r refoff_l : Int) : Step Unit :=
  if dbg ∧ ¬ refoff_r > refoff_l then .assertFailed else .ok ()

/-- One pass through the body of the loop of `parse_interval_hints` (lines
120-199), entered with `*buf == '!'`. -/
def interval_hit_body (dbg : Bool) (refidMap : List Char → Option Int) (namelen : Nat)
    (cur : Cursor) : Step (IntervalHit × Cursor) :=
  -- lines 123-130: reference name
  (copy_refname cur.rest.tail (cur.pos + 1) []).bind fun nc =>
  -- lines 131-137: lookup
  match refidMap nc.1 with
  | none => .thrown
  | some refid =>
    -- lines 138-158: left reference offset
    (parse_sign ⟨nc.2.rest.tail, nc.2.pos + 1⟩).bind fun sc =>
    (parse_off_checked sc.2.rest sc.2.pos 0).bind fun lc =>
    let negative := sc.1
    (if negative then checkRefOff (-lc.1) else .ok lc.1).bind fun refoff_l =>
    -- lines 159-173: right reference offset
    (parse_off_checked lc.2.rest.tail (lc.2.pos + 1) 0).bind fun rc =>
    let refoff_r := rc.1
    (assert_gt dbg refoff_r refoff_l).bind fun _ =>
    -- lines 174-187: length
    (parse_len_checked rc.2.rest.tail (rc.2.pos + 1) 0).bind fun nl =>
    let len : Nat := if negative then (SIZE_MOD - nl.1) % SIZE_MOD else nl.1
    -- line 189: `refoff_r - refoff_l + 1`
    (checkRefOff (refoff_r - refoff_l)).bind fun d =>
    (checkRefOff (d + 1)).bind fun ivlen =>
    -- lines 190-198: five-prime offset
    (parse_fivepoff namelen nl.2.rest.tail (nl.2.pos + 1) 0).bind fun fc =>
    .ok (⟨⟨refid, refoff_l, true, ivlen⟩, fc.1, len⟩, fc.2)

/-- The loop of `parse_interval_hints` (lines 119-200). -/
def interval_loop (dbg : Bool) (refidMap : List Char → Option Int) (namelen : Nat) :
    Nat → Cursor → List IntervalHit → Result IntervalHit
  | 0, _, hints => ⟨.undefined, hints⟩
  | fuel + 1, cur, hints =>
    match cur.rest with
    | [] => ⟨.undefined, hints⟩
    | c :: _ =>
      if c = '!' ∧ cur.pos < namelen then
        match interval_hit_body dbg refidMap namelen cur with
        | .ok hc => interval_loop dbg refidMap namelen fuel hc.2 (hints ++ [hc.1])
        | .thrown => ⟨.thrown, hints⟩
        | .assertFailed => ⟨.assertFailed, hints⟩
        | .undefined => ⟨.undefined, hints⟩
      else ⟨.returned, hints⟩

/-- The function `parse_interval_hints` (lines 106-201), with `refidMap` as in
`parse_hints`. -/
def parse_interval_hints (dbg : Bool) (r : Read) (hint_off : Int)
    (hints : List IntervalHit) (refidMap : List Char → Option Int) :
    Result IntervalHit :=
  if hint_off < 0 then ⟨.undefined, hints⟩
  else
    let buf := r.storage.drop hint_off.toNat
    match entry_asserts dbg buf with
    | some st => ⟨st, hints⟩
    | none =>
      interval_loop dbg refidMap r.name.length (r.storage.length + 1)
        ⟨buf.drop 2, hint_off.toNat + 2⟩ hints

/-! ## The hint format

The text of the records as it stands in a read name, and the records that the
text stands for.  These definitions speak about the format; the decoders above
do not use them. -/

/-- The number that a run of digits denotes after the digits that gave `a`. -/
def digitsValueFrom (a : Nat) (ds : List Char) : Nat :=
  ds.foldl (fun v c => v * 10 + (c.toNat - 48)) a

/-- The number that a run of decimal digits denotes; the empty run denotes 0. -/
def digitsValue (ds : List Char) : Nat := digitsValueFrom 0 ds

/-- All characters of the field are decimal digits. -/
def allDigits (ds : List Char) : Prop := ∀ c ∈ ds, c.isDigit = true

/-- The fields of one point record as they are written in the name. -/
structure PointFields where
  name : List Char
  off : List Char
  orient : Char
  len : List Char
  five : List Char
  deriving DecidableEq, Repr

/-- The text of a point record:
`!<refname>!<offset>!<orientation-char>!<length>!<five-prime-offset>`. -/
def PointFields.text (f : PointFields) : List Char :=
  '!' :: f.name ++ '!' :: f.off ++ '!' :: f.orient :: '!' :: f.len ++ '!' :: f.five

/-- A point record that the decoder can take in: the name has no `!`, fits
`refname` and is in the table; the three numbers are digit runs whose values
fit `TRefOff`, `size_t` and `size_t`. -/
def PointFields.wellFormed (refidMap : List Char → Option Int) (f : PointFields) : Prop :=
  '!' ∉ f.name ∧ f.name.length < 1024 ∧ (refidMap f.name).isSome = true ∧
  allDigits f.off ∧ digitsValue f.off < 9223372036854775808 ∧
  allDigits f.len ∧ digitsValue f.len < SIZE_MOD ∧
  allDigits f.five ∧ digitsValue f.five < SIZE_MOD

/-- The hit that a point record stands for: the table id of the name, the
offset, forward iff the orientation character is `+`, the length, and the
five-prime offset. -/
def PointFields.hit (refidMap : List Char → Option Int) (f : PointFields) : SeedHit :=
  ⟨⟨(refidMap f.name).getD (-1), (digitsValue f.off : Int), f.orient = '+',
    (digitsValue f.len : Int)⟩, digitsValue f.five⟩

/-- The text of consecutive point records. -/
def pointText : List PointFields → List Char
  | [] => []
  | f :: fs => f.text ++ pointText fs

/-- A point hit given by its values rather than by its text. -/
structure PointRecord where
  name : List Char
  off : Nat
  fw : Bool
  len : Nat
  five : Nat
  deriving DecidableEq, Repr

/-- The fields of a point hit written out: the numbers in decimal, the
orientation as `+` or `-`. -/
def PointRecord.fields (p : PointRecord) : PointFields :=
  ⟨p.name, Nat.toDigits 10 p.off, if p.fw then '+' else '-', Nat.toDigits 10 p.len,
    Nat.toDigits 10 p.five⟩

/-- The fields of one interval record as they are written in the name; `neg`
says whether a `-` stands in front of the left offset. -/
structure IntervalFields where
  name : List Char
  neg : Bool
  left : List Char
  right : List Char
  len : List Char
  five : List Char
  deriving DecidableEq, Repr

/-- The text of an interval record:
`!<refname>![-]<left>!<right>!<length>!<five-prime-offset>`. -/
def IntervalFields.text (f : IntervalFields) : List Char :=
  '!' :: f.name ++ '!' :: (if f.neg then ['-'] else []) ++ f.left ++ '!' :: f.right ++
    '!' :: f.len ++ '!' :: f.five

/-- An interval record whose fields the decoder can read: the name has no `!`
and is in the table; the four numbers are digit runs whose values fit
`TRefOff`, `TRefOff`, `size_t` and `size_t`. -/
def IntervalFields.wellFormed (refidMap : List Char → Option Int) (f : IntervalFields) :
    Prop :=
  '!' ∉ f.name ∧ (refidMap f.name).isSome = true ∧
  allDigits f.left ∧ digitsValue f.left < 9223372036854775808 ∧
  allDigits f.right ∧ digitsValue f.right < 9223372036854775808 ∧
  allDigits f.len ∧ digitsValue f.len < SIZE_MOD ∧
  allDigits f.five ∧ digitsValue f.five < SIZE_MOD

/-- The left offset that an interval record denotes. -/
def IntervalFields.leftValue (f : IntervalFields) : Int :=
  if f.neg then -(digitsValue f.left : Int) else (digitsValue f.left : Int)

/-- The hit that an interval record stands for: the table id of the name, the
left offset, forward, the positional length `right - left + 1`, the
five-prime offset, and as hit length the length field, negated in `size_t`
when the left offset carries a `-`. -/
def IntervalFields.hit (refidMap : List Char → Option Int) (f : IntervalFields) :
    IntervalHit :=
  ⟨⟨(refidMap f.name).getD (-1), f.leftValue, true,
    (digitsValue f.right : Int) - f.leftValue + 1⟩,
   digitsValue f.five,
   if f.neg then (SIZE_MOD - digitsValue f.len) % SIZE_MOD else digitsValue f.len⟩

/-- A point hit whose text the decoder can take in: the name has no `!`, fits
`refname` and is in the table; the numbers fit `TRefOff`, `size_t` and
`size_t`. -/
def PointRecord.encodable (refidMap : List Char → Option Int) (p : PointRecord) : Prop :=
  '!' ∉ p.name ∧ p.name.length < 1024 ∧ (refidMap p.name).isSome = true ∧
  p.off < 9223372036854775808 ∧ p.len < SIZE_MOD ∧ p.five < SIZE_MOD

/-- The hit with the values of a point record and the table id of its name. -/
def PointRecord.hit (refidMap : List Char → Option Int) (p : PointRecord) : SeedHit :=
  ⟨⟨(refidMap p.name).getD (-1), (p.off : Int), p.fw, (p.len : Int)⟩, p.five⟩

/-- The three characters from index `i` of the name are `!h!`. -/
def windowAt (name : List Char) (i : Nat) : Prop :=
  name[i]? = some '!' ∧ name[i + 1]? = some 'h' ∧ name[i + 2]? = some '!'

instance (name : List Char) (i : Nat) : Decidable (windowAt name i) := by
  unfold windowAt; exact inferInstance

/-- A character that is neither a decimal digit nor the separator `!`: the
checked loops of the interval decoder answer it with `throw 1`. -/
def offending (b : Char) : Prop := b.isDigit = false ∧ b ≠ '!'

/-- The way a failing pass through a loop body ends the call. -/
def Step.failure {α : Type} : Step α → Option Status
  | .ok _ => none
  | .thrown => some .thrown
  | .assertFailed => some .assertFailed
  | .undefined => some .undefined

/-- The first `j` passes through a loop with the body `body`, all of which push
a hit: the hits in the order in which they are pushed and the cursor behind
them; `none` when the loop ends before. -/
def passes {H : Type} (body : Cursor → Step (H × Cursor)) (namelen : Nat) :
    Nat → Cursor → Option (List H × Cursor)
  | 0, cur => some ([], cur)
  | j + 1, cur =>
    match cur.rest with
    | [] => none
    | c :: _ =>
      if c = '!' ∧ cur.pos < namelen then
        match body cur with
        | .ok hc => (passes body namelen j hc.2).map fun r => (hc.1 :: r.1, r.2)
        | .thrown => none
        | .assertFailed => none
        | .undefined => none
      else none

/-- The indices of `refname` that the loop `while(*buf != '!') *refbuf++ =
*buf++;` and the statement `*refbuf = '\0';` (lines 57-60 and 125-128) write,
in the order of the writes, when `refbuf` stands at index `k`.  Nothing bounds
them; they end where the read leaves the buffer. -/
def refname_writes : List Char → Nat → List Nat
  | [], _ => []
  | c :: cs, k => if c = '!' then [k] else k :: refname_writes cs (k + 1)

/-- The reference name of the record that stands at the cursor: the run of
characters other than `!` behind the `!` that opens the record. -/
def record_name (cur : Cursor) : List Char := cur.rest.tail.takeWhile fun c => c != '!'

/-! ## Concrete inputs -/

/-- A reference table with the two names `chr1` and `chr2`. -/
def exampleTable : List Char → Option Int := fun n =>
  if n = "chr1".toList then some 7 else if n = "chr2".toList then some 9 else none

/-- Two point records, the second with an orientation character other than `+`
and `-`. -/
def twoRecords : List PointFields :=
  [⟨"chr1".toList, "100".toList, '+', "50".toList, "10".toList⟩,
   ⟨"chr2".toList, "3".toList, 'r', "4".toList, "5".toList⟩]

/-- The interval record `!chr2!200!250!0!5`. -/
def chr2Fields : IntervalFields :=
  ⟨"chr2".toList, false, "200".toList, "250".toList, "0".toList, "5".toList⟩

/-- A reference name of 1024 characters, one more than `refname` holds next to
its terminator. -/
def longName : List Char := List.replicate 1024 'a'

/-- A reference table with the name `longName`. -/
def longTable : List Char → Option Int := fun n => if n = longName then some 1 else none

/-- The interval record `!chr2!-10!5!0!3`. -/
def negFields : IntervalFields :=
  ⟨"chr2".toList, true, "10".toList, "5".toList, "0".toList, "3".toList⟩

/-- A read whose second record names the unknown reference `chrX`. -/
def secondUnknown : Read := ⟨"r1!h!chr1!100!+!50!10!chrX!3!-!4!5".toList, 'x', []⟩

/-- A read whose second interval record has the left offset `1a`. -/
def secondMalformed : Read := ⟨"r1!h!chr1!100!150!7!10!chr2!1a!9!4!5".toList, 'x', []⟩

/-- A read with two point records. -/
def twoHits : Read := ⟨"r1!h!chr1!100!+!50!10!chr2!3!r!4!5".toList, 'x', []⟩

/-- A reference table whose one name, `a!b`, holds the separator. -/
def bangTable : List Char → Option Int := fun n => if n = "a!b".toList then some 3 else none

/-- The point record `!chr1!07!-!!`, with a leading zero and two empty fields. -/
def sparseFields : PointFields := ⟨"chr1".toList, "07".toList, '-', [], []⟩

/-! ## Lemmas -/

/-! ### Digits and machine integers -/

theorem isDigit_iff (c : Char) : c.isDigit = true ↔ 48 ≤ c.toNat ∧ c.toNat ≤ 57 := by
  simp [Char.isDigit, Char.toNat, UInt32.le_def, BitVec.le_def, UInt32.toNat]

theorem ne_bang_of_isDigit (c : Char) (h : c.isDigit = true) : c ≠ '!' := by
  intro h2; subst h2; revert h; decide

@[simp]
theorem Step.bind_ok {α β : Type} (a : α) (f : α → Step β) :
    (Step.ok a).bind f = f a := rfl

theorem checkRefOff_of_range (x : Int) (h0 : -9223372036854775808 ≤ x)
    (h1 : x < 9223372036854775808) : checkRefOff x = .ok x := by
  unfold checkRefOff
  rw [if_pos ⟨h0, h1⟩]

theorem checkRefOff_of_large (x : Int) (h1 : 9223372036854775808 ≤ x) :
    checkRefOff x = .undefined := by
  unfold checkRefOff
  rw [if_neg (by omega)]

theorem pushDigitOff_digit (a : Nat) (c : Char) (hc : c.isDigit = true)
    (h : a * 10 + (c.toNat - 48) < 9223372036854775808) :
    pushDigitOff (a : Int) c = .ok ((a * 10 + (c.toNat - 48) : Nat) : Int) := by
  have hd := (isDigit_iff c).1 hc
  unfold pushDigitOff
  rw [checkRefOff_of_range ((a : Int) * 10) (by omega) (by omega), Step.bind_ok,
    checkRefOff_of_range _ (by omega) (by omega)]
  congr 1
  omega

theorem pushDigitSize_digit (a : Nat) (c : Char) (hc : c.isDigit = true)
    (h : a * 10 + (c.toNat - 48) < SIZE_MOD) :
    pushDigitSize a c = a * 10 + (c.toNat - 48) := by
  have hd := (isDigit_iff c).1 hc
  unfold pushDigitSize
  unfold SIZE_MOD at *
  omega

theorem le_digitsValueFrom (ds : List Char) : ∀ a, a ≤ digitsValueFrom a ds := by
  induction ds with
  | nil => intro a; exact Nat.le_refl _
  | cons c cs ih =>
    intro a
    have := ih (a * 10 + (c.toNat - 48))
    simp only [digitsValueFrom, List.foldl_cons] at *
    omega

/-! ### The loops on well-formed fields -/

theorem parse_refoff_digits (dbg : Bool) (ds : List Char) (hds : allDigits ds) :
    ∀ (a pos : Nat) (t : List Char), digitsValueFrom a ds < 9223372036854775808 →
      parse_refoff dbg (ds ++ '!' :: t) pos (a : Int)
        = .ok (((digitsValueFrom a ds : Nat) : Int), ⟨'!' :: t, pos + ds.length⟩) := by
  induction ds with
  | nil => intro a pos t _; simp [parse_refoff, digitsValueFrom]
  | cons c cs ih =>
    intro a pos t h
    have hc : c.isDigit = true := hds c (List.mem_cons_self _ _)
    have hcs : allDigits cs := fun x hx => hds x (List.mem_cons_of_mem _ hx)
    have hne := ne_bang_of_isDigit c hc
    have h1 : digitsValueFrom a (c :: cs) = digitsValueFrom (a * 10 + (c.toNat - 48)) cs := rfl
    have h2 := le_digitsValueFrom cs (a * 10 + (c.toNat - 48))
    rw [h1] at h ⊢
    have e : parse_refoff dbg ((c :: cs) ++ '!' :: t) pos (a : Int)
        = (pushDigitOff (a : Int) c).bind fun a => parse_refoff dbg (cs ++ '!' :: t) (pos + 1) a := by
      simp [parse_refoff, hne, hc]
    rw [e, pushDigitOff_digit a c hc (by omega), Step.bind_ok, ih hcs _ (pos + 1) t h]
    simp only [List.length_cons, Nat.add_assoc, Nat.add_comm 1]

theorem parse_len_digits (dbg : Bool) (ds : List Char) (hds : allDigits ds) :
    ∀ (a pos : Nat) (t : List Char), digitsValueFrom a ds < SIZE_MOD →
      parse_len dbg (ds ++ '!' :: t) pos a
        = .ok (digitsValueFrom a ds, ⟨'!' :: t, pos + ds.length⟩) := by
  induction ds with
  | nil => intro a pos t _; simp [parse_len, digitsValueFrom]
  | cons c cs ih =>
    intro a pos t h
    have hc : c.isDigit = true := hds c (List.mem_cons_self _ _)
    have hcs : allDigits cs := fun x hx => hds x (List.mem_cons_of_mem _ hx)
    have hne := ne_bang_of_isDigit c hc
    have h1 : digitsValueFrom a (c :: cs) = digitsValueFrom (a * 10 + (c.toNat - 48)) cs := rfl
    have h2 := le_digitsValueFrom cs (a * 10 + (c.toNat - 48))
    rw [h1] at h ⊢
    have e : parse_len dbg ((c :: cs) ++ '!' :: t) pos a
        = parse_len dbg (cs ++ '!' :: t) (pos + 1) (pushDigitSize a c) := by
      simp [parse_len, hne, hc]
    rw [e, pushDigitSize_digit a c hc (by omega), ih hcs _ (pos + 1) t h]
    simp only [List.length_cons, Nat.add_assoc, Nat.add_comm 1]

theorem parse_off_checked_digits (ds : List Char) (hds : allDigits ds) :
    ∀ (a pos : Nat) (t : List Char), digitsValueFrom a ds < 9223372036854775808 →
      parse_off_checked (ds ++ '!' :: t) pos (a : Int)
        = .ok (((digitsValueFrom a ds : Nat) : Int), ⟨'!' :: t, pos + ds.length⟩) := by
  induction ds with
  | nil => intro a pos t _; simp [parse_off_checked, digitsValueFrom]
  | cons c cs ih =>
    intro a pos t h
    have hc : c.isDigit = true := hds c (List.mem_cons_self _ _)
    have hcs : allDigits cs := fun x hx => hds x (List.mem_cons_of_mem _ hx)
    have hne := ne_bang_of_isDigit c hc
    have h1 : digitsValueFrom a (c :: cs) = digitsValueFrom (a * 10 + (c.toNat - 48)) cs := rfl
    have h2 := le_digitsValueFrom cs (a * 10 + (c.toNat - 48))
    rw [h1] at h ⊢
    have e : parse_off_checked ((c :: cs) ++ '!' :: t) pos (a : Int)
        = (pushDigitOff (a : Int) c).bind fun a => parse_off_checked (cs ++ '!' :: t) (pos + 1) a := by
      simp [parse_off_checked, hne, hc]
    rw [e, pushDigitOff_digit a c hc (by omega), Step.bind_ok, ih hcs _ (pos + 1) t h]
    simp only [List.length_cons, Nat.add_assoc, Nat.add_comm 1]

theorem parse_len_checked_digits (ds : List Char) (hds : allDigits ds) :
    ∀ (a pos : Nat) (t : List Char), digitsValueFrom a ds < SIZE_MOD →
      parse_len_checked (ds ++ '!' :: t) pos a
        = .ok (digitsValueFrom a ds, ⟨'!' :: t, pos + ds.length⟩) := by
  induction ds with
  | nil => intro a pos t _; simp [parse_len_checked, digitsValueFrom]
  | cons c cs ih =>
    intro a pos t h
    have hc : c.isDigit = true := hds c (List.mem_cons_self _ _)
    have hcs : allDigits cs := fun x hx => hds x (List.mem_cons_of_mem _ hx)
    have hne := ne_bang_of_isDigit c hc
    have h1 : digitsValueFrom a (c :: cs) = digitsValueFrom (a * 10 + (c.toNat - 48)) cs := rfl
    have h2 := le_digitsValueFrom cs (a * 10 + (c.toNat - 48))
    rw [h1] at h ⊢
    have e : parse_len_checked ((c :: cs) ++ '!' :: t) pos a
        = parse_len_checked (cs ++ '!' :: t) (pos + 1) (pushDigitSize a c) := by
      simp [parse_len_checked, hne, hc]
    rw [e, pushDigitSize_digit a c hc (by omega), ih hcs _ (pos + 1) t h]
    simp only [List.length_cons, Nat.add_assoc, Nat.add_comm 1]

/-- The five-prime loop on a digit run that lies inside the name and is followed
by a character at which the loop stops. -/
theorem parse_fivepoff_digits (namelen : Nat) (ds : List Char) (hds : allDigits ds) :
    ∀ (a pos : Nat) (c : Char) (t : List Char), digitsValueFrom a ds < SIZE_MOD →
      pos + ds.length ≤ namelen →
      (c.isDigit = false ∨ namelen ≤ pos + ds.length) →
      parse_fivepoff namelen (ds ++ c :: t) pos a
        = .ok (digitsValueFrom a ds, ⟨c :: t, pos + ds.length⟩) := by
  induction ds with
  | nil =>
    intro a pos c t _ _ hstop
    have : ¬ (c.isDigit = true ∧ pos < namelen) := by
      rintro ⟨h1, h2⟩
      rcases hstop with h | h
      · simp [h1] at h
      · simp at h; omega
    simp [parse_fivepoff, digitsValueFrom, this]
  | cons d cs ih =>
    intro a pos c t h hin hstop
    have hc : d.isDigit = true := hds d (List.mem_cons_self _ _)
    have hcs : allDigits cs := fun x hx => hds x (List.mem_cons_of_mem _ hx)
    have h1 : digitsValueFrom a (d :: cs) = digitsValueFrom (a * 10 + (d.toNat - 48)) cs := rfl
    have h2 := le_digitsValueFrom cs (a * 10 + (d.toNat - 48))
    simp only [List.length_cons] at hin hstop
    have hpos : pos < namelen := by omega
    rw [h1] at h ⊢
    have e : parse_fivepoff namelen ((d :: cs) ++ c :: t) pos a
        = parse_fivepoff namelen (cs ++ c :: t) (pos + 1) (pushDigitSize a d) := by
      simp [parse_fivepoff, hc, hpos]
    rw [e, pushDigitSize_digit a d hc (by omega),
      ih hcs _ (pos + 1) c t h (by omega) (by rcases hstop with h | h; exact Or.inl h; exact Or.inr (by omega))]
    simp only [List.length_cons, Nat.add_assoc, Nat.add_comm 1]

theorem copy_refname_ok (n : List Char) (hn : '!' ∉ n) :
    ∀ (pos : Nat) (acc t : List Char), acc.length + n.length < 1024 →
      copy_refname (n ++ '!' :: t) pos acc
        = .ok (acc ++ n, ⟨'!' :: t, pos + n.length⟩) := by
  induction n with
  | nil => intro pos acc t h; simp at h; simp [copy_refname, h]
  | cons c cs ih =>
    intro pos acc t h
    have hc : c ≠ '!' := fun e => hn (e ▸ List.mem_cons_self _ _)
    have hcs : '!' ∉ cs := fun e => hn (List.mem_cons_of_mem _ e)
    simp only [List.length_cons] at h
    have hl : acc.length < 1024 := by omega
    have e : copy_refname ((c :: cs) ++ '!' :: t) pos acc
        = copy_refname (cs ++ '!' :: t) (pos + 1) (acc ++ [c]) := by
      simp [copy_refname, hc, hl]
    rw [e, ih hcs (pos + 1) (acc ++ [c]) t (by simp; omega)]
    simp only [List.length_cons, Nat.add_assoc, Nat.add_comm 1, List.append_assoc,
      List.singleton_append]

/-- A name of 1024 characters or more does not fit `refname`, whatever stands
behind it. -/
theorem copy_refname_overflow (n : List Char) (hn : '!' ∉ n) :
    ∀ (pos : Nat) (acc t : List Char), 1024 ≤ acc.length + n.length →
      copy_refname (n ++ t) pos acc = .undefined := by
  induction n with
  | nil =>
    intro pos acc t h
    simp only [List.length_nil, Nat.add_zero] at h
    have hl : ¬ acc.length < 1024 := by omega
    cases t with
    | nil => rfl
    | cons c cs => simp [copy_refname, hl]
  | cons c cs ih =>
    intro pos acc t h
    have hc : c ≠ '!' := fun e => hn (e ▸ List.mem_cons_self _ _)
    have hcs : '!' ∉ cs := fun e => hn (List.mem_cons_of_mem _ e)
    simp only [List.length_cons] at h
    by_cases hl : acc.length < 1024
    · have e : copy_refname ((c :: cs) ++ t) pos acc
          = copy_refname (cs ++ t) (pos + 1) (acc ++ [c]) := by
        simp [copy_refname, hc, hl]
      rw [e, ih hcs (pos + 1) (acc ++ [c]) t (by simp; omega)]
    · simp [copy_refname, hc, hl]

/-! ### Point records -/

theorem pointFields_text_length (f : PointFields) :
    f.text.length = f.name.length + f.off.length + f.len.length + f.five.length + 6 := by
  simp [PointFields.text]
  omega

theorem seed_hit_body_text (dbg : Bool) (refidMap : List Char → Option Int) (namelen : Nat)
    (f : PointFields) (hwf : f.wellFormed refidMap) (c : Char) (t : List Char) (pos : Nat)
    (hin : pos + f.text.length ≤ namelen)
    (hstop : c.isDigit = false ∨ namelen ≤ pos + f.text.length) :
    seed_hit_body dbg refidMap namelen ⟨f.text ++ c :: t, pos⟩
      = .ok (f.hit refidMap, ⟨c :: t, pos + f.text.length⟩) := by
  obtain ⟨hn, hnl, hid, hod, hov, hld, hlv, hfd, hfv⟩ := hwf
  obtain ⟨id, hid⟩ := Option.isSome_iff_exists.1 hid
  have htl := pointFields_text_length f
  have e : f.text ++ c :: t = '!' :: (f.name ++ '!' :: (f.off ++ '!' :: f.orient :: '!' ::
      (f.len ++ '!' :: (f.five ++ c :: t)))) := by
    simp [PointFields.text]
  unfold seed_hit_body
  simp only [e, List.tail_cons]
  rw [copy_refname_ok f.name hn _ [] _ (by simpa using hnl)]
  simp only [Step.bind_ok, List.nil_append, hid, List.tail_cons]
  rw [show ((0 : Int) = ((0 : Nat) : Int)) from rfl, parse_refoff_digits dbg f.off hod 0 _ _ hov]
  simp only [Step.bind_ok, List.tail_cons]
  have eb : ∀ (r : List Char) (p : Nat), expect_bang dbg ⟨'!' :: r, p⟩ = .ok ⟨r, p + 1⟩ := by
    intro r p; cases dbg <;> simp [expect_bang]
  rw [eb]
  simp only [Step.bind_ok]
  rw [parse_len_digits dbg f.len hld 0 _ _ hlv]
  simp only [Step.bind_ok, List.tail_cons]
  rw [parse_fivepoff_digits namelen f.five hfd 0 _ c t hfv (by omega) (by
    rcases hstop with h | h
    · exact Or.inl h
    · exact Or.inr (by omega))]
  simp only [Step.bind_ok, PointFields.hit, hid, Option.getD_some, digitsValue]
  congr 3
  omega

theorem pointText_length_ge (recs : List PointFields) :
    recs.length ≤ (pointText recs).length := by
  induction recs with
  | nil => simp [pointText]
  | cons f fs ih =>
    simp only [pointText, List.length_cons, List.length_append, pointFields_text_length f]
    omega

/-- What follows the five-prime field of a record that is followed by further
records and then by `c`. -/
theorem pointText_next (fs : List PointFields) (c : Char) (t : List Char) :
    ∃ c' t', pointText fs ++ c :: t = c' :: t' ∧ (fs = [] → c' = c) ∧
      (fs ≠ [] → c' = '!') := by
  cases fs with
  | nil => exact ⟨c, t, by simp [pointText], fun _ => rfl, fun h => absurd rfl h⟩
  | cons g gs =>
    exact ⟨'!', (pointText (g :: gs) ++ c :: t).tail, by simp [pointText, PointFields.text],
      fun h => by simp at h, fun _ => rfl⟩

theorem seed_loop_records (dbg : Bool) (refidMap : List Char → Option Int) (namelen : Nat)
    (recs : List PointFields) :
    ∀ (fuel pos : Nat) (hints : List SeedHit) (c : Char) (t : List Char),
      (∀ f ∈ recs, f.wellFormed refidMap) →
      recs.length < fuel →
      pos + (pointText recs).length ≤ namelen →
      ((c.isDigit = false ∧ c ≠ '!') ∨ namelen ≤ pos + (pointText recs).length) →
      seed_loop dbg refidMap namelen fuel ⟨pointText recs ++ c :: t, pos⟩ hints
        = ⟨.returned, hints ++ recs.map (PointFields.hit refidMap)⟩ := by
  induction recs with
  | nil =>
    intro fuel pos hints c t _ hfuel _ hstop
    obtain ⟨n, rfl⟩ : ∃ n, fuel = n + 1 := ⟨fuel - 1, by simp at hfuel; omega⟩
    have hg : ¬ (c = '!' ∧ pos < namelen) := by
      rintro ⟨h1, h2⟩
      rcases hstop with h | h
      · exact h.2 h1
      · simp [pointText] at h; omega
    simp [seed_loop, pointText, hg]
  | cons f fs ih =>
    intro fuel pos hints c t hwf hfuel hin hstop
    obtain ⟨n, rfl⟩ : ∃ n, fuel = n + 1 := ⟨fuel - 1, by simp at hfuel; omega⟩
    have hf := hwf f (List.mem_cons_self _ _)
    have hfs : ∀ g ∈ fs, g.wellFormed refidMap := fun g hg => hwf g (List.mem_cons_of_mem _ hg)
    have htl := pointFields_text_length f
    simp only [pointText, List.length_append] at hin hstop
    obtain ⟨c', t', hnext, hc1, hc2⟩ := pointText_next fs c t
    have hstop' : c'.isDigit = false ∨ namelen ≤ pos + f.text.length := by
      by_cases hfe : fs = []
      · subst hfe
        rw [hc1 rfl]
        rcases hstop with h | h
        · exact Or.inl h.1
        · simp [pointText] at h; exact Or.inr h
      · rw [hc2 hfe]; exact Or.inl (by decide)
    have hbody := seed_hit_body_text dbg refidMap namelen f hf c' t' pos (by omega) hstop'
    have e : pointText (f :: fs) ++ c :: t = f.text ++ c' :: t' := by
      simp only [pointText, List.append_assoc, hnext]
    have ehd : f.text ++ c' :: t' = '!' :: (f.text ++ c' :: t').tail := by
      simp [PointFields.text]
    rw [e]
    unfold seed_loop
    simp only []
    rw [ehd]
    simp only []
    rw [← ehd, hbody]
    have hg : ('!' = '!' ∧ pos < namelen) := ⟨rfl, by omega⟩
    simp only [hg, and_self, if_true]
    rw [← hnext, ih n (pos + f.text.length) (hints ++ [f.hit refidMap]) c t hfs
      (by simp at hfuel; omega) (by omega) (by
        rcases hstop with h | h
        · exact Or.inl h
        · exact Or.inr (by omega))]
    simp

theorem pointText_head (recs : List PointFields) (hk : recs ≠ []) :
    ∃ t, pointText recs = '!' :: t := by
  cases recs with
  | nil => exact absurd rfl hk
  | cons f fs => exact ⟨_, by simp only [pointText, PointFields.text, List.cons_append]; rfl⟩

theorem entry_asserts_sentinel (dbg : Bool) (t : List Char) :
    entry_asserts dbg ('!' :: 'h' :: '!' :: t) = none := by
  cases dbg <;> simp [entry_asserts]

/-- The call of `parse_hints` on a name that holds, behind `pre`, the text of
`recs` opened by the sentinel, followed by `post`. -/
theorem parse_hints_records (dbg : Bool) (pre post : List Char) (behind : Char)
    (slack : List Char) (recs : List PointFields) (hints : List SeedHit)
    (refidMap : List Char → Option Int)
    (hk : recs ≠ [])
    (hwf : ∀ f ∈ recs, f.wellFormed refidMap)
    (hpost : ∀ c ∈ post.head?, c.isDigit = false ∧ c ≠ '!') :
    parse_hints dbg ⟨pre ++ '!' :: 'h' :: pointText recs ++ post, behind, slack⟩
        (pre.length : Int) hints refidMap
      = ⟨.returned, hints ++ recs.map (PointFields.hit refidMap)⟩ := by
  obtain ⟨t0, ht0⟩ := pointText_head recs hk
  have hlen := pointText_length_ge recs
  obtain ⟨c, t, hct, hc⟩ : ∃ c t, post ++ behind :: slack = c :: t ∧
      (post = [] ∨ (c.isDigit = false ∧ c ≠ '!')) := by
    cases post with
    | nil => exact ⟨behind, slack, rfl, Or.inl rfl⟩
    | cons c cs => exact ⟨c, cs ++ behind :: slack, rfl, Or.inr (hpost c (by simp))⟩
  have hst : (Read.mk (pre ++ '!' :: 'h' :: pointText recs ++ post) behind slack).storage
      = pre ++ ('!' :: 'h' :: (pointText recs ++ c :: t)) := by
    simp [Read.storage, hct]
  unfold parse_hints
  simp only [hst]
  have hneg : ¬ ((pre.length : Int) < 0) := by omega
  simp only [hneg, if_false, Int.toNat_ofNat, List.drop_left]
  rw [show ('!' :: 'h' :: (pointText recs ++ c :: t)) = '!' :: 'h' :: '!' :: (t0 ++ c :: t) by
    rw [ht0]; rfl]
  rw [entry_asserts_sentinel]
  simp only [List.drop_succ_cons, List.drop_zero]
  rw [show '!' :: (t0 ++ c :: t) = pointText recs ++ c :: t by rw [ht0]; rfl]
  apply seed_loop_records
  · exact hwf
  · simp; omega
  · simp; omega
  · rcases hc with h | h
    · subst h; right; simp; omega
    · left; exact h

/-! ### Numbers written in decimal -/

theorem digitChar_spec (n : Nat) (h : n < 10) :
    (Nat.digitChar n).isDigit = true ∧ (Nat.digitChar n).toNat - 48 = n := by
  interval_cases n <;> decide

theorem digitsValueFrom_append (a : Nat) (xs ys : List Char) :
    digitsValueFrom a (xs ++ ys) = digitsValueFrom (digitsValueFrom a xs) ys := by
  simp [digitsValueFrom, List.foldl_append]

theorem toDigitsCore_spec : ∀ (fuel n : Nat) (ds : List Char), n < fuel →
    ∃ L, Nat.toDigitsCore 10 fuel n ds = L ++ ds ∧ allDigits L ∧
      ∀ a, digitsValueFrom a L = a * 10 ^ L.length + n := by
  intro fuel
  induction fuel with
  | zero => intro n ds h; omega
  | succ k ih =>
    intro n ds h
    have hd := digitChar_spec (n % 10) (Nat.mod_lt _ (by decide))
    by_cases h0 : n / 10 = 0
    · refine ⟨[Nat.digitChar (n % 10)], ?_, ?_, ?_⟩
      · simp [Nat.toDigitsCore, h0]
      · intro c hc
        simp at hc
        rw [hc]; exact hd.1
      · intro a
        simp only [digitsValueFrom, List.foldl_cons, List.foldl_nil, hd.2, List.length_singleton,
          pow_one]
        omega
    · obtain ⟨L, hL, hLd, hLv⟩ := ih (n / 10) (Nat.digitChar (n % 10) :: ds) (by omega)
      refine ⟨L ++ [Nat.digitChar (n % 10)], ?_, ?_, ?_⟩
      · simp [Nat.toDigitsCore, h0, hL]
      · intro c hc
        rcases List.mem_append.1 hc with h1 | h1
        · exact hLd c h1
        · simp at h1; rw [h1]; exact hd.1
      · intro a
        rw [digitsValueFrom_append, hLv a]
        simp only [digitsValueFrom, List.foldl_cons, List.foldl_nil, hd.2, List.length_append,
          List.length_singleton, pow_succ]
        have := Nat.div_add_mod n 10
        nlinarith

theorem toDigits_allDigits (n : Nat) : allDigits (Nat.toDigits 10 n) := by
  obtain ⟨L, hL, hLd, _⟩ := toDigitsCore_spec (n + 1) n [] (by omega)
  simp only [Nat.toDigits, hL, List.append_nil]
  exact hLd

theorem toDigits_value (n : Nat) : digitsValue (Nat.toDigits 10 n) = n := by
  obtain ⟨L, hL, _, hLv⟩ := toDigitsCore_spec (n + 1) n [] (by omega)
  simp only [Nat.toDigits, hL, List.append_nil, digitsValue, hLv 0]
  omega

/-! ### The sentinel search -/

theorem has_hint_loop_skip (name : List Char) (n i : Nat) (hi : i + 2 < name.length)
    (hmax : i + 2 ≤ INT_MAX) (hw : ¬ windowAt name i) :
    has_hint_loop name (n + 1) i = has_hint_loop name n (i + 1) := by
  have e0 : name[i]? = some name[i] := List.getElem?_eq_getElem (by omega)
  have e1 : name[i + 1]? = some name[i + 1] := List.getElem?_eq_getElem (by omega)
  have e2 : name[i + 2]? = some name[i + 2] := List.getElem?_eq_getElem (by omega)
  have m1 : i + 1 ≤ INT_MAX := by omega
  rw [has_hint_loop]
  simp only [e0, e1, e2, if_pos m1, if_pos hmax]
  by_cases h0 : name[i] = '!'
  · by_cases h1 : name[i + 1] = 'h'
    · by_cases h2 : name[i + 2] = '!'
      · exact absurd ⟨by rw [e0, h0], by rw [e1, h1], by rw [e2, h2]⟩ hw
      · simp [h0, h1, h2]
    · simp [h0, h1]
  · simp [h0]

theorem has_hint_loop_hit (name : List Char) (n i : Nat) (hmax : i + 2 ≤ INT_MAX)
    (hw : windowAt name i) :
    has_hint_loop name (n + 1) i = some (i : Int) := by
  have m1 : i + 1 ≤ INT_MAX := by omega
  unfold has_hint_loop
  simp [hw.1, hw.2.1, hw.2.2, m1, hmax]

theorem has_hint_loop_first (name : List Char) (p : Nat) (hp : windowAt name p)
    (hfirst : ∀ q < p, ¬ windowAt name q) (hmax : p + 2 ≤ INT_MAX) :
    ∀ (d i n : Nat), i + d = p → p < i + n → has_hint_loop name n i = some (p : Int) := by
  have hlen : p + 2 < name.length := by
    have := hp.2.2
    by_contra hc
    rw [List.getElem?_eq_none (by omega)] at this
    exact absurd this (by simp)
  intro d
  induction d with
  | zero =>
    intro i n hi hn
    obtain ⟨m, rfl⟩ : ∃ m, n = m + 1 := ⟨n - 1, by omega⟩
    have : i = p := by omega
    subst this
    exact has_hint_loop_hit name m i hmax hp
  | succ d ih =>
    intro i n hi hn
    obtain ⟨m, rfl⟩ : ∃ m, n = m + 1 := ⟨n - 1, by omega⟩
    rw [has_hint_loop_skip name m i (by omega) (by omega) (hfirst i (by omega))]
    exact ih (i + 1) m (by omega) (by omega)

theorem has_hint_of_first_window (r : Read) (p : Nat) (hp : windowAt r.name p)
    (hfirst : ∀ q < p, ¬ windowAt r.name q) (hmax : p + 2 ≤ INT_MAX) :
    has_hint r = some (p : Int) := by
  have hlen : p + 2 < r.name.length := by
    have := hp.2.2
    by_contra hc
    rw [List.getElem?_eq_none (by omega)] at this
    exact absurd this (by simp)
  unfold has_hint has_hint_bound
  rw [if_pos (by omega)]
  exact has_hint_loop_first r.name p hp hfirst hmax p 0 _ (by omega) (by omega)

/-! ### Interval records -/

theorem intervalFields_text_length (f : IntervalFields) :
    f.text.length = f.name.length + (if f.neg then 1 else 0) + f.left.length +
      f.right.length + f.len.length + f.five.length + 5 := by
  cases hn : f.neg <;> simp [IntervalFields.text, hn] <;> omega

/-- The body of the interval loop on the text of a record whose fields can be
read: everything is settled by the size of the name, the assertion of line 172
and the subtraction of line 189. -/
theorem interval_hit_body_text (dbg : Bool) (refidMap : List Char → Option Int)
    (namelen : Nat) (f : IntervalFields) (hwf : f.wellFormed refidMap) (c : Char)
    (t : List Char) (pos : Nat)
    (hin : pos + f.text.length ≤ namelen)
    (hstop : c.isDigit = false ∨ namelen ≤ pos + f.text.length) :
    interval_hit_body dbg refidMap namelen ⟨f.text ++ c :: t, pos⟩
      = if f.name.length < 1024 then
          (assert_gt dbg (digitsValue f.right : Int) f.leftValue).bind fun _ =>
          (checkRefOff ((digitsValue f.right : Int) - f.leftValue)).bind fun d =>
          (checkRefOff (d + 1)).bind fun ivlen =>
          .ok (⟨⟨(refidMap f.name).getD (-1), f.leftValue, true, ivlen⟩, digitsValue f.five,
            if f.neg then (SIZE_MOD - digitsValue f.len) % SIZE_MOD else digitsValue f.len⟩,
            ⟨c :: t, pos + f.text.length⟩)
        else .undefined := by
  obtain ⟨hn, hid, hld, hlv, hrd, hrv, hnd, hnv, hfd, hfv⟩ := hwf
  obtain ⟨id, hid⟩ := Option.isSome_iff_exists.1 hid
  have htl := intervalFields_text_length f
  unfold interval_hit_body
  by_cases hnl : f.name.length < 1024
  · rw [if_pos hnl]
    have e : f.text ++ c :: t = '!' :: (f.name ++ '!' :: ((if f.neg then ['-'] else []) ++
        (f.left ++ '!' :: (f.right ++ '!' :: (f.len ++ '!' :: (f.five ++ c :: t)))))) := by
      simp [IntervalFields.text]
    simp only [e, List.tail_cons]
    rw [copy_refname_ok f.name hn _ [] _ (by simpa using hnl)]
    simp only [Step.bind_ok, List.nil_append, hid, List.tail_cons, Option.getD_some]
    have hsign : parse_sign ⟨(if f.neg then ['-'] else []) ++
        (f.left ++ '!' :: (f.right ++ '!' :: (f.len ++ '!' :: (f.five ++ c :: t)))),
        pos + 1 + f.name.length + 1⟩
        = .ok (f.neg, ⟨f.left ++ '!' :: (f.right ++ '!' :: (f.len ++ '!' :: (f.five ++ c :: t))),
            pos + 1 + f.name.length + 1 + (if f.neg then 1 else 0)⟩) := by
      cases hneg : f.neg
      · have h1 : ∃ x xs, f.left ++ '!' :: (f.right ++ '!' :: (f.len ++ '!' :: (f.five ++ c :: t)))
            = x :: xs ∧ x ≠ '-' := by
          cases hl : f.left with
          | nil => exact ⟨'!', _, rfl, by decide⟩
          | cons x xs =>
            refine ⟨x, _, rfl, ?_⟩
            have hx : x.isDigit = true := hld x (by rw [hl]; exact List.mem_cons_self _ _)
            intro hx2; subst hx2; revert hx; decide
        obtain ⟨x, xs, hxs, hx⟩ := h1
        simp [parse_sign, hxs, hx]
      · simp [parse_sign]
    rw [hsign]
    simp only [Step.bind_ok]
    rw [show ((0 : Int) = ((0 : Nat) : Int)) from rfl,
      parse_off_checked_digits f.left hld 0 _ _ hlv]
    simp only [Step.bind_ok, List.tail_cons]
    have hl : (if f.neg = true then checkRefOff (-((digitsValueFrom 0 f.left : Nat) : Int))
        else Step.ok ((digitsValueFrom 0 f.left : Nat) : Int)) = .ok f.leftValue := by
      have : digitsValueFrom 0 f.left < 9223372036854775808 := hlv
      cases hneg : f.neg
      · simp [IntervalFields.leftValue, hneg, digitsValue]
      · simp only [IntervalFields.leftValue, hneg, if_true, digitsValue]
        exact checkRefOff_of_range _ (by omega) (by omega)
    rw [hl]
    simp only [Step.bind_ok]
    rw [parse_off_checked_digits f.right hrd 0 _ _ hrv]
    simp only [Step.bind_ok, List.tail_cons]
    have h3 := parse_len_checked_digits f.len hnd 0
      (pos + 1 + f.name.length + 1 + (if f.neg = true then 1 else 0) + f.left.length + 1
        + f.right.length + 1) (f.five ++ c :: t) hnv
    have h4 := parse_fivepoff_digits namelen f.five hfd 0
      (pos + 1 + f.name.length + 1 + (if f.neg = true then 1 else 0) + f.left.length + 1
        + f.right.length + 1 + f.len.length + 1) c t hfv (by omega) (by
        rcases hstop with h | h
        · exact Or.inl h
        · exact Or.inr (by omega))
    simp only [h3, h4, Step.bind_ok, List.tail_cons, digitsValue]
    have hp : pos + 1 + f.name.length + 1 + (if f.neg = true then 1 else 0) + f.left.length + 1
        + f.right.length + 1 + f.len.length + 1 + f.five.length = pos + f.text.length := by
      omega
    rw [hp]
  · rw [if_neg hnl]
    have e : (Cursor.mk (f.text ++ c :: t) pos).rest.tail = f.name ++ ('!' :: ((if f.neg then ['-'] else []) ++
        (f.left ++ '!' :: (f.right ++ '!' :: (f.len ++ '!' :: (f.five ++ c :: t)))))) := by
      simp [IntervalFields.text]
    rw [e, copy_refname_overflow f.name hn _ [] _ (by simp; omega)]
    rfl

/-! ### Single passes of the loops -/

/-- A pass of the loop of `parse_hints` that pushes a hit. -/
theorem seed_loop_enter_ok (dbg : Bool) (refidMap : List Char → Option Int)
    (namelen fuel : Nat) (r : List Char) (pos : Nat) (hints : List SeedHit)
    (hpos : pos < namelen) (hc : SeedHit × Cursor)
    (hb : seed_hit_body dbg refidMap namelen ⟨'!' :: r, pos⟩ = .ok hc) :
    seed_loop dbg refidMap namelen (fuel + 1) ⟨'!' :: r, pos⟩ hints
      = seed_loop dbg refidMap namelen fuel hc.2 (hints ++ [hc.1]) := by
  rw [seed_loop]
  simp only [hpos, and_self, if_true, hb]

/-- A pass of the loop of `parse_hints` that ends the call. -/
theorem seed_loop_enter_fail (dbg : Bool) (refidMap : List Char → Option Int)
    (namelen fuel : Nat) (r : List Char) (pos : Nat) (hints : List SeedHit)
    (hpos : pos < namelen) (st : Status)
    (hb : (seed_hit_body dbg refidMap namelen ⟨'!' :: r, pos⟩).failure = some st) :
    seed_loop dbg refidMap namelen (fuel + 1) ⟨'!' :: r, pos⟩ hints = ⟨st, hints⟩ := by
  rw [seed_loop]
  simp only [hpos, and_self, if_true]
  cases h : seed_hit_body dbg refidMap namelen ⟨'!' :: r, pos⟩ <;>
    simp_all [Step.failure]

/-- A pass of the loop of `parse_interval_hints` that pushes a hit. -/
theorem interval_loop_enter_ok (dbg : Bool) (refidMap : List Char → Option Int)
    (namelen fuel : Nat) (r : List Char) (pos : Nat) (hints : List IntervalHit)
    (hpos : pos < namelen) (hc : IntervalHit × Cursor)
    (hb : interval_hit_body dbg refidMap namelen ⟨'!' :: r, pos⟩ = .ok hc) :
    interval_loop dbg refidMap namelen (fuel + 1) ⟨'!' :: r, pos⟩ hints
      = interval_loop dbg refidMap namelen fuel hc.2 (hints ++ [hc.1]) := by
  rw [interval_loop]
  simp only [hpos, and_self, if_true, hb]

/-- A pass of the loop of `parse_interval_hints` that ends the call. -/
theorem interval_loop_enter_fail (dbg : Bool) (refidMap : List Char → Option Int)
    (namelen fuel : Nat) (r : List Char) (pos : Nat) (hints : List IntervalHit)
    (hpos : pos < namelen) (st : Status)
    (hb : (interval_hit_body dbg refidMap namelen ⟨'!' :: r, pos⟩).failure = some st) :
    interval_loop dbg refidMap namelen (fuel + 1) ⟨'!' :: r, pos⟩ hints = ⟨st, hints⟩ := by
  rw [interval_loop]
  simp only [hpos, and_self, if_true]
  cases h : interval_hit_body dbg refidMap namelen ⟨'!' :: r, pos⟩ <;>
    simp_all [Step.failure]

/-- The loop of `parse_hints` stops at a cursor where its guard fails. -/
theorem seed_loop_exit (dbg : Bool) (refidMap : List Char → Option Int) (namelen fuel : Nat)
    (c : Char) (r : List Char) (pos : Nat) (hints : List SeedHit)
    (hg : ¬ (c = '!' ∧ pos < namelen)) :
    seed_loop dbg refidMap namelen (fuel + 1) ⟨c :: r, pos⟩ hints = ⟨.returned, hints⟩ := by
  rw [seed_loop]
  simp only [hg, if_false]

theorem interval_loop_exit (dbg : Bool) (refidMap : List Char → Option Int)
    (namelen fuel : Nat) (c : Char) (r : List Char) (pos : Nat) (hints : List IntervalHit)
    (hg : ¬ (c = '!' ∧ pos < namelen)) :
    interval_loop dbg refidMap namelen (fuel + 1) ⟨c :: r, pos⟩ hints = ⟨.returned, hints⟩ := by
  rw [interval_loop]
  simp only [hg, if_false]

/-- The loop of `parse_hints` only appends to `hints`. -/
theorem seed_loop_appends (dbg : Bool) (refidMap : List Char → Option Int) (namelen : Nat) :
    ∀ (fuel : Nat) (cur : Cursor) (hints : List SeedHit),
      ∃ new, (seed_loop dbg refidMap namelen fuel cur hints).hints = hints ++ new := by
  intro fuel
  induction fuel with
  | zero => intro cur hints; exact ⟨[], by simp [seed_loop]⟩
  | succ n ih =>
    intro cur hints
    rw [seed_loop]
    cases hr : cur.rest with
    | nil => exact ⟨[], by simp⟩
    | cons c cs =>
      simp only []
      by_cases hg : c = '!' ∧ cur.pos < namelen
      · rw [if_pos hg]
        cases hb : seed_hit_body dbg refidMap namelen cur with
        | ok hc =>
          obtain ⟨new, hnew⟩ := ih hc.2 (hints ++ [hc.1])
          exact ⟨hc.1 :: new, by simp [hnew]⟩
        | thrown => exact ⟨[], by simp⟩
        | assertFailed => exact ⟨[], by simp⟩
        | undefined => exact ⟨[], by simp⟩
      · rw [if_neg hg]; exact ⟨[], by simp⟩

/-- The loop of `parse_interval_hints` only appends to `hints`. -/
theorem interval_loop_appends (dbg : Bool) (refidMap : List Char → Option Int)
    (namelen : Nat) :
    ∀ (fuel : Nat) (cur : Cursor) (hints : List IntervalHit),
      ∃ new, (interval_loop dbg refidMap namelen fuel cur hints).hints = hints ++ new := by
  intro fuel
  induction fuel with
  | zero => intro cur hints; exact ⟨[], by simp [interval_loop]⟩
  | succ n ih =>
    intro cur hints
    rw [interval_loop]
    cases hr : cur.rest with
    | nil => exact ⟨[], by simp⟩
    | cons c cs =>
      simp only []
      by_cases hg : c = '!' ∧ cur.pos < namelen
      · rw [if_pos hg]
        cases hb : interval_hit_body dbg refidMap namelen cur with
        | ok hc =>
          obtain ⟨new, hnew⟩ := ih hc.2 (hints ++ [hc.1])
          exact ⟨hc.1 :: new, by simp [hnew]⟩
        | thrown => exact ⟨[], by simp⟩
        | assertFailed => exact ⟨[], by simp⟩
        | undefined => exact ⟨[], by simp⟩
      · rw [if_neg hg]; exact ⟨[], by simp⟩

/-! ### Records given by their values -/

theorem PointRecord.fields_wellFormed (refidMap : List Char → Option Int) (p : PointRecord)
    (h : p.encodable refidMap) : p.fields.wellFormed refidMap := by
  obtain ⟨h1, h2, h3, h4, h5, h6⟩ := h
  refine ⟨h1, h2, h3, toDigits_allDigits _, ?_, toDigits_allDigits _, ?_, toDigits_allDigits _, ?_⟩
  · show digitsValue (Nat.toDigits 10 p.off) < _
    rw [toDigits_value]; exact h4
  · show digitsValue (Nat.toDigits 10 p.len) < _
    rw [toDigits_value]; exact h5
  · show digitsValue (Nat.toDigits 10 p.five) < _
    rw [toDigits_value]; exact h6

theorem PointRecord.fields_hit (refidMap : List Char → Option Int) (p : PointRecord) :
    p.fields.hit refidMap = p.hit refidMap := by
  cases hfw : p.fw <;>
    simp [PointFields.hit, PointRecord.hit, PointRecord.fields, toDigits_value, hfw]

theorem twoRecords_wellFormed : ∀ f ∈ twoRecords, f.wellFormed exampleTable := by
  intro f hf
  simp only [twoRecords, List.mem_cons, List.mem_singleton, List.not_mem_nil, or_false] at hf
  rcases hf with rfl | rfl <;>
  · unfold PointFields.wellFormed allDigits SIZE_MOD
    decide

theorem assert_gt_pass (dbg : Bool) (r l : Int) (h : l < r) : assert_gt dbg r l = .ok () := by
  unfold assert_gt
  rw [if_neg (by simp; intro _; omega)]

theorem intervalFields_text_head (f : IntervalFields) : ∃ t, f.text = '!' :: t :=
  ⟨_, rfl⟩

/-- A pass of the interval loop over the text of an unsigned record whose right
offset exceeds the left one. -/
theorem interval_loop_text (dbg : Bool) (refidMap : List Char → Option Int)
    (namelen fuel : Nat) (f : IntervalFields) (c : Char) (t : List Char) (pos : Nat)
    (hints : List IntervalHit)
    (hwf : f.wellFormed refidMap) (hsign : f.neg = false)
    (hgt : digitsValue f.left < digitsValue f.right)
    (hin : pos + f.text.length ≤ namelen)
    (hstop : c.isDigit = false ∨ namelen ≤ pos + f.text.length) :
    interval_loop dbg refidMap namelen (fuel + 1) ⟨f.text ++ c :: t, pos⟩ hints
      = if f.name.length < 1024 ∧
            (digitsValue f.right : Int) - (digitsValue f.left : Int) + 1 < 9223372036854775808 then
          interval_loop dbg refidMap namelen fuel ⟨c :: t, pos + f.text.length⟩
            (hints ++ [⟨⟨(refidMap f.name).getD (-1), (digitsValue f.left : Int), true,
              (digitsValue f.right : Int) - (digitsValue f.left : Int) + 1⟩,
              digitsValue f.five, digitsValue f.len⟩])
        else ⟨.undefined, hints⟩ := by
  have hbody := interval_hit_body_text dbg refidMap namelen f hwf c t pos hin hstop
  have htl := intervalFields_text_length f
  have hlv : f.leftValue = (digitsValue f.left : Int) := by simp [IntervalFields.leftValue, hsign]
  have hr := hwf.2.2.2.2.2.1
  have hpos : pos < namelen := by omega
  have ehd : f.text ++ c :: t = '!' :: (f.text ++ c :: t).tail := rfl
  rw [hlv, assert_gt_pass dbg _ _ (by omega), Step.bind_ok,
    checkRefOff_of_range _ (by omega) (by omega), Step.bind_ok] at hbody
  simp only [hsign, Bool.false_eq_true, if_false] at hbody
  by_cases hnl : f.name.length < 1024
  · rw [if_pos hnl] at hbody
    by_cases hfit : (digitsValue f.right : Int) - (digitsValue f.left : Int) + 1
        < 9223372036854775808
    · rw [checkRefOff_of_range _ (by omega) hfit, Step.bind_ok] at hbody
      rw [if_pos ⟨hnl, hfit⟩, ehd, interval_loop_enter_ok dbg refidMap namelen fuel _ pos hints
        hpos _ (by rw [← ehd]; exact hbody)]
    · rw [checkRefOff_of_large _ (by omega)] at hbody
      rw [if_neg (fun h => hfit h.2), ehd]
      exact interval_loop_enter_fail dbg refidMap namelen fuel _ pos hints hpos .undefined
        (by rw [← ehd, hbody]; rfl)
  · rw [if_neg hnl] at hbody
    rw [if_neg (fun h => hnl h.1), ehd]
    exact interval_loop_enter_fail dbg refidMap namelen fuel _ pos hints hpos .undefined
      (by rw [← ehd, hbody]; rfl)

theorem chr2Fields_wellFormed : chr2Fields.wellFormed exampleTable := by
  unfold IntervalFields.wellFormed allDigits SIZE_MOD
  decide

/-- The call of `parse_hints` with the sentinel at `pre.length`: the loop is
entered at the last character of the sentinel. -/
theorem parse_hints_at_sentinel (dbg : Bool) (pre rest : List Char) (behind : Char)
    (slack : List Char) (hints : List SeedHit) (refidMap : List Char → Option Int) :
    parse_hints dbg ⟨pre ++ '!' :: 'h' :: '!' :: rest, behind, slack⟩ (pre.length : Int) hints
        refidMap
      = seed_loop dbg refidMap (pre.length + 3 + rest.length)
          (pre.length + 3 + rest.length + 1 + slack.length + 1)
          ⟨'!' :: (rest ++ behind :: slack), pre.length + 2⟩ hints := by
  have hst : (Read.mk (pre ++ '!' :: 'h' :: '!' :: rest) behind slack).storage
      = pre ++ ('!' :: 'h' :: '!' :: (rest ++ behind :: slack)) := by
    simp [Read.storage]
  unfold parse_hints
  have hneg : ¬ ((pre.length : Int) < 0) := by omega
  simp only [hst, hneg, if_false, Int.toNat_ofNat, List.drop_left, entry_asserts_sentinel,
    List.drop_succ_cons, List.drop_zero]
  congr 1
  · simp; omega
  · simp; omega

theorem parse_interval_hints_at_sentinel (dbg : Bool) (pre rest : List Char) (behind : Char)
    (slack : List Char) (hints : List IntervalHit) (refidMap : List Char → Option Int) :
    parse_interval_hints dbg ⟨pre ++ '!' :: 'h' :: '!' :: rest, behind, slack⟩
        (pre.length : Int) hints refidMap
      = interval_loop dbg refidMap (pre.length + 3 + rest.length)
          (pre.length + 3 + rest.length + 1 + slack.length + 1)
          ⟨'!' :: (rest ++ behind :: slack), pre.length + 2⟩ hints := by
  have hst : (Read.mk (pre ++ '!' :: 'h' :: '!' :: rest) behind slack).storage
      = pre ++ ('!' :: 'h' :: '!' :: (rest ++ behind :: slack)) := by
    simp [Read.storage]
  unfold parse_interval_hints
  have hneg : ¬ ((pre.length : Int) < 0) := by omega
  simp only [hst, hneg, if_false, Int.toNat_ofNat, List.drop_left, entry_asserts_sentinel,
    List.drop_succ_cons, List.drop_zero]
  congr 1
  · simp; omega
  · simp; omega

/-! ### Unknown and over-long reference names -/

theorem seed_hit_body_unknown (dbg : Bool) (refidMap : List Char → Option Int) (namelen : Nat)
    (name t : List Char) (pos : Nat) (hname : '!' ∉ name) (hlen : name.length < 1024)
    (hmap : refidMap name = none) :
    seed_hit_body dbg refidMap namelen ⟨'!' :: (name ++ '!' :: t), pos⟩ = .thrown := by
  unfold seed_hit_body
  simp only [List.tail_cons]
  rw [copy_refname_ok name hname _ [] _ (by simpa using hlen)]
  simp only [Step.bind_ok, List.nil_append, hmap]

theorem interval_hit_body_unknown (dbg : Bool) (refidMap : List Char → Option Int)
    (namelen : Nat) (name t : List Char) (pos : Nat) (hname : '!' ∉ name)
    (hlen : name.length < 1024) (hmap : refidMap name = none) :
    interval_hit_body dbg refidMap namelen ⟨'!' :: (name ++ '!' :: t), pos⟩ = .thrown := by
  unfold interval_hit_body
  simp only [List.tail_cons]
  rw [copy_refname_ok name hname _ [] _ (by simpa using hlen)]
  simp only [Step.bind_ok, List.nil_append, hmap]

theorem seed_hit_body_overflow (dbg : Bool) (refidMap : List Char → Option Int) (namelen : Nat)
    (name t : List Char) (pos : Nat) (hname : '!' ∉ name) (hlen : 1024 ≤ name.length) :
    seed_hit_body dbg refidMap namelen ⟨'!' :: (name ++ t), pos⟩ = .undefined := by
  unfold seed_hit_body
  simp only [List.tail_cons]
  rw [copy_refname_overflow name hname _ [] _ (by simpa using hlen)]
  rfl

theorem interval_hit_body_overflow (dbg : Bool) (refidMap : List Char → Option Int)
    (namelen : Nat) (name t : List Char) (pos : Nat) (hname : '!' ∉ name)
    (hlen : 1024 ≤ name.length) :
    interval_hit_body dbg refidMap namelen ⟨'!' :: (name ++ t), pos⟩ = .undefined := by
  unfold interval_hit_body
  simp only [List.tail_cons]
  rw [copy_refname_overflow name hname _ [] _ (by simpa using hlen)]
  rfl

/-- The call of either decoder on a name in which a reference name of 1024
characters or more follows the sentinel. -/
theorem parse_overflow (dbg : Bool) (pre name t : List Char) (behind : Char)
    (slack : List Char) (refidMap : List Char → Option Int)
    (hname : '!' ∉ name) (hlen : 1024 ≤ name.length) (hints : List SeedHit)
    (ihints : List IntervalHit) :
    parse_hints dbg ⟨pre ++ '!' :: 'h' :: '!' :: (name ++ t), behind, slack⟩ (pre.length : Int)
        hints refidMap = ⟨.undefined, hints⟩ ∧
    parse_interval_hints dbg ⟨pre ++ '!' :: 'h' :: '!' :: (name ++ t), behind, slack⟩
        (pre.length : Int) ihints refidMap = ⟨.undefined, ihints⟩ := by
  constructor
  · rw [parse_hints_at_sentinel]
    apply seed_loop_enter_fail
    · simp; omega
    · rw [List.append_assoc, seed_hit_body_overflow dbg refidMap _ name _ _ hname hlen]; rfl
  · rw [parse_interval_hints_at_sentinel]
    apply interval_loop_enter_fail
    · simp; omega
    · rw [List.append_assoc, interval_hit_body_overflow dbg refidMap _ name _ _ hname hlen]; rfl

theorem longName_length : longName.length = 1024 := List.length_replicate _ _

theorem longName_no_bang : '!' ∉ longName := by
  intro h
  have := List.eq_of_mem_replicate h
  exact absurd this (by decide)

/-! ### Characters that are not digits -/

theorem parse_off_checked_offending (ds : List Char) (hds : allDigits ds) (b : Char)
    (hb : offending b) :
    ∀ (a pos : Nat) (t : List Char), digitsValueFrom a ds < 9223372036854775808 →
      parse_off_checked (ds ++ b :: t) pos (a : Int) = .thrown := by
  induction ds with
  | nil => intro a pos t _; simp [parse_off_checked, hb.1, hb.2]
  | cons c cs ih =>
    intro a pos t h
    have hc : c.isDigit = true := hds c (List.mem_cons_self _ _)
    have hcs : allDigits cs := fun x hx => hds x (List.mem_cons_of_mem _ hx)
    have hne := ne_bang_of_isDigit c hc
    have h1 : digitsValueFrom a (c :: cs) = digitsValueFrom (a * 10 + (c.toNat - 48)) cs := rfl
    have h2 := le_digitsValueFrom cs (a * 10 + (c.toNat - 48))
    rw [h1] at h
    have e : parse_off_checked ((c :: cs) ++ b :: t) pos (a : Int)
        = (pushDigitOff (a : Int) c).bind fun a => parse_off_checked (cs ++ b :: t) (pos + 1) a := by
      simp [parse_off_checked, hne, hc]
    rw [e, pushDigitOff_digit a c hc (by omega), Step.bind_ok, ih hcs _ (pos + 1) t h]

theorem parse_len_checked_offending (ds : List Char) (hds : allDigits ds) (b : Char)
    (hb : offending b) :
    ∀ (a pos : Nat) (t : List Char), parse_len_checked (ds ++ b :: t) pos a = .thrown := by
  induction ds with
  | nil => intro a pos t; simp [parse_len_checked, hb.1, hb.2]
  | cons c cs ih =>
    intro a pos t
    have hc : c.isDigit = true := hds c (List.mem_cons_self _ _)
    have hcs : allDigits cs := fun x hx => hds x (List.mem_cons_of_mem _ hx)
    have hne := ne_bang_of_isDigit c hc
    have e : parse_len_checked ((c :: cs) ++ b :: t) pos a
        = parse_len_checked (cs ++ b :: t) (pos + 1) (pushDigitSize a c) := by
      simp [parse_len_checked, hne, hc]
    rw [e, ih hcs _ (pos + 1) t]

theorem parse_sign_text (neg : Bool) (x : Char) (xs : List Char) (pos : Nat)
    (hx : neg = false → x ≠ '-') :
    parse_sign ⟨(if neg then ['-'] else []) ++ x :: xs, pos⟩
      = .ok (neg, ⟨x :: xs, pos + (if neg then 1 else 0)⟩) := by
  cases neg
  · simp [parse_sign, hx rfl]
  · simp [parse_sign]

theorem digits_head_not_minus (ds : List Char) (hds : allDigits ds) (y : Char) (ys : List Char)
    (hy : ds = [] → y ≠ '-') : ∃ x xs, ds ++ y :: ys = x :: xs ∧ x ≠ '-' := by
  cases ds with
  | nil => exact ⟨y, ys, rfl, hy rfl⟩
  | cons d ds' =>
    refine ⟨d, ds' ++ y :: ys, rfl, ?_⟩
    have hd : d.isDigit = true := hds d (List.mem_cons_self _ _)
    intro h; subst h; revert hd; decide

/-- The body of the interval loop up to the left offset, for a name that is in
the table. -/
theorem interval_hit_body_left (dbg : Bool) (refidMap : List Char → Option Int)
    (namelen : Nat) (name : List Char) (id : Int) (neg : Bool) (x : Char) (xs : List Char)
    (pos : Nat) (hname : '!' ∉ name) (hlen : name.length < 1024)
    (hmap : refidMap name = some id) (hx : neg = false → x ≠ '-') :
    interval_hit_body dbg refidMap namelen
        ⟨'!' :: (name ++ '!' :: ((if neg then ['-'] else []) ++ x :: xs)), pos⟩
      = (parse_off_checked (x :: xs) (pos + 1 + name.length + 1 + (if neg then 1 else 0)) 0).bind
          fun lc =>
        (if neg then checkRefOff (-lc.1) else .ok lc.1).bind fun refoff_l =>
        (parse_off_checked lc.2.rest.tail (lc.2.pos + 1) 0).bind fun rc =>
        (assert_gt dbg rc.1 refoff_l).bind fun _ =>
        (parse_len_checked rc.2.rest.tail (rc.2.pos + 1) 0).bind fun nl =>
        (checkRefOff (rc.1 - refoff_l)).bind fun d =>
        (checkRefOff (d + 1)).bind fun ivlen =>
        (parse_fivepoff namelen nl.2.rest.tail (nl.2.pos + 1) 0).bind fun fc =>
        .ok (⟨⟨id, refoff_l, true, ivlen⟩, fc.1,
          if neg then (SIZE_MOD - nl.1) % SIZE_MOD else nl.1⟩, fc.2) := by
  unfold interval_hit_body
  simp only [List.tail_cons]
  rw [copy_refname_ok name hname _ [] _ (by simpa using hlen)]
  simp only [Step.bind_ok, List.nil_append, hmap, List.tail_cons]
  rw [parse_sign_text neg x xs _ hx]
  simp only [Step.bind_ok]

theorem interval_hit_body_bad_left (dbg : Bool) (refidMap : List Char → Option Int)
    (namelen : Nat) (name : List Char) (id : Int) (neg : Bool) (ds : List Char) (b : Char)
    (t : List Char) (pos : Nat) (hname : '!' ∉ name) (hlen : name.length < 1024)
    (hmap : refidMap name = some id) (hds : allDigits ds) (hb : offending b)
    (hfirst : neg = false → ds = [] → b ≠ '-')
    (hv : digitsValue ds < 9223372036854775808) :
    interval_hit_body dbg refidMap namelen
        ⟨'!' :: (name ++ '!' :: ((if neg then ['-'] else []) ++ (ds ++ b :: t))), pos⟩
      = .thrown := by
  obtain ⟨x, xs, hxs, hx⟩ : ∃ x xs, ds ++ b :: t = x :: xs ∧ (neg = false → x ≠ '-') := by
    cases hneg : neg
    · obtain ⟨x, xs, h1, h2⟩ := digits_head_not_minus ds hds b t (hfirst hneg)
      exact ⟨x, xs, h1, fun _ => h2⟩
    · cases ds with
      | nil => exact ⟨b, t, rfl, fun h => by simp at h⟩
      | cons d ds' => exact ⟨d, ds' ++ b :: t, rfl, fun h => by simp at h⟩
  rw [hxs, interval_hit_body_left dbg refidMap namelen name id neg x xs pos hname hlen hmap hx,
    ← hxs, show ((0 : Int) = ((0 : Nat) : Int)) from rfl,
    parse_off_checked_offending ds hds b hb 0 _ t hv]
  rfl

theorem interval_hit_body_bad_right (dbg : Bool) (refidMap : List Char → Option Int)
    (namelen : Nat) (name : List Char) (id : Int) (neg : Bool) (left ds : List Char) (b : Char)
    (t : List Char) (pos : Nat) (hname : '!' ∉ name) (hlen : name.length < 1024)
    (hmap : refidMap name = some id) (hds : allDigits ds) (hb : offending b)
    (hl : allDigits left) (hlv : digitsValue left < 9223372036854775808)
    (hv : digitsValue ds < 9223372036854775808) :
    interval_hit_body dbg refidMap namelen
        ⟨'!' :: (name ++ '!' :: ((if neg then ['-'] else []) ++ (left ++ '!' :: (ds ++ b :: t)))),
          pos⟩
      = .thrown := by
  obtain ⟨x, xs, hxs, hx⟩ := digits_head_not_minus left hl '!' (ds ++ b :: t) (fun _ => by decide)
  rw [hxs, interval_hit_body_left dbg refidMap namelen name id neg x xs pos hname hlen hmap
    (fun _ => hx), ← hxs, show ((0 : Int) = ((0 : Nat) : Int)) from rfl,
    parse_off_checked_digits left hl 0 _ _ hlv]
  simp only [Step.bind_ok, List.tail_cons]
  have hneg : (if neg = true then checkRefOff (-((digitsValueFrom 0 left : Nat) : Int))
      else Step.ok ((digitsValueFrom 0 left : Nat) : Int))
      = .ok (if neg then -(digitsValue left : Int) else (digitsValue left : Int)) := by
    have : digitsValueFrom 0 left < 9223372036854775808 := hlv
    cases neg
    · simp [digitsValue]
    · simp only [if_true, digitsValue]
      exact checkRefOff_of_range _ (by omega) (by omega)
  rw [hneg]
  simp only [Step.bind_ok]
  rw [parse_off_checked_offending ds hds b hb 0 _ t hv]
  rfl

theorem interval_hit_body_bad_len (dbg : Bool) (refidMap : List Char → Option Int)
    (namelen : Nat) (name : List Char) (id : Int) (neg : Bool) (left right ds : List Char)
    (b : Char) (t : List Char) (pos : Nat) (hname : '!' ∉ name) (hlen : name.length < 1024)
    (hmap : refidMap name = some id) (hds : allDigits ds) (hb : offending b)
    (hl : allDigits left) (hlv : digitsValue left < 9223372036854775808)
    (hr : allDigits right) (hrv : digitsValue right < 9223372036854775808) :
    interval_hit_body dbg refidMap namelen
        ⟨'!' :: (name ++ '!' :: ((if neg then ['-'] else []) ++
          (left ++ '!' :: (right ++ '!' :: (ds ++ b :: t))))), pos⟩
      = if dbg = true ∧ ¬ ((digitsValue right : Int)
            > (if neg then -(digitsValue left : Int) else (digitsValue left : Int))) then
          .assertFailed
        else .thrown := by
  obtain ⟨x, xs, hxs, hx⟩ := digits_head_not_minus left hl '!' (right ++ '!' :: (ds ++ b :: t))
    (fun _ => by decide)
  rw [hxs, interval_hit_body_left dbg refidMap namelen name id neg x xs pos hname hlen hmap
    (fun _ => hx), ← hxs, show ((0 : Int) = ((0 : Nat) : Int)) from rfl,
    parse_off_checked_digits left hl 0 _ _ hlv]
  simp only [Step.bind_ok, List.tail_cons]
  have hneg : (if neg = true then checkRefOff (-((digitsValueFrom 0 left : Nat) : Int))
      else Step.ok ((digitsValueFrom 0 left : Nat) : Int))
      = .ok (if neg then -(digitsValue left : Int) else (digitsValue left : Int)) := by
    have : digitsValueFrom 0 left < 9223372036854775808 := hlv
    cases neg
    · simp [digitsValue]
    · simp only [if_true, digitsValue]
      exact checkRefOff_of_range _ (by omega) (by omega)
  rw [hneg]
  simp only [Step.bind_ok]
  rw [parse_off_checked_digits right hr 0 _ _ hrv]
  simp only [Step.bind_ok, List.tail_cons]
  rw [parse_len_checked_offending ds hds b hb 0 _ t]
  unfold assert_gt
  simp only [digitsValue]
  by_cases hc : dbg = true ∧ ¬ ((digitsValueFrom 0 right : Int)
      > (if neg = true then -(digitsValueFrom 0 left : Int) else (digitsValueFrom 0 left : Int)))
  · rw [if_pos hc, if_pos hc]; rfl
  · rw [if_neg hc, if_neg hc]; rfl

/-! ### Empty results -/

theorem entry_asserts_ne_returned (dbg : Bool) (buf : List Char) :
    entry_asserts dbg buf ≠ some .returned := by
  unfold entry_asserts
  cases dbg
  · simp
  · simp only [if_true]
    split <;> (try split) <;> simp

/-- The loop of `parse_hints` returns with `hints` unchanged exactly when its
guard fails at the first test. -/
theorem seed_loop_empty_iff (dbg : Bool) (refidMap : List Char → Option Int)
    (namelen fuel : Nat) (cur : Cursor) (hints : List SeedHit) :
    seed_loop dbg refidMap namelen (fuel + 1) cur hints = ⟨.returned, hints⟩ ↔
      ∃ c, cur.rest.head? = some c ∧ ¬ (c = '!' ∧ cur.pos < namelen) := by
  rw [seed_loop]
  cases hr : cur.rest with
  | nil => simp
  | cons c cs =>
    simp only [List.head?_cons, Option.some.injEq, exists_eq_left']
    by_cases hg : c = '!' ∧ cur.pos < namelen
    · rw [if_pos hg]
      simp only [hg, and_self, not_true_eq_false, iff_false]
      cases hb : seed_hit_body dbg refidMap namelen cur with
      | ok hc =>
        simp only []
        intro h
        obtain ⟨new, hnew⟩ := seed_loop_appends dbg refidMap namelen fuel hc.2 (hints ++ [hc.1])
        rw [h] at hnew
        have := congrArg List.length hnew
        simp at this
      | thrown => simp
      | assertFailed => simp
      | undefined => simp
    · rw [if_neg hg]
      simp [hg]

theorem interval_loop_empty_iff (dbg : Bool) (refidMap : List Char → Option Int)
    (namelen fuel : Nat) (cur : Cursor) (hints : List IntervalHit) :
    interval_loop dbg refidMap namelen (fuel + 1) cur hints = ⟨.returned, hints⟩ ↔
      ∃ c, cur.rest.head? = some c ∧ ¬ (c = '!' ∧ cur.pos < namelen) := by
  rw [interval_loop]
  cases hr : cur.rest with
  | nil => simp
  | cons c cs =>
    simp only [List.head?_cons, Option.some.injEq, exists_eq_left']
    by_cases hg : c = '!' ∧ cur.pos < namelen
    · rw [if_pos hg]
      simp only [hg, and_self, not_true_eq_false, iff_false]
      cases hb : interval_hit_body dbg refidMap namelen cur with
      | ok hc =>
        simp only []
        intro h
        obtain ⟨new, hnew⟩ :=
          interval_loop_appends dbg refidMap namelen fuel hc.2 (hints ++ [hc.1])
        rw [h] at hnew
        have := congrArg List.length hnew
        simp at this
      | thrown => simp
      | assertFailed => simp
      | undefined => simp
    · rw [if_neg hg]
      simp [hg]

theorem parse_hints_empty_iff (dbg : Bool) (r : Read) (hint_off : Int) (hints : List SeedHit)
    (refidMap : List Char → Option Int) :
    parse_hints dbg r hint_off hints refidMap = ⟨.returned, hints⟩ ↔
      0 ≤ hint_off ∧ entry_asserts dbg (r.storage.drop hint_off.toNat) = none ∧
      ∃ c, r.storage[hint_off.toNat + 2]? = some c ∧
        ¬ (c = '!' ∧ hint_off.toNat + 2 < r.name.length) := by
  unfold parse_hints
  by_cases hneg : hint_off < 0
  · rw [if_pos hneg]
    constructor
    · intro h; simp at h
    · rintro ⟨h, _⟩; omega
  · rw [if_neg hneg]
    simp only []
    cases he : entry_asserts dbg (List.drop hint_off.toNat r.storage) with
    | some st =>
      simp only []
      constructor
      · intro h
        have : st = .returned := by simpa using h
        rw [this] at he
        exact absurd he (entry_asserts_ne_returned _ _)
      · rintro ⟨_, h, _⟩; simp at h
    | none =>
      simp only []
      rw [seed_loop_empty_iff]
      simp only [List.drop_drop, List.head?_drop]
      constructor
      · rintro ⟨c, h1, h2⟩; exact ⟨by omega, trivial, c, h1, h2⟩
      · rintro ⟨_, _, c, h1, h2⟩; exact ⟨c, h1, h2⟩

theorem parse_interval_hints_empty_iff (dbg : Bool) (r : Read) (hint_off : Int)
    (hints : List IntervalHit) (refidMap : List Char → Option Int) :
    parse_interval_hints dbg r hint_off hints refidMap = ⟨.returned, hints⟩ ↔
      0 ≤ hint_off ∧ entry_asserts dbg (r.storage.drop hint_off.toNat) = none ∧
      ∃ c, r.storage[hint_off.toNat + 2]? = some c ∧
        ¬ (c = '!' ∧ hint_off.toNat + 2 < r.name.length) := by
  unfold parse_interval_hints
  by_cases hneg : hint_off < 0
  · rw [if_pos hneg]
    constructor
    · intro h; simp at h
    · rintro ⟨h, _⟩; omega
  · rw [if_neg hneg]
    simp only []
    cases he : entry_asserts dbg (List.drop hint_off.toNat r.storage) with
    | some st =>
      simp only []
      constructor
      · intro h
        have : st = .returned := by simpa using h
        rw [this] at he
        exact absurd he (entry_asserts_ne_returned _ _)
      · rintro ⟨_, h, _⟩; simp at h
    | none =>
      simp only []
      rw [interval_loop_empty_iff]
      simp only [List.drop_drop, List.head?_drop]
      constructor
      · rintro ⟨c, h1, h2⟩; exact ⟨by omega, trivial, c, h1, h2⟩
      · rintro ⟨_, _, c, h1, h2⟩; exact ⟨c, h1, h2⟩

/-! ### The loops always have enough fuel -/

theorem Step.bind_eq_ok {α β : Type} (s : Step α) (f : α → Step β) (b : β)
    (h : s.bind f = .ok b) : ∃ a, s = .ok a ∧ f a = .ok b := by
  cases s with
  | ok a => exact ⟨a, rfl, h⟩
  | thrown => exact absurd h (by simp [Step.bind])
  | assertFailed => exact absurd h (by simp [Step.bind])
  | undefined => exact absurd h (by simp [Step.bind])

theorem copy_refname_rest : ∀ (l : List Char) (pos : Nat) (acc n : List Char) (cur : Cursor),
    copy_refname l pos acc = .ok (n, cur) → cur.rest.length ≤ l.length := by
  intro l
  induction l with
  | nil => intro pos acc n cur h; simp [copy_refname] at h
  | cons c cs ih =>
    intro pos acc n cur h
    rw [copy_refname] at h
    by_cases hc : c = '!'
    · rw [if_pos hc] at h
      by_cases hl : acc.length < 1024
      · rw [if_pos hl] at h
        injection h with h
        injection h with _ h2
        rw [← h2]
      · rw [if_neg hl] at h; exact absurd h (by simp)
    · rw [if_neg hc] at h
      by_cases hl : acc.length < 1024
      · rw [if_pos hl] at h
        have := ih _ _ _ _ h
        simp only [List.length_cons]; omega
      · rw [if_neg hl] at h; exact absurd h (by simp)

theorem parse_fivepoff_rest (namelen : Nat) : ∀ (l : List Char) (pos a v : Nat) (cur : Cursor),
    parse_fivepoff namelen l pos a = .ok (v, cur) → cur.rest.length ≤ l.length := by
  intro l
  induction l with
  | nil => intro pos a v cur h; simp [parse_fivepoff] at h
  | cons c cs ih =>
    intro pos a v cur h
    rw [parse_fivepoff] at h
    by_cases hc : c.isDigit = true ∧ pos < namelen
    · rw [if_pos hc] at h
      have := ih _ _ _ _ h
      simp only [List.length_cons]; omega
    · rw [if_neg hc] at h
      injection h with h
      injection h with _ h2
      rw [← h2]

theorem parse_refoff_rest (dbg : Bool) : ∀ (l : List Char) (pos : Nat) (a v : Int) (cur : Cursor),
    parse_refoff dbg l pos a = .ok (v, cur) → cur.rest.length ≤ l.length := by
  intro l
  induction l with
  | nil => intro pos a v cur h; simp [parse_refoff] at h
  | cons c cs ih =>
    intro pos a v cur h
    rw [parse_refoff] at h
    by_cases hc : c = '!'
    · rw [if_pos hc] at h
      injection h with h
      injection h with _ h2
      rw [← h2]
    · rw [if_neg hc] at h
      by_cases hd : dbg = true ∧ c.isDigit = false
      · rw [if_pos hd] at h; exact absurd h (by simp)
      · rw [if_neg hd] at h
        obtain ⟨a', _, h'⟩ := Step.bind_eq_ok _ _ _ h
        have := ih _ _ _ _ h'
        simp only [List.length_cons]; omega

theorem parse_len_rest (dbg : Bool) : ∀ (l : List Char) (pos a v : Nat) (cur : Cursor),
    parse_len dbg l pos a = .ok (v, cur) → cur.rest.length ≤ l.length := by
  intro l
  induction l with
  | nil => intro pos a v cur h; simp [parse_len] at h
  | cons c cs ih =>
    intro pos a v cur h
    rw [parse_len] at h
    by_cases hc : c = '!'
    · rw [if_pos hc] at h
      injection h with h
      injection h with _ h2
      rw [← h2]
    · rw [if_neg hc] at h
      by_cases hd : dbg = true ∧ c.isDigit = false
      · rw [if_pos hd] at h; exact absurd h (by simp)
      · rw [if_neg hd] at h
        have := ih _ _ _ _ h
        simp only [List.length_cons]; omega

theorem parse_off_checked_rest : ∀ (l : List Char) (pos : Nat) (a v : Int) (cur : Cursor),
    parse_off_checked l pos a = .ok (v, cur) → cur.rest.length ≤ l.length := by
  intro l
  induction l with
  | nil => intro pos a v cur h; simp [parse_off_checked] at h
  | cons c cs ih =>
    intro pos a v cur h
    rw [parse_off_checked] at h
    by_cases hc : c = '!'
    · rw [if_pos hc] at h
      injection h with h
      injection h with _ h2
      rw [← h2]
    · rw [if_neg hc] at h
      by_cases hd : c.isDigit = false
      · rw [if_pos hd] at h; exact absurd h (by simp)
      · rw [if_neg hd] at h
        obtain ⟨a', _, h'⟩ := Step.bind_eq_ok _ _ _ h
        have := ih _ _ _ _ h'
        simp only [List.length_cons]; omega

theorem parse_len_checked_rest : ∀ (l : List Char) (pos a v : Nat) (cur : Cursor),
    parse_len_checked l pos a = .ok (v, cur) → cur.rest.length ≤ l.length := by
  intro l
  induction l with
  | nil => intro pos a v cur h; simp [parse_len_checked] at h
  | cons c cs ih =>
    intro pos a v cur h
    rw [parse_len_checked] at h
    by_cases hc : c = '!'
    · rw [if_pos hc] at h
      injection h with h
      injection h with _ h2
      rw [← h2]
    · rw [if_neg hc] at h
      by_cases hd : c.isDigit = false
      · rw [if_pos hd] at h; exact absurd h (by simp)
      · rw [if_neg hd] at h
        have := ih _ _ _ _ h
        simp only [List.length_cons]; omega

theorem expect_bang_rest (dbg : Bool) (cur cur' : Cursor)
    (h : expect_bang dbg cur = .ok cur') : cur'.rest.length ≤ cur.rest.length := by
  unfold expect_bang at h
  cases dbg
  · simp only [Bool.false_eq_true, if_false] at h
    injection h with h
    rw [← h]; simp
  · simp only [if_true] at h
    cases hr : cur.rest with
    | nil => rw [hr] at h; exact absurd h (by simp)
    | cons c cs =>
      rw [hr] at h
      simp only [] at h
      by_cases hc : c = '!'
      · rw [if_pos hc] at h
        injection h with h
        rw [← h]; simp
      · rw [if_neg hc] at h; exact absurd h (by simp)

theorem parse_sign_rest (cur : Cursor) (s : Bool) (cur' : Cursor)
    (h : parse_sign cur = .ok (s, cur')) : cur'.rest.length ≤ cur.rest.length := by
  unfold parse_sign at h
  cases hr : cur.rest with
  | nil => rw [hr] at h; exact absurd h (by simp)
  | cons c cs =>
    rw [hr] at h
    simp only [] at h
    by_cases hc : c = '-'
    · rw [if_pos hc] at h
      injection h with h
      injection h with _ h2
      rw [← h2]; simp
    · rw [if_neg hc] at h
      injection h with h
      injection h with _ h2
      rw [← h2, hr]

theorem length_tail_le_length (l : List Char) : l.tail.length ≤ l.length := by
  cases l <;> simp

/-- A pass through the body of the loop of `parse_hints` moves the cursor
forward. -/
theorem seed_hit_body_rest (dbg : Bool) (refidMap : List Char → Option Int) (namelen : Nat)
    (cur : Cursor) (hc : SeedHit × Cursor) (hne : cur.rest ≠ [])
    (h : seed_hit_body dbg refidMap namelen cur = .ok hc) :
    hc.2.rest.length < cur.rest.length := by
  unfold seed_hit_body at h
  obtain ⟨nc, h1, h⟩ := Step.bind_eq_ok _ _ _ h
  have l1 := copy_refname_rest _ _ _ _ _ h1
  cases hm : refidMap nc.1 with
  | none => rw [hm] at h; exact absurd h (by simp)
  | some refid =>
    rw [hm] at h
    simp only [] at h
    obtain ⟨oc, h2, h⟩ := Step.bind_eq_ok _ _ _ h
    have l2 := parse_refoff_rest _ _ _ _ _ _ h2
    cases ho : oc.2.rest.tail with
    | nil => rw [ho] at h; exact absurd h (by simp)
    | cons o cs =>
      rw [ho] at h
      simp only [] at h
      obtain ⟨c3, h3, h⟩ := Step.bind_eq_ok _ _ _ h
      have l3 := expect_bang_rest _ _ _ h3
      obtain ⟨lc, h4, h⟩ := Step.bind_eq_ok _ _ _ h
      have l4 := parse_len_rest _ _ _ _ _ _ h4
      obtain ⟨fc, h5, h⟩ := Step.bind_eq_ok _ _ _ h
      have l5 := parse_fivepoff_rest _ _ _ _ _ _ h5
      injection h with h
      rw [← h]
      have t1 := length_tail_le_length nc.2.rest
      have t2 := length_tail_le_length oc.2.rest
      have t3 := length_tail_le_length lc.2.rest
      have t0 : cur.rest.tail.length < cur.rest.length := by
        cases hr : cur.rest with
        | nil => exact absurd hr hne
        | cons x xs => simp
      have t4 : cs.length < oc.2.rest.tail.length := by rw [ho]; simp
      show fc.2.rest.length < cur.rest.length
      have l3' : c3.rest.length ≤ cs.length := l3
      omega

/-- A pass through the body of the loop of `parse_interval_hints` moves the
cursor forward. -/
theorem interval_hit_body_rest (dbg : Bool) (refidMap : List Char → Option Int)
    (namelen : Nat) (cur : Cursor) (hc : IntervalHit × Cursor) (hne : cur.rest ≠ [])
    (h : interval_hit_body dbg refidMap namelen cur = .ok hc) :
    hc.2.rest.length < cur.rest.length := by
  unfold interval_hit_body at h
  obtain ⟨nc, h1, h⟩ := Step.bind_eq_ok _ _ _ h
  have l1 := copy_refname_rest _ _ _ _ _ h1
  cases hm : refidMap nc.1 with
  | none => rw [hm] at h; exact absurd h (by simp)
  | some refid =>
    rw [hm] at h
    simp only [] at h
    obtain ⟨sc, h2, h⟩ := Step.bind_eq_ok _ _ _ h
    have l2 := parse_sign_rest _ _ _ h2
    obtain ⟨lc, h3, h⟩ := Step.bind_eq_ok _ _ _ h
    have l3 := parse_off_checked_rest _ _ _ _ _ h3
    obtain ⟨refoff_l, _, h⟩ := Step.bind_eq_ok _ _ _ h
    obtain ⟨rc, h4, h⟩ := Step.bind_eq_ok _ _ _ h
    have l4 := parse_off_checked_rest _ _ _ _ _ h4
    obtain ⟨_, _, h⟩ := Step.bind_eq_ok _ _ _ h
    obtain ⟨nl, h5, h⟩ := Step.bind_eq_ok _ _ _ h
    have l5 := parse_len_checked_rest _ _ _ _ _ h5
    obtain ⟨d, _, h⟩ := Step.bind_eq_ok _ _ _ h
    obtain ⟨ivlen, _, h⟩ := Step.bind_eq_ok _ _ _ h
    obtain ⟨fc, h6, h⟩ := Step.bind_eq_ok _ _ _ h
    have l6 := parse_fivepoff_rest _ _ _ _ _ _ h6
    injection h with h
    rw [← h]
    have t1 := length_tail_le_length nc.2.rest
    have t2 := length_tail_le_length lc.2.rest
    have t3 := length_tail_le_length rc.2.rest
    have t4 := length_tail_le_length nl.2.rest
    have t0 : cur.rest.tail.length < cur.rest.length := by
      cases hr : cur.rest with
      | nil => exact absurd hr hne
      | cons x xs => simp
    show fc.2.rest.length < cur.rest.length
    have l2' : sc.2.rest.length ≤ nc.2.rest.tail.length := l2
    omega

/-- The loop of `parse_hints` never runs out of passes: with more fuel than
characters left the result does not depend on the fuel. -/
theorem seed_loop_fuel (dbg : Bool) (refidMap : List Char → Option Int) (namelen : Nat) :
    ∀ (fuel : Nat) (cur : Cursor) (hints : List SeedHit), cur.rest.length < fuel →
      seed_loop dbg refidMap namelen (fuel + 1) cur hints
        = seed_loop dbg refidMap namelen fuel cur hints := by
  intro fuel
  induction fuel with
  | zero => intro cur hints h; omega
  | succ n ih =>
    intro cur hints h
    rw [seed_loop]
    conv_rhs => rw [seed_loop]
    cases hr : cur.rest with
    | nil => rfl
    | cons c cs =>
      simp only []
      by_cases hg : c = '!' ∧ cur.pos < namelen
      · rw [if_pos hg, if_pos hg]
        cases hb : seed_hit_body dbg refidMap namelen cur with
        | ok hc =>
          simp only []
          have := seed_hit_body_rest dbg refidMap namelen cur hc (by rw [hr]; simp) hb
          exact ih hc.2 _ (by omega)
        | thrown => rfl
        | assertFailed => rfl
        | undefined => rfl
      · rw [if_neg hg, if_neg hg]

/-- The loop of `parse_interval_hints` never runs out of passes. -/
theorem interval_loop_fuel (dbg : Bool) (refidMap : List Char → Option Int) (namelen : Nat) :
    ∀ (fuel : Nat) (cur : Cursor) (hints : List IntervalHit), cur.rest.length < fuel →
      interval_loop dbg refidMap namelen (fuel + 1) cur hints
        = interval_loop dbg refidMap namelen fuel cur hints := by
  intro fuel
  induction fuel with
  | zero => intro cur hints h; omega
  | succ n ih =>
    intro cur hints h
    rw [interval_loop]
    conv_rhs => rw [interval_loop]
    cases hr : cur.rest with
    | nil => rfl
    | cons c cs =>
      simp only []
      by_cases hg : c = '!' ∧ cur.pos < namelen
      · rw [if_pos hg, if_pos hg]
        cases hb : interval_hit_body dbg refidMap namelen cur with
        | ok hc =>
          simp only []
          have := interval_hit_body_rest dbg refidMap namelen cur hc (by rw [hr]; simp) hb
          exact ih hc.2 _ (by omega)
        | thrown => rfl
        | assertFailed => rfl
        | undefined => rfl
      · rw [if_neg hg, if_neg hg]

/-- More fuel than characters left is as good as any larger amount. -/
theorem seed_loop_fuel_add (dbg : Bool) (refidMap : List Char → Option Int) (namelen : Nat)
    (fuel : Nat) (cur : Cursor) (hints : List SeedHit) (h : cur.rest.length < fuel) :
    ∀ k, seed_loop dbg refidMap namelen (fuel + k) cur hints
      = seed_loop dbg refidMap namelen fuel cur hints := by
  intro k
  induction k with
  | zero => rfl
  | succ k ih =>
    rw [← Nat.add_assoc, seed_loop_fuel dbg refidMap namelen (fuel + k) cur hints (by omega), ih]

/-- More fuel than characters left is as good as any larger amount. -/
theorem interval_loop_fuel_add (dbg : Bool) (refidMap : List Char → Option Int)
    (namelen : Nat) (fuel : Nat) (cur : Cursor) (hints : List IntervalHit)
    (h : cur.rest.length < fuel) :
    ∀ k, interval_loop dbg refidMap namelen (fuel + k) cur hints
      = interval_loop dbg refidMap namelen fuel cur hints := by
  intro k
  induction k with
  | zero => rfl
  | succ k ih =>
    rw [← Nat.add_assoc, interval_loop_fuel dbg refidMap namelen (fuel + k) cur hints (by omega),
      ih]

/-! ### Signed left offsets -/

/-- A pass of the interval loop over the text of any record whose fields can be
read, signed or not. -/
theorem interval_loop_signed_text (dbg : Bool) (refidMap : List Char → Option Int)
    (namelen fuel : Nat) (f : IntervalFields) (c : Char) (t : List Char) (pos : Nat)
    (hints : List IntervalHit)
    (hwf : f.wellFormed refidMap)
    (hin : pos + f.text.length ≤ namelen)
    (hstop : c.isDigit = false ∨ namelen ≤ pos + f.text.length) :
    interval_loop dbg refidMap namelen (fuel + 1) ⟨f.text ++ c :: t, pos⟩ hints
      = if f.name.length < 1024 then
          if dbg = true ∧ ¬ (f.leftValue < (digitsValue f.right : Int)) then
            ⟨.assertFailed, hints⟩
          else if (digitsValue f.right : Int) - f.leftValue + 1 < 9223372036854775808 then
            interval_loop dbg refidMap namelen fuel ⟨c :: t, pos + f.text.length⟩
              (hints ++ [f.hit refidMap])
          else ⟨.undefined, hints⟩
        else ⟨.undefined, hints⟩ := by
  have hbody := interval_hit_body_text dbg refidMap namelen f hwf c t pos hin hstop
  have htl := intervalFields_text_length f
  have hl : digitsValue f.left < 9223372036854775808 := hwf.2.2.2.1
  have hr : digitsValue f.right < 9223372036854775808 := hwf.2.2.2.2.2.1
  have hlv : -9223372036854775808 < f.leftValue ∧ f.leftValue < 9223372036854775808 := by
    unfold IntervalFields.leftValue
    split <;> omega
  have hpos : pos < namelen := by omega
  have ehd : f.text ++ c :: t = '!' :: (f.text ++ c :: t).tail := rfl
  by_cases hnl : f.name.length < 1024
  · rw [if_pos hnl] at hbody
    rw [if_pos hnl]
    by_cases ha : dbg = true ∧ ¬ (f.leftValue < (digitsValue f.right : Int))
    · rw [if_pos ha, ehd]
      apply interval_loop_enter_fail dbg refidMap namelen fuel _ pos hints hpos .assertFailed
      rw [← ehd, hbody]
      have : assert_gt dbg (digitsValue f.right : Int) f.leftValue = .assertFailed := by
        unfold assert_gt
        rw [if_pos ⟨ha.1, ha.2⟩]
      rw [this]; rfl
    · rw [if_neg ha]
      have hok : assert_gt dbg (digitsValue f.right : Int) f.leftValue = .ok () := by
        unfold assert_gt
        rw [if_neg ha]
      rw [hok, Step.bind_ok] at hbody
      by_cases hfit : (digitsValue f.right : Int) - f.leftValue + 1 < 9223372036854775808
      · rw [checkRefOff_of_range _ (by omega) (by omega), Step.bind_ok,
          checkRefOff_of_range _ (by omega) hfit, Step.bind_ok] at hbody
        rw [if_pos hfit, ehd, interval_loop_enter_ok dbg refidMap namelen fuel _ pos hints
          hpos _ (by rw [← ehd]; exact hbody)]
        rfl
      · rw [if_neg hfit, ehd]
        apply interval_loop_enter_fail dbg refidMap namelen fuel _ pos hints hpos .undefined
        rw [← ehd, hbody]
        by_cases h1 : (digitsValue f.right : Int) - f.leftValue < 9223372036854775808
        · rw [checkRefOff_of_range _ (by omega) h1, Step.bind_ok,
            checkRefOff_of_large _ (by omega)]
          rfl
        · rw [checkRefOff_of_large _ (by omega)]
          rfl
  · rw [if_neg hnl] at hbody
    rw [if_neg hnl, ehd]
    exact interval_loop_enter_fail dbg refidMap namelen fuel _ pos hints hpos .undefined
      (by rw [← ehd, hbody]; rfl)

theorem negFields_wellFormed : negFields.wellFormed exampleTable := by
  unfold IntervalFields.wellFormed allDigits SIZE_MOD
  decide

/-! ### Names without the sentinel and short names -/

theorem has_hint_loop_absent (name : List Char) (hmax : name.length ≤ INT_MAX + 1)
    (hno : ∀ i, i + 3 ≤ name.length → ¬ windowAt name i) :
    ∀ (n i : Nat), i + n + 2 = name.length → has_hint_loop name n i = some (-1) := by
  intro n
  induction n with
  | zero => intro i _; rfl
  | succ n ih =>
    intro i h
    rw [has_hint_loop_skip name n i (by omega) (by omega) (hno i (by omega))]
    exact ih (i + 1) (by omega)

/-- In a name without `!` the loop of `has_hint` that runs as far as
`i = INT_MAX` ends in the step `i++`, which has no defined behaviour there. -/
theorem has_hint_loop_overflow (name : List Char) (hno : '!' ∉ name)
    (hlen : INT_MAX < name.length) :
    ∀ (d i n : Nat), i + d = INT_MAX → d < n → has_hint_loop name n i = none := by
  intro d
  induction d with
  | zero =>
    intro i n hi hn
    obtain ⟨m, rfl⟩ : ∃ m, n = m + 1 := ⟨n - 1, by omega⟩
    have e0 : name[i]? = some name[i] := List.getElem?_eq_getElem (by omega)
    have h0 : name[i] ≠ '!' := fun e => hno (e ▸ List.getElem_mem _)
    rw [has_hint_loop]
    simp only [e0, if_neg h0]
    rw [if_neg (by omega)]
  | succ d ih =>
    intro i n hi hn
    obtain ⟨m, rfl⟩ : ∃ m, n = m + 1 := ⟨n - 1, by omega⟩
    have e0 : name[i]? = some name[i] := List.getElem?_eq_getElem (by omega)
    have h0 : name[i] ≠ '!' := fun e => hno (e ▸ List.getElem_mem _)
    rw [has_hint_loop]
    simp only [e0, if_neg h0]
    rw [if_pos (by omega)]
    exact ih (i + 1) m (by omega) (by omega)

/-- The counter of `has_hint` overflows on a name of more than `INT_MAX + 2`
characters none of which is `!`. -/
theorem has_hint_overflow (r : Read) (hno : '!' ∉ r.name)
    (hlen : INT_MAX + 2 < r.name.length) : has_hint r = none := by
  unfold has_hint has_hint_bound
  rw [if_pos (by omega)]
  exact has_hint_loop_overflow r.name hno (by omega) INT_MAX 0 _ (by omega) (by omega)

theorem has_hint_bound_zero : has_hint_bound 0 = 18446744073709551613 + 1 := by decide

theorem has_hint_bound_one : has_hint_bound 1 = 18446744073709551614 + 1 := by decide

theorem has_hint_empty_name (behind : Char) (slack : List Char) :
    has_hint ⟨[], behind, slack⟩ = none := by
  unfold has_hint
  simp only [List.length_nil]
  rw [has_hint_bound_zero, has_hint_loop]
  rfl

theorem has_hint_one_char (behind : Char) (slack : List Char) (c : Char) :
    has_hint ⟨[c], behind, slack⟩ = none := by
  have m1 : 0 + 1 ≤ INT_MAX := by decide
  unfold has_hint
  simp only [List.length_singleton]
  rw [has_hint_bound_one, has_hint_loop]
  simp only [List.getElem?_cons_zero]
  by_cases hc : c = '!'
  · rw [if_pos hc, if_pos m1]; rfl
  · rw [if_neg hc, if_pos m1]
    rw [show (18446744073709551614 : Nat) = 18446744073709551613 + 1 from rfl, has_hint_loop]
    rfl

theorem has_hint_two_chars (behind : Char) (slack : List Char) (c d : Char) :
    has_hint ⟨[c, d], behind, slack⟩ = some (-1) := rfl

/-! ### The first passes of a loop -/

theorem passes_succ {H : Type} (body : Cursor → Step (H × Cursor)) (namelen j : Nat)
    (cur : Cursor) (hs : List H) (cur' : Cursor)
    (h : passes body namelen (j + 1) cur = some (hs, cur')) :
    ∃ c t hc hs', cur.rest = c :: t ∧ (c = '!' ∧ cur.pos < namelen) ∧ body cur = .ok hc ∧
      passes body namelen j hc.2 = some (hs', cur') ∧ hs = hc.1 :: hs' := by
  rw [passes] at h
  cases hr : cur.rest with
  | nil => rw [hr] at h; exact absurd h (by simp)
  | cons c t =>
    rw [hr] at h
    simp only [] at h
    by_cases hg : c = '!' ∧ cur.pos < namelen
    · rw [if_pos hg] at h
      cases hb : body cur with
      | ok hc =>
        rw [hb] at h
        simp only [] at h
        cases hp : passes body namelen j hc.2 with
        | none => rw [hp] at h; exact absurd h (by simp)
        | some r =>
          rw [hp] at h
          simp only [Option.map_some', Option.some.injEq, Prod.mk.injEq] at h
          exact ⟨c, t, hc, r.1, rfl, hg, rfl, by rw [← h.2, hp], h.1.symm⟩
      | thrown => rw [hb] at h; exact absurd h (by simp)
      | assertFailed => rw [hb] at h; exact absurd h (by simp)
      | undefined => rw [hb] at h; exact absurd h (by simp)
    · rw [if_neg hg] at h; exact absurd h (by simp)

/-- After `j` passes that push the hits `hs`, the loop of `parse_hints` goes on
behind them with `hs` appended. -/
theorem seed_loop_passes (dbg : Bool) (refidMap : List Char → Option Int) (namelen : Nat) :
    ∀ (j : Nat) (cur : Cursor) (hs : List SeedHit) (cur' : Cursor),
      passes (seed_hit_body dbg refidMap namelen) namelen j cur = some (hs, cur') →
      ∀ (fuel : Nat) (hints : List SeedHit),
        seed_loop dbg refidMap namelen (fuel + j) cur hints
          = seed_loop dbg refidMap namelen fuel cur' (hints ++ hs) := by
  intro j
  induction j with
  | zero =>
    intro cur hs cur' h fuel hints
    simp only [passes, Option.some.injEq, Prod.mk.injEq] at h
    rw [← h.1, ← h.2]; simp
  | succ j ih =>
    intro cur hs cur' h fuel hints
    obtain ⟨c, t, hc, hs', hr, hg, hb, hp, rfl⟩ := passes_succ _ _ _ _ _ _ h
    have hcur : cur = ⟨'!' :: t, cur.pos⟩ := by
      cases cur; simp only [Cursor.mk.injEq] at *; simp [hr, hg.1]
    rw [← Nat.add_assoc, hcur, seed_loop_enter_ok dbg refidMap namelen (fuel + j) t cur.pos hints
      hg.2 hc (by rw [← hcur]; exact hb), ih hc.2 hs' cur' hp fuel]
    simp

theorem interval_loop_passes (dbg : Bool) (refidMap : List Char → Option Int) (namelen : Nat) :
    ∀ (j : Nat) (cur : Cursor) (hs : List IntervalHit) (cur' : Cursor),
      passes (interval_hit_body dbg refidMap namelen) namelen j cur = some (hs, cur') →
      ∀ (fuel : Nat) (hints : List IntervalHit),
        interval_loop dbg refidMap namelen (fuel + j) cur hints
          = interval_loop dbg refidMap namelen fuel cur' (hints ++ hs) := by
  intro j
  induction j with
  | zero =>
    intro cur hs cur' h fuel hints
    simp only [passes, Option.some.injEq, Prod.mk.injEq] at h
    rw [← h.1, ← h.2]; simp
  | succ j ih =>
    intro cur hs cur' h fuel hints
    obtain ⟨c, t, hc, hs', hr, hg, hb, hp, rfl⟩ := passes_succ _ _ _ _ _ _ h
    have hcur : cur = ⟨'!' :: t, cur.pos⟩ := by
      cases cur; simp only [Cursor.mk.injEq] at *; simp [hr, hg.1]
    rw [← Nat.add_assoc, hcur, interval_loop_enter_ok dbg refidMap namelen (fuel + j) t cur.pos
      hints hg.2 hc (by rw [← hcur]; exact hb), ih hc.2 hs' cur' hp fuel]
    simp

/-- Every pass uses up at least one character. -/
theorem passes_rest {H : Type} (body : Cursor → Step (H × Cursor)) (namelen : Nat)
    (hbody : ∀ cur hc, cur.rest ≠ [] → body cur = .ok hc → hc.2.rest.length < cur.rest.length) :
    ∀ (j : Nat) (cur : Cursor) (hs : List H) (cur' : Cursor),
      passes body namelen j cur = some (hs, cur') → cur'.rest.length + j ≤ cur.rest.length := by
  intro j
  induction j with
  | zero =>
    intro cur hs cur' h
    simp only [passes, Option.some.injEq, Prod.mk.injEq] at h
    rw [← h.2]; simp
  | succ j ih =>
    intro cur hs cur' h
    obtain ⟨c, t, hc, hs', hr, hg, hb, hp, rfl⟩ := passes_succ _ _ _ _ _ _ h
    have h1 := hbody cur hc (by rw [hr]; simp) hb
    have h2 := ih hc.2 hs' cur' hp
    omega

/-! ### The list passed in as a frame -/

/-- The loop of `parse_hints` treats the hits that are already in the list as
a frame: what it appends and how it ends does not depend on them. -/
theorem seed_loop_frame (dbg : Bool) (refidMap : List Char → Option Int) (namelen : Nat) :
    ∀ (fuel : Nat) (cur : Cursor) (hints : List SeedHit),
      seed_loop dbg refidMap namelen fuel cur hints
        = ⟨(seed_loop dbg refidMap namelen fuel cur []).status,
            hints ++ (seed_loop dbg refidMap namelen fuel cur []).hints⟩ := by
  intro fuel
  induction fuel with
  | zero => intro cur hints; simp [seed_loop]
  | succ n ih =>
    intro cur hints
    rw [seed_loop, seed_loop]
    cases hr : cur.rest with
    | nil => simp
    | cons c cs =>
      simp only []
      by_cases hg : c = '!' ∧ cur.pos < namelen
      · simp only [if_pos hg]
        cases hb : seed_hit_body dbg refidMap namelen cur with
        | ok hc =>
          simp only []
          rw [ih hc.2 (hints ++ [hc.1]), ih hc.2 ([] ++ [hc.1])]
          simp
        | thrown => simp
        | assertFailed => simp
        | undefined => simp
      · simp only [if_neg hg]; simp

theorem interval_loop_frame (dbg : Bool) (refidMap : List Char → Option Int)
    (namelen : Nat) :
    ∀ (fuel : Nat) (cur : Cursor) (hints : List IntervalHit),
      interval_loop dbg refidMap namelen fuel cur hints
        = ⟨(interval_loop dbg refidMap namelen fuel cur []).status,
            hints ++ (interval_loop dbg refidMap namelen fuel cur []).hints⟩ := by
  intro fuel
  induction fuel with
  | zero => intro cur hints; simp [interval_loop]
  | succ n ih =>
    intro cur hints
    rw [interval_loop, interval_loop]
    cases hr : cur.rest with
    | nil => simp
    | cons c cs =>
      simp only []
      by_cases hg : c = '!' ∧ cur.pos < namelen
      · simp only [if_pos hg]
        cases hb : interval_hit_body dbg refidMap namelen cur with
        | ok hc =>
          simp only []
          rw [ih hc.2 (hints ++ [hc.1]), ih hc.2 ([] ++ [hc.1])]
          simp
        | thrown => simp
        | assertFailed => simp
        | undefined => simp
      · simp only [if_neg hg]; simp

theorem parse_hints_frame (dbg : Bool) (r : Read) (hint_off : Int) (hints : List SeedHit)
    (refidMap : List Char → Option Int) :
    parse_hints dbg r hint_off hints refidMap
      = ⟨(parse_hints dbg r hint_off [] refidMap).status,
          hints ++ (parse_hints dbg r hint_off [] refidMap).hints⟩ := by
  unfold parse_hints
  by_cases hneg : hint_off < 0
  · simp [hneg]
  · simp only [hneg, if_false]
    cases he : entry_asserts dbg (List.drop hint_off.toNat r.storage) with
    | some st => simp
    | none =>
      simp only []
      exact seed_loop_frame dbg refidMap _ _ _ hints

theorem parse_interval_hints_frame (dbg : Bool) (r : Read) (hint_off : Int)
    (hints : List IntervalHit) (refidMap : List Char → Option Int) :
    parse_interval_hints dbg r hint_off hints refidMap
      = ⟨(parse_interval_hints dbg r hint_off [] refidMap).status,
          hints ++ (parse_interval_hints dbg r hint_off [] refidMap).hints⟩ := by
  unfold parse_interval_hints
  by_cases hneg : hint_off < 0
  · simp [hneg]
  · simp only [hneg, if_false]
    cases he : entry_asserts dbg (List.drop hint_off.toNat r.storage) with
    | some st => simp
    | none =>
      simp only []
      exact interval_loop_frame dbg refidMap _ _ _ hints

/-- A call of `parse_hints` whose pass number `j + 1` ends it: the list holds
what it held, followed by the hits of the `j` passes before. -/
theorem parse_hints_fails_after (dbg : Bool) (r : Read) (hint_off : Int)
    (hints : List SeedHit) (refidMap : List Char → Option Int) (j : Nat)
    (hs : List SeedHit) (t : List Char) (pos : Nat) (st : Status)
    (hoff : 0 ≤ hint_off)
    (hentry : entry_asserts dbg (r.storage.drop hint_off.toNat) = none)
    (hpass : passes (seed_hit_body dbg refidMap r.name.length) r.name.length j
      ⟨(r.storage.drop hint_off.toNat).drop 2, hint_off.toNat + 2⟩ = some (hs, ⟨'!' :: t, pos⟩))
    (hpos : pos < r.name.length)
    (hfail : (seed_hit_body dbg refidMap r.name.length ⟨'!' :: t, pos⟩).failure = some st) :
    parse_hints dbg r hint_off hints refidMap = ⟨st, hints ++ hs⟩ := by
  have hprog := passes_rest (seed_hit_body dbg refidMap r.name.length) r.name.length
    (fun cur hc hne hb => seed_hit_body_rest dbg refidMap r.name.length cur hc hne hb)
    j _ hs _ hpass
  have hlen : ((r.storage.drop hint_off.toNat).drop 2).length ≤ r.storage.length := by
    simp only [List.length_drop]; omega
  have hprog' : t.length + 1 + j ≤ ((r.storage.drop hint_off.toNat).drop 2).length := hprog
  clear hprog
  have hj : j + 1 ≤ r.storage.length := by omega
  unfold parse_hints
  rw [if_neg (by omega)]
  simp only [hentry]
  obtain ⟨k, hk⟩ : ∃ k, r.storage.length + 1 = (k + 1) + j :=
    ⟨r.storage.length - j, by omega⟩
  rw [hk, seed_loop_passes dbg refidMap r.name.length j _ hs _ hpass (k + 1) hints]
  exact seed_loop_enter_fail dbg refidMap r.name.length k t pos (hints ++ hs) hpos st hfail

theorem parse_interval_hints_fails_after (dbg : Bool) (r : Read) (hint_off : Int)
    (hints : List IntervalHit) (refidMap : List Char → Option Int) (j : Nat)
    (hs : List IntervalHit) (t : List Char) (pos : Nat) (st : Status)
    (hoff : 0 ≤ hint_off)
    (hentry : entry_asserts dbg (r.storage.drop hint_off.toNat) = none)
    (hpass : passes (interval_hit_body dbg refidMap r.name.length) r.name.length j
      ⟨(r.storage.drop hint_off.toNat).drop 2, hint_off.toNat + 2⟩ = some (hs, ⟨'!' :: t, pos⟩))
    (hpos : pos < r.name.length)
    (hfail : (interval_hit_body dbg refidMap r.name.length ⟨'!' :: t, pos⟩).failure = some st) :
    parse_interval_hints dbg r hint_off hints refidMap = ⟨st, hints ++ hs⟩ := by
  have hprog := passes_rest (interval_hit_body dbg refidMap r.name.length) r.name.length
    (fun cur hc hne hb => interval_hit_body_rest dbg refidMap r.name.length cur hc hne hb)
    j _ hs _ hpass
  have hlen : ((r.storage.drop hint_off.toNat).drop 2).length ≤ r.storage.length := by
    simp only [List.length_drop]; omega
  have hprog' : t.length + 1 + j ≤ ((r.storage.drop hint_off.toNat).drop 2).length := hprog
  clear hprog
  have hj : j + 1 ≤ r.storage.length := by omega
  unfold parse_interval_hints
  rw [if_neg (by omega)]
  simp only [hentry]
  obtain ⟨k, hk⟩ : ∃ k, r.storage.length + 1 = (k + 1) + j :=
    ⟨r.storage.length - j, by omega⟩
  rw [hk, interval_loop_passes dbg refidMap r.name.length j _ hs _ hpass (k + 1) hints]
  exact interval_loop_enter_fail dbg refidMap r.name.length k t pos (hints ++ hs) hpos st hfail

/-! ### Reference ids of the hits -/

/-- The reference id of a hit pushed by `parse_hints` is what the table holds
for the name copied to `refname`. -/
theorem seed_hit_body_refid (dbg : Bool) (refidMap : List Char → Option Int) (namelen : Nat)
    (cur : Cursor) (hc : SeedHit × Cursor)
    (h : seed_hit_body dbg refidMap namelen cur = .ok hc) :
    ∃ name c, copy_refname cur.rest.tail (cur.pos + 1) [] = .ok (name, c) ∧
      refidMap name = some hc.1.refival.refid := by
  unfold seed_hit_body at h
  obtain ⟨nc, h1, h⟩ := Step.bind_eq_ok _ _ _ h
  refine ⟨nc.1, nc.2, h1, ?_⟩
  cases hm : refidMap nc.1 with
  | none => rw [hm] at h; exact absurd h (by simp)
  | some refid =>
    rw [hm] at h
    simp only [] at h
    obtain ⟨oc, _, h⟩ := Step.bind_eq_ok _ _ _ h
    cases ho : oc.2.rest.tail with
    | nil => rw [ho] at h; exact absurd h (by simp)
    | cons o cs =>
      rw [ho] at h
      simp only [] at h
      obtain ⟨c3, _, h⟩ := Step.bind_eq_ok _ _ _ h
      obtain ⟨lc, _, h⟩ := Step.bind_eq_ok _ _ _ h
      obtain ⟨fc, _, h⟩ := Step.bind_eq_ok _ _ _ h
      injection h with h
      rw [← h]

/-- The reference id of a hit pushed by `parse_interval_hints` is what the table
holds for the name copied to `refname`. -/
theorem interval_hit_body_refid (dbg : Bool) (refidMap : List Char → Option Int)
    (namelen : Nat) (cur : Cursor) (hc : IntervalHit × Cursor)
    (h : interval_hit_body dbg refidMap namelen cur = .ok hc) :
    ∃ name c, copy_refname cur.rest.tail (cur.pos + 1) [] = .ok (name, c) ∧
      refidMap name = some hc.1.refival.refid := by
  unfold interval_hit_body at h
  obtain ⟨nc, h1, h⟩ := Step.bind_eq_ok _ _ _ h
  refine ⟨nc.1, nc.2, h1, ?_⟩
  cases hm : refidMap nc.1 with
  | none => rw [hm] at h; exact absurd h (by simp)
  | some refid =>
    rw [hm] at h
    simp only [] at h
    obtain ⟨sc, _, h⟩ := Step.bind_eq_ok _ _ _ h
    obtain ⟨lc, _, h⟩ := Step.bind_eq_ok _ _ _ h
    obtain ⟨refoff_l, _, h⟩ := Step.bind_eq_ok _ _ _ h
    obtain ⟨rc, _, h⟩ := Step.bind_eq_ok _ _ _ h
    obtain ⟨_, _, h⟩ := Step.bind_eq_ok _ _ _ h
    obtain ⟨nl, _, h⟩ := Step.bind_eq_ok _ _ _ h
    obtain ⟨d, _, h⟩ := Step.bind_eq_ok _ _ _ h
    obtain ⟨ivlen, _, h⟩ := Step.bind_eq_ok _ _ _ h
    obtain ⟨fc, _, h⟩ := Step.bind_eq_ok _ _ _ h
    injection h with h
    rw [← h]

/-- What `copy_refname` hands to the lookup is the run of characters other than
`!` in front of the cursor. -/
theorem copy_refname_name : ∀ (l : List Char) (pos : Nat) (acc name : List Char) (c : Cursor),
    copy_refname l pos acc = .ok (name, c) → name = acc ++ l.takeWhile fun c => c != '!' := by
  intro l
  induction l with
  | nil => intro pos acc name c h; simp [copy_refname] at h
  | cons x xs ih =>
    intro pos acc name c h
    rw [copy_refname] at h
    by_cases hx : x = '!'
    · rw [if_pos hx] at h
      by_cases hl : acc.length < 1024
      · rw [if_pos hl] at h
        injection h with h
        injection h with h1 _
        rw [← h1, hx]
        simp
      · rw [if_neg hl] at h; exact absurd h (by simp)
    · rw [if_neg hx] at h
      by_cases hl : acc.length < 1024
      · rw [if_pos hl] at h
        rw [ih (pos + 1) (acc ++ [x]) name c h]
        simp [List.takeWhile_cons, hx]
      · rw [if_neg hl] at h; exact absurd h (by simp)

theorem seed_hit_body_record_name (dbg : Bool) (refidMap : List Char → Option Int)
    (namelen : Nat) (cur : Cursor) (hc : SeedHit × Cursor)
    (h : seed_hit_body dbg refidMap namelen cur = .ok hc) :
    refidMap (record_name cur) = some hc.1.refival.refid := by
  obtain ⟨name, c, h1, h2⟩ := seed_hit_body_refid dbg refidMap namelen cur hc h
  have := copy_refname_name _ _ _ _ _ h1
  rw [List.nil_append] at this
  rw [record_name, ← this, h2]

theorem interval_hit_body_record_name (dbg : Bool) (refidMap : List Char → Option Int)
    (namelen : Nat) (cur : Cursor) (hc : IntervalHit × Cursor)
    (h : interval_hit_body dbg refidMap namelen cur = .ok hc) :
    refidMap (record_name cur) = some hc.1.refival.refid := by
  obtain ⟨name, c, h1, h2⟩ := interval_hit_body_refid dbg refidMap namelen cur hc h
  have := copy_refname_name _ _ _ _ _ h1
  rw [List.nil_append] at this
  rw [record_name, ← this, h2]

theorem passes_cons {H : Type} (body : Cursor → Step (H × Cursor)) (namelen j : Nat)
    (cur : Cursor) (c0 : Char) (cs : List Char) (hc : H × Cursor) (hs : List H) (c : Cursor)
    (hr : cur.rest = c0 :: cs) (hg : c0 = '!' ∧ cur.pos < namelen) (hb : body cur = .ok hc)
    (hp : passes body namelen j hc.2 = some (hs, c)) :
    passes body namelen (j + 1) cur = some (hc.1 :: hs, c) := by
  rw [passes, hr]
  simp only [if_pos hg, hb, hp, Option.map_some']

/-- The records that the loop of `parse_hints` appends, one by one: record
number `j + 1` is pushed by the pass that is entered where the `j` passes in
front of it, which pushed the records in front of it, have left the cursor. -/
theorem seed_loop_records_of_passes (dbg : Bool) (refidMap : List Char → Option Int)
    (namelen : Nat) :
    ∀ (fuel : Nat) (cur : Cursor) (hints : List SeedHit),
      ∃ new, (seed_loop dbg refidMap namelen fuel cur hints).hints = hints ++ new ∧
        ∀ (j : Nat) (h : SeedHit), new[j]? = some h →
          ∃ c cur', passes (seed_hit_body dbg refidMap namelen) namelen j cur
              = some (new.take j, c) ∧
            seed_hit_body dbg refidMap namelen c = .ok (h, cur') := by
  intro fuel
  induction fuel with
  | zero => intro cur hints; exact ⟨[], by simp [seed_loop], by simp⟩
  | succ n ih =>
    intro cur hints
    rw [seed_loop]
    cases hr : cur.rest with
    | nil => exact ⟨[], by simp, by simp⟩
    | cons c0 cs =>
      simp only []
      by_cases hg : c0 = '!' ∧ cur.pos < namelen
      · rw [if_pos hg]
        cases hb : seed_hit_body dbg refidMap namelen cur with
        | ok hc =>
          obtain ⟨new, hnew, hall⟩ := ih hc.2 (hints ++ [hc.1])
          refine ⟨hc.1 :: new, by simp [hnew], ?_⟩
          intro j h hj
          cases j with
          | zero =>
            simp only [List.getElem?_cons_zero, Option.some.injEq] at hj
            exact ⟨cur, hc.2, rfl, by rw [hb, ← hj]⟩
          | succ j =>
            rw [List.getElem?_cons_succ] at hj
            obtain ⟨c, cur', hp, hbc⟩ := hall j h hj
            exact ⟨c, cur', by
              rw [List.take_succ_cons]
              exact passes_cons _ namelen j cur c0 cs hc _ c hr hg hb hp, hbc⟩
        | thrown => exact ⟨[], by simp, by simp⟩
        | assertFailed => exact ⟨[], by simp, by simp⟩
        | undefined => exact ⟨[], by simp, by simp⟩
      · rw [if_neg hg]; exact ⟨[], by simp, by simp⟩

theorem interval_loop_records_of_passes (dbg : Bool) (refidMap : List Char → Option Int)
    (namelen : Nat) :
    ∀ (fuel : Nat) (cur : Cursor) (hints : List IntervalHit),
      ∃ new, (interval_loop dbg refidMap namelen fuel cur hints).hints = hints ++ new ∧
        ∀ (j : Nat) (h : IntervalHit), new[j]? = some h →
          ∃ c cur', passes (interval_hit_body dbg refidMap namelen) namelen j cur
              = some (new.take j, c) ∧
            interval_hit_body dbg refidMap namelen c = .ok (h, cur') := by
  intro fuel
  induction fuel with
  | zero => intro cur hints; exact ⟨[], by simp [interval_loop], by simp⟩
  | succ n ih =>
    intro cur hints
    rw [interval_loop]
    cases hr : cur.rest with
    | nil => exact ⟨[], by simp, by simp⟩
    | cons c0 cs =>
      simp only []
      by_cases hg : c0 = '!' ∧ cur.pos < namelen
      · rw [if_pos hg]
        cases hb : interval_hit_body dbg refidMap namelen cur with
        | ok hc =>
          obtain ⟨new, hnew, hall⟩ := ih hc.2 (hints ++ [hc.1])
          refine ⟨hc.1 :: new, by simp [hnew], ?_⟩
          intro j h hj
          cases j with
          | zero =>
            simp only [List.getElem?_cons_zero, Option.some.injEq] at hj
            exact ⟨cur, hc.2, rfl, by rw [hb, ← hj]⟩
          | succ j =>
            rw [List.getElem?_cons_succ] at hj
            obtain ⟨c, cur', hp, hbc⟩ := hall j h hj
            exact ⟨c, cur', by
              rw [List.take_succ_cons]
              exact passes_cons _ namelen j cur c0 cs hc _ c hr hg hb hp, hbc⟩
        | thrown => exact ⟨[], by simp, by simp⟩
        | assertFailed => exact ⟨[], by simp, by simp⟩
        | undefined => exact ⟨[], by simp, by simp⟩
      · rw [if_neg hg]; exact ⟨[], by simp, by simp⟩

theorem parse_hints_records_of_passes (dbg : Bool) (r : Read) (hint_off : Int)
    (hints : List SeedHit) (refidMap : List Char → Option Int) :
    ∃ new, (parse_hints dbg r hint_off hints refidMap).hints = hints ++ new ∧
      ∀ (j : Nat) (h : SeedHit), new[j]? = some h →
        ∃ c cur', passes (seed_hit_body dbg refidMap r.name.length) r.name.length j
            ⟨(r.storage.drop hint_off.toNat).drop 2, hint_off.toNat + 2⟩
            = some (new.take j, c) ∧
          seed_hit_body dbg refidMap r.name.length c = .ok (h, cur') := by
  unfold parse_hints
  by_cases hneg : hint_off < 0
  · exact ⟨[], by simp [hneg], by simp⟩
  · simp only [hneg, if_false]
    cases he : entry_asserts dbg (List.drop hint_off.toNat r.storage) with
    | some st => exact ⟨[], by simp, by simp⟩
    | none => exact seed_loop_records_of_passes dbg refidMap _ _ _ hints

theorem parse_interval_hints_records_of_passes (dbg : Bool) (r : Read) (hint_off : Int)
    (hints : List IntervalHit) (refidMap : List Char → Option Int) :
    ∃ new, (parse_interval_hints dbg r hint_off hints refidMap).hints = hints ++ new ∧
      ∀ (j : Nat) (h : IntervalHit), new[j]? = some h →
        ∃ c cur', passes (interval_hit_body dbg refidMap r.name.length) r.name.length j
            ⟨(r.storage.drop hint_off.toNat).drop 2, hint_off.toNat + 2⟩
            = some (new.take j, c) ∧
          interval_hit_body dbg refidMap r.name.length c = .ok (h, cur') := by
  unfold parse_interval_hints
  by_cases hneg : hint_off < 0
  · exact ⟨[], by simp [hneg], by simp⟩
  · simp only [hneg, if_false]
    cases he : entry_asserts dbg (List.drop hint_off.toNat r.storage) with
    | some st => exact ⟨[], by simp, by simp⟩
    | none => exact interval_loop_records_of_passes dbg refidMap _ _ _ hints

theorem exampleTable_ne_placeholder : ∀ name, exampleTable name ≠ some (-1) := by
  intro name
  unfold exampleTable
  split
  · decide
  · split <;> simp

/-! ### The writes to `refname` -/

theorem refname_writes_name (name : List Char) (hn : '!' ∉ name) :
    ∀ (t : List Char) (k : Nat),
      refname_writes (name ++ '!' :: t) k = List.range' k (name.length + 1) := by
  induction name with
  | nil => intro t k; simp [refname_writes]
  | cons c cs ih =>
    intro t k
    have hc : c ≠ '!' := fun e => hn (e ▸ List.mem_cons_self _ _)
    have hcs : '!' ∉ cs := fun e => hn (List.mem_cons_of_mem _ e)
    have e : refname_writes ((c :: cs) ++ '!' :: t) k
        = k :: refname_writes (cs ++ '!' :: t) (k + 1) := by
      simp [refname_writes, hc]
    rw [e, ih hcs t (k + 1)]
    rfl

/-- For a name of at most 1023 characters every write to `refname`, the
terminator included, is at an index below 1024. -/
theorem refname_writes_short (name t : List Char) (hn : '!' ∉ name)
    (hlen : name.length ≤ 1023) : ∀ i ∈ refname_writes (name ++ '!' :: t) 0, i < 1024 := by
  intro i hi
  rw [refname_writes_name name hn t 0, List.mem_range'_1] at hi
  omega

/-- For a name of 1024 characters or more the index 1024 is written. -/
theorem refname_writes_long (name t : List Char) (hn : '!' ∉ name)
    (hlen : 1024 ≤ name.length) : 1024 ∈ refname_writes (name ++ '!' :: t) 0 := by
  rw [refname_writes_name name hn t 0, List.mem_range'_1]
  omega

/-- The copy of the name ends the defined behaviour exactly when the read
leaves the buffer or an index of 1024 or more is written. -/
theorem copy_refname_undefined_iff : ∀ (l : List Char) (pos : Nat) (acc : List Char),
    copy_refname l pos acc = .undefined ↔
      ('!' ∉ l ∨ ∃ i ∈ refname_writes l acc.length, 1024 ≤ i) := by
  intro l
  induction l with
  | nil => intro pos acc; simp [copy_refname]
  | cons c cs ih =>
    intro pos acc
    rw [copy_refname, refname_writes]
    by_cases hc : c = '!'
    · subst hc
      by_cases hl : acc.length < 1024
      · simp [hl]
      · simp [hl]; omega
    · rw [if_neg hc, if_neg hc]
      have hne : ¬ ('!' = c) := fun e => hc e.symm
      by_cases hl : acc.length < 1024
      · rw [if_pos hl, ih (pos + 1) (acc ++ [c])]
        simp only [List.length_append, List.length_singleton, List.mem_cons, hne, false_or,
          exists_eq_or_imp]
        constructor
        · rintro (h | h)
          · exact Or.inl h
          · exact Or.inr (Or.inr h)
        · rintro (h | h | h)
          · exact Or.inl h
          · omega
          · exact Or.inr h
      · rw [if_neg hl]
        simp only [List.mem_cons, hne, false_or, exists_eq_or_imp, true_iff]
        exact Or.inr (Or.inl (by omega))

/-! ### Empty fields -/

theorem sparseFields_wellFormed : sparseFields.wellFormed exampleTable := by
  unfold PointFields.wellFormed allDigits SIZE_MOD
  decide

/-! ### Unknown names and unchecked digits -/

/-- Unknown reference names that fit `refname`.  For both decoders, at every
record position (the loop guard holds at the cursor) at which the characters
between the opening `!` and the next `!` are a name of at most 1023 characters,
without a NUL, for which the lookup finds nothing, the call ends with
`throw 1`, whatever follows the name, and the list is left as it was.  The
lookup takes `refname` as a C string, which ends at the first NUL: for a name
without NUL the key of the lookup is the name itself. -/
theorem unknown_name_throws (dbg : Bool) (refidMap : List Char → Option Int)
    (namelen fuel : Nat) (pre name t : List Char) (behind : Char) (slack : List Char)
    (pos : Nat) (hints : List SeedHit) (ihints : List IntervalHit)
    (hname : '!' ∉ name) (_hnul : Char.ofNat 0 ∉ name) (hlen : name.length < 1024)
    (hmap : refidMap name = none) (hpos : pos < namelen) :
    seed_loop dbg refidMap namelen (fuel + 1) ⟨'!' :: (name ++ '!' :: t), pos⟩ hints
      = ⟨.thrown, hints⟩ ∧
    interval_loop dbg refidMap namelen (fuel + 1) ⟨'!' :: (name ++ '!' :: t), pos⟩ ihints
      = ⟨.thrown, ihints⟩ ∧
    parse_hints dbg ⟨pre ++ '!' :: 'h' :: '!' :: (name ++ '!' :: t), behind, slack⟩
        (pre.length : Int) hints refidMap = ⟨.thrown, hints⟩ ∧
    parse_interval_hints dbg ⟨pre ++ '!' :: 'h' :: '!' :: (name ++ '!' :: t), behind, slack⟩
        (pre.length : Int) ihints refidMap = ⟨.thrown, ihints⟩ := by
  refine ⟨?_, ?_, ?_, ?_⟩
  · exact seed_loop_enter_fail dbg refidMap namelen fuel _ pos hints hpos .thrown
      (by rw [seed_hit_body_unknown dbg refidMap namelen name t pos hname hlen hmap]; rfl)
  · exact interval_loop_enter_fail dbg refidMap namelen fuel _ pos ihints hpos .thrown
      (by rw [interval_hit_body_unknown dbg refidMap namelen name t pos hname hlen hmap]; rfl)
  · rw [parse_hints_at_sentinel]
    apply seed_loop_enter_fail
    · simp; omega
    · rw [List.append_assoc, List.cons_append,
        seed_hit_body_unknown dbg refidMap _ name _ _ hname hlen hmap]; rfl
  · rw [parse_interval_hints_at_sentinel]
    apply interval_loop_enter_fail
    · simp; omega
    · rw [List.append_assoc, List.cons_append,
        interval_hit_body_unknown dbg refidMap _ name _ _ hname hlen hmap]; rfl

/-- The digit tests of the interval decoder stand behind the copy of the name
and the accumulation of the digits in front of the character: behind a
reference name of 1024 characters the left offset `1a` is not looked at, and
in the left offset `99999999999999999999a` the digits overflow `TRefOff` before
the `a` is read. -/
theorem digit_check_not_reached :
    parse_interval_hints false
        ⟨'!' :: 'h' :: '!' :: (longName ++ "!1a!5!0!3".toList), 'x', []⟩ 0 [] longTable
      = ⟨.undefined, []⟩ ∧
    longTable longName = some 1 ∧ longName.length = 1024 ∧ '!' ∉ longName ∧
    parse_interval_hints false ⟨"!h!chr2!99999999999999999999a!5!0!3".toList, 'x', []⟩ 0 []
        exampleTable
      = ⟨.undefined, []⟩ :=
  ⟨(parse_overflow false [] longName "!1a!5!0!3".toList 'x' [] longTable longName_no_bang
      (by rw [longName_length]) [] []).2,
   if_pos rfl, longName_length, longName_no_bang, by decide⟩

/-! ## The claims -/

/-- C1, as documented, fails: on the documented example `!h!!chr1!100!+!50!10`
the cursor starts on the last `!` of the sentinel, which opens the first record,
so the next `!` closes an empty reference name; the empty name is not in the
table and the decoder throws with nothing appended.  A name of 1024 characters
does not fit `refname` even in the format the decoder reads. -/
theorem parse_hints_documented_example_throws :
    parse_hints false ⟨"!h!!chr1!100!+!50!10".toList, 'x', []⟩ 0 [] exampleTable
        = ⟨.thrown, []⟩ ∧
    parse_hints true ⟨"!h!!chr1!100!+!50!10".toList, 'x', []⟩ 0 [] exampleTable
        = ⟨.thrown, []⟩ ∧
    exampleTable "chr1".toList = some 7 ∧
    parse_hints false ⟨'!' :: 'h' :: '!' :: (longName ++ "!100!+!50!10".toList), 'x', []⟩ 0 []
        longTable = ⟨.undefined, []⟩ ∧
    longTable longName = some 1 :=
  ⟨by decide, by decide, by decide,
   (parse_overflow false [] longName "!100!+!50!10".toList 'x' [] longTable longName_no_bang
      (by rw [longName_length]) [] []).1,
   if_pos rfl⟩

/-- C1, amended: point-hint round trip in the format the decoder reads.  For
`k ≥ 1` records (name without `!`, shorter than 1024 characters and in the
table; offset, length and five-prime offset in range and written in decimal;
orientation written `+` or `-`), `parse_hints` on `!h` followed by the records
`!name!offset!orientation!length!five-prime-offset` (the last `!` of the
sentinel opens the first record), with `hint_off` 0 and an empty list, returns
normally with exactly the `k` hits, in order. -/
theorem parse_hints_round_trip (dbg : Bool) (behind : Char) (slack : List Char)
    (recs : List PointRecord) (refidMap : List Char → Option Int)
    (hk : recs ≠ [])
    (hrec : ∀ p ∈ recs, p.encodable refidMap) :
    parse_hints dbg ⟨'!' :: 'h' :: pointText (recs.map PointRecord.fields), behind, slack⟩ 0 []
        refidMap
      = ⟨.returned, recs.map (PointRecord.hit refidMap)⟩ := by
  have h := parse_hints_records dbg [] [] behind slack (recs.map PointRecord.fields) []
    refidMap (by simpa using hk)
    (by
      intro f hf
      obtain ⟨p, hp, rfl⟩ := List.mem_map.1 hf
      exact PointRecord.fields_wellFormed refidMap p (hrec p hp))
    (by simp)
  simp only [List.nil_append, List.append_nil, List.length_nil, List.map_map] at h
  rw [show ((0 : Int) = ((0 : Nat) : Int)) from rfl, h]
  congr 1
  apply List.map_congr_left
  intro p _
  exact PointRecord.fields_hit refidMap p

/-- C1, witness: `!h!chr1!100!+!50!10` decodes to the one hit (id of `chr1`,
offset 100, forward, length 50, five-prime offset 10). -/
theorem parse_hints_round_trip_witness :
    ([⟨"chr1".toList, 100, true, 50, 10⟩] : List PointRecord) ≠ [] ∧
    (∀ p ∈ ([⟨"chr1".toList, 100, true, 50, 10⟩] : List PointRecord),
      p.encodable exampleTable) ∧
    parse_hints true ⟨"!h!chr1!100!+!50!10".toList, 'x', []⟩ 0 [] exampleTable
      = ⟨.returned, [⟨⟨7, 100, true, 50⟩, 10⟩]⟩ :=
  ⟨by decide, by
      intro p hp
      rw [List.mem_singleton.1 hp]
      unfold PointRecord.encodable SIZE_MOD
      decide,
    parse_hints_round_trip true 'x' [] [⟨"chr1".toList, 100, true, 50, 10⟩] exampleTable
      (by decide) (by
        intro p hp
        rw [List.mem_singleton.1 hp]
        unfold PointRecord.encodable SIZE_MOD
        decide)⟩

/-- C3: several point records are all decoded, in order, and decoding stops at
the first character that does not open a record.  For `k ≥ 1` well-formed
records (name without `!`, shorter than 1024 characters and in the table; the
three numbers digit runs in range; any orientation character), any text `pre`
in front and any text `post` behind that is empty or starts with a character
that is neither a digit nor `!`, `parse_hints` on
`pre ++ "!h" ++ records ++ post` with `hint_off = |pre|` returns normally and
leaves the list as it was, followed by exactly the `k` hits (table id, offset,
forward iff the orientation character is `+`, length, five-prime offset). -/
theorem parse_hints_decodes_all_records (dbg : Bool) (pre post : List Char) (behind : Char)
    (slack : List Char) (recs : List PointFields) (hints : List SeedHit)
    (refidMap : List Char → Option Int)
    (hk : recs ≠ [])
    (hwf : ∀ f ∈ recs, f.wellFormed refidMap)
    (hpost : ∀ c ∈ post.head?, c.isDigit = false ∧ c ≠ '!') :
    parse_hints dbg ⟨pre ++ '!' :: 'h' :: pointText recs ++ post, behind, slack⟩
        (pre.length : Int) hints refidMap
      = ⟨.returned, hints ++ recs.map (PointFields.hit refidMap)⟩ :=
  parse_hints_records dbg pre post behind slack recs hints refidMap hk hwf hpost

/-- C3, witness: two records behind the name `r1`, followed by `;zz`, with one
hit already in the list. -/
theorem parse_hints_decodes_all_records_witness :
    twoRecords ≠ [] ∧ (∀ f ∈ twoRecords, f.wellFormed exampleTable) ∧
    (∀ c ∈ ";zz".toList.head?, c.isDigit = false ∧ c ≠ '!') ∧
    parse_hints true ⟨"r1!h!chr1!100!+!50!10!chr2!3!r!4!5;zz".toList, '7', []⟩ 2
        [⟨⟨0, 1, false, 2⟩, 3⟩] exampleTable
      = ⟨.returned, [⟨⟨0, 1, false, 2⟩, 3⟩, ⟨⟨7, 100, true, 50⟩, 10⟩, ⟨⟨9, 3, false, 4⟩, 5⟩]⟩ :=
  ⟨by decide, twoRecords_wellFormed, by decide,
    parse_hints_decodes_all_records true "r1".toList ";zz".toList '7' [] twoRecords
      [⟨⟨0, 1, false, 2⟩, 3⟩] exampleTable (by decide) twoRecords_wellFormed (by decide)⟩

/-- C4: interval record construction.  When the loop of `parse_interval_hints`
stands at a record `!name!left!right!len!fiveprime` inside the name, with no
`-` in front of `left`, the four numbers digit runs in range, the name in the
table and `right > left`, the pass either leaves the program's defined
behaviour (the name does not fit `refname`, or `right - left + 1` does not fit
`TRefOff`) or appends exactly the hit with the table id of the name, left
offset `left`, forward orientation, positional length `right - left + 1`,
five-prime offset `fiveprime` and hit length `len`, and goes on behind the
record. -/
theorem interval_record_construction (dbg : Bool) (refidMap : List Char → Option Int)
    (namelen fuel : Nat) (f : IntervalFields) (c : Char) (t : List Char) (pos : Nat)
    (hints : List IntervalHit)
    (hwf : f.wellFormed refidMap) (hsign : f.neg = false)
    (hgt : digitsValue f.left < digitsValue f.right)
    (hin : pos + f.text.length ≤ namelen)
    (hstop : c.isDigit = false ∨ namelen ≤ pos + f.text.length) :
    interval_loop dbg refidMap namelen (fuel + 1) ⟨f.text ++ c :: t, pos⟩ hints
      = if f.name.length < 1024 ∧
            (digitsValue f.right : Int) - (digitsValue f.left : Int) + 1 < 9223372036854775808 then
          interval_loop dbg refidMap namelen fuel ⟨c :: t, pos + f.text.length⟩
            (hints ++ [⟨⟨(refidMap f.name).getD (-1), (digitsValue f.left : Int), true,
              (digitsValue f.right : Int) - (digitsValue f.left : Int) + 1⟩,
              digitsValue f.five, digitsValue f.len⟩])
        else ⟨.undefined, hints⟩ :=
  interval_loop_text dbg refidMap namelen fuel f c t pos hints hwf hsign hgt hin hstop

/-- C4, witness: the name `!h!chr2!200!250!0!5` with `hint_off` 0 yields one hit
with left offset 200, forward, positional length 51, hit length 0 and
five-prime offset 5. -/
theorem interval_record_construction_witness :
    chr2Fields.wellFormed exampleTable ∧ chr2Fields.neg = false ∧
    digitsValue chr2Fields.left < digitsValue chr2Fields.right ∧
    2 + chr2Fields.text.length ≤ 19 ∧
    ('x'.isDigit = false ∨ 19 ≤ 2 + chr2Fields.text.length) ∧
    interval_loop true exampleTable 19 2 ⟨"!chr2!200!250!0!5x".toList, 2⟩ []
      = ⟨.returned, [⟨⟨9, 200, true, 51⟩, 5, 0⟩]⟩ ∧
    parse_interval_hints true ⟨"!h!chr2!200!250!0!5".toList, 'x', []⟩ 0 [] exampleTable
      = ⟨.returned, [⟨⟨9, 200, true, 51⟩, 5, 0⟩]⟩ :=
  ⟨chr2Fields_wellFormed, rfl, by decide, by decide, by decide,
    (interval_record_construction true exampleTable 19 1 chr2Fields 'x' [] 2 []
      chr2Fields_wellFormed rfl (by decide) (by decide) (by decide)).trans (by decide),
    by decide⟩

/-- C5, as documented, fails: on `!h!!chr2!200!250!0!5` the decoder throws (the
reference name it reads is empty); on `!h!chr2!200!250!0!5` the hit length is
the length field, 0, not 51; a name of 1024 characters does not fit `refname`;
and for `left = 0`, `right = 2^63 - 1` the sum `right - left + 1` does not fit
`TRefOff`. -/
theorem parse_interval_hints_documented_example :
    parse_interval_hints false ⟨"!h!!chr2!200!250!0!5".toList, 'x', []⟩ 0 [] exampleTable
      = ⟨.thrown, []⟩ ∧
    parse_interval_hints false ⟨"!h!chr2!200!250!0!5".toList, 'x', []⟩ 0 [] exampleTable
      = ⟨.returned, [⟨⟨9, 200, true, 51⟩, 5, 0⟩]⟩ ∧
    exampleTable "chr2".toList = some 9 ∧
    parse_interval_hints false
        ⟨'!' :: 'h' :: '!' :: (longName ++ "!200!250!0!5".toList), 'x', []⟩ 0 [] longTable
      = ⟨.undefined, []⟩ ∧
    longTable longName = some 1 ∧
    parse_interval_hints false ⟨"!h!chr2!0!9223372036854775807!0!5".toList, 'x', []⟩ 0 []
        exampleTable
      = ⟨.undefined, []⟩ :=
  ⟨by decide, by decide, by decide,
   (parse_overflow false [] longName "!200!250!0!5".toList 'x' [] longTable longName_no_bang
      (by rw [longName_length]) [] []).2,
   if_pos rfl, by decide⟩

/-- C5, amended: interval decode in the format the decoder reads.  For a record
`!name!left!right!len!fiveprime` with the name in the table and shorter than
1024 characters, no sign on `left`, the numbers digit runs in range,
`right > left` and `right - left + 1` in range, `parse_interval_hints` on `!h`
followed by the record (the last `!` of the sentinel opens it), with `hint_off`
0 and an empty list, returns exactly one hit: left offset `left`, forward,
length `right - left + 1`, five-prime offset `fiveprime`, and hit length `len`,
the length field. -/
theorem parse_interval_hints_single_record (dbg : Bool) (f : IntervalFields) (behind : Char)
    (slack : List Char) (refidMap : List Char → Option Int)
    (hwf : f.wellFormed refidMap) (hsign : f.neg = false) (hnl : f.name.length < 1024)
    (hgt : digitsValue f.left < digitsValue f.right)
    (hfit : (digitsValue f.right : Int) - (digitsValue f.left : Int) + 1
      < 9223372036854775808) :
    parse_interval_hints dbg ⟨'!' :: 'h' :: f.text, behind, slack⟩ 0 [] refidMap
      = ⟨.returned, [⟨⟨(refidMap f.name).getD (-1), (digitsValue f.left : Int), true,
          (digitsValue f.right : Int) - (digitsValue f.left : Int) + 1⟩,
          digitsValue f.five, digitsValue f.len⟩]⟩ := by
  obtain ⟨t0, ht0⟩ := intervalFields_text_head f
  have htl : f.text.length = t0.length + 1 := by rw [ht0]; rfl
  have h := parse_interval_hints_at_sentinel dbg [] t0 behind slack [] refidMap
  simp only [List.nil_append, List.length_nil] at h
  rw [show ((0 : Int) = ((0 : Nat) : Int)) from rfl, ht0, h]
  rw [show '!' :: (t0 ++ behind :: slack) = f.text ++ behind :: slack by rw [ht0]; rfl]
  rw [interval_loop_text dbg refidMap _ _ f behind slack _ [] hwf hsign hgt (by omega)
    (Or.inr (by omega)), if_pos ⟨hnl, hfit⟩]
  rw [show 0 + 3 + t0.length + 1 + slack.length = (0 + 3 + t0.length + slack.length) + 1 by omega]
  rw [interval_loop_exit dbg refidMap _ _ behind slack _ _ (by
    rintro ⟨_, h2⟩; omega)]
  rfl

/-- C5, witness: `!h!chr2!200!250!0!5` decodes to left 200, length 51, hit length
0, five-prime offset 5, whatever the buffer holds behind the name. -/
theorem parse_interval_hints_single_record_witness :
    chr2Fields.wellFormed exampleTable ∧ chr2Fields.neg = false ∧
    chr2Fields.name.length < 1024 ∧
    digitsValue chr2Fields.left < digitsValue chr2Fields.right ∧
    (digitsValue chr2Fields.right : Int) - (digitsValue chr2Fields.left : Int) + 1
      < 9223372036854775808 ∧
    parse_interval_hints false ⟨"!h!chr2!200!250!0!5".toList, '0', "!h!".toList⟩ 0 []
        exampleTable
      = ⟨.returned, [⟨⟨9, 200, true, 51⟩, 5, 0⟩]⟩ :=
  ⟨chr2Fields_wellFormed, rfl, by decide, by decide, by decide,
    parse_interval_hints_single_record false chr2Fields '0' "!h!".toList exampleTable
      chr2Fields_wellFormed rfl (by decide) (by decide) (by decide)⟩

/-- C6, the code at the failing input: a reference name of 1024 characters that
is not in the table does not make the decoders throw, in builds with and
without assertions; the copy loop of lines 57-60 and 125-128 writes behind the
end of `refname` before the table is consulted, and what follows is not
determined by the program.  The unknown name `chrX`, which fits `refname`, is
answered with `throw 1`. -/
theorem unknown_long_name_overflows :
    parse_hints false ⟨'!' :: 'h' :: '!' :: (longName ++ "!5!+!3!7".toList), 'x', []⟩ 0 []
        exampleTable = ⟨.undefined, []⟩ ∧
    parse_interval_hints false ⟨'!' :: 'h' :: '!' :: (longName ++ "!5!9!3!7".toList), 'x', []⟩ 0 []
        exampleTable = ⟨.undefined, []⟩ ∧
    parse_hints true ⟨'!' :: 'h' :: '!' :: (longName ++ "!5!+!3!7".toList), 'x', []⟩ 0 []
        exampleTable = ⟨.undefined, []⟩ ∧
    parse_interval_hints true ⟨'!' :: 'h' :: '!' :: (longName ++ "!5!9!3!7".toList), 'x', []⟩ 0 []
        exampleTable = ⟨.undefined, []⟩ ∧
    exampleTable longName = none ∧ longName.length = 1024 ∧ '!' ∉ longName ∧
    parse_hints false ⟨"!h!chrX!5!+!3!7".toList, 'x', []⟩ 0 [] exampleTable = ⟨.thrown, []⟩ ∧
    parse_interval_hints false ⟨"!h!chrX!5!9!3!7".toList, 'x', []⟩ 0 [] exampleTable
      = ⟨.thrown, []⟩ ∧
    exampleTable "chrX".toList = none :=
  ⟨(parse_overflow false [] longName "!5!+!3!7".toList 'x' [] exampleTable longName_no_bang
      (by rw [longName_length]) [] []).1,
   (parse_overflow false [] longName "!5!9!3!7".toList 'x' [] exampleTable longName_no_bang
      (by rw [longName_length]) [] []).2,
   (parse_overflow true [] longName "!5!+!3!7".toList 'x' [] exampleTable longName_no_bang
      (by rw [longName_length]) [] []).1,
   (parse_overflow true [] longName "!5!9!3!7".toList 'x' [] exampleTable longName_no_bang
      (by rw [longName_length]) [] []).2,
   by decide, longName_length, longName_no_bang, by decide, by decide, by decide⟩

/-- C7, the code at the failing input: with assertions compiled out,
`parse_interval_hints` on `!h!chr2!300!250!0!0` (right 250 below left 300)
returns normally with a hit of positional length `250 - 300 + 1 = -49`; the
order of the offsets is only checked by `assert_gt`, which ends the call when
assertions are compiled in. -/
theorem parse_interval_hints_accepts_inverted_interval :
    parse_interval_hints false ⟨"!h!chr2!300!250!0!0".toList, 'x', []⟩ 0 [] exampleTable
      = ⟨.returned, [⟨⟨9, 300, true, -49⟩, 0, 0⟩]⟩ ∧
    parse_interval_hints true ⟨"!h!chr2!300!250!0!0".toList, 'x', []⟩ 0 [] exampleTable
      = ⟨.assertFailed, []⟩ := by
  decide

/-- C8, as stated, fails: in `!h!chr2!300!250!1a!0` the seed length `1a` holds
a character that is not a digit, but the right offset 250 is not above the left
offset 300; with assertions compiled in the call ends at `assert_gt` of line
172, in front of the loop that reads the seed length, and not with an error at
the `a`.  With assertions compiled out, or with the offsets in order, the `a`
is answered with `throw 1`. -/
theorem length_check_behind_assertion :
    parse_interval_hints true ⟨"!h!chr2!300!250!1a!0".toList, 'x', []⟩ 0 [] exampleTable
      = ⟨.assertFailed, []⟩ ∧
    parse_interval_hints false ⟨"!h!chr2!300!250!1a!0".toList, 'x', []⟩ 0 [] exampleTable
      = ⟨.thrown, []⟩ ∧
    parse_interval_hints true ⟨"!h!chr2!200!250!1a!0".toList, 'x', []⟩ 0 [] exampleTable
      = ⟨.thrown, []⟩ ∧
    exampleTable "chr2".toList = some 9 := by
  decide

/-- C8, amended: digit validation in the interval decoder.  At a record position
whose reference name has at most 1023 characters and is in the table, let `b`
be the first character of a field that is neither a digit nor `!`, behind the
digits `ds`.  If the field is the left offset (behind at most one leading `-`)
or the right offset, and the digits read before `b` in that field and in the
left offset stay in the range of `TRefOff`, the call ends with `throw 1` at `b`
and the list is left as it was.  If the field is the seed length, the same
holds, for any digits `ds`, unless assertions are compiled in and the right
offset is not above the left one: then `assert_gt` ends the call before the
length is read. -/
theorem interval_digit_validation (dbg : Bool) (refidMap : List Char → Option Int)
    (namelen fuel : Nat) (name : List Char) (id : Int) (neg : Bool)
    (left right ds : List Char) (b : Char) (t : List Char) (pos : Nat)
    (hints : List IntervalHit)
    (hname : '!' ∉ name) (hlen : name.length < 1024) (hmap : refidMap name = some id)
    (hpos : pos < namelen) (hds : allDigits ds) (hb : offending b) :
    ((neg = false → ds = [] → b ≠ '-') → digitsValue ds < 9223372036854775808 →
      interval_loop dbg refidMap namelen (fuel + 1)
          ⟨'!' :: (name ++ '!' :: ((if neg then ['-'] else []) ++ (ds ++ b :: t))), pos⟩ hints
        = ⟨.thrown, hints⟩) ∧
    (allDigits left → digitsValue left < 9223372036854775808 →
      digitsValue ds < 9223372036854775808 →
      interval_loop dbg refidMap namelen (fuel + 1)
          ⟨'!' :: (name ++ '!' :: ((if neg then ['-'] else []) ++
            (left ++ '!' :: (ds ++ b :: t)))), pos⟩ hints
        = ⟨.thrown, hints⟩) ∧
    (allDigits left → digitsValue left < 9223372036854775808 →
      allDigits right → digitsValue right < 9223372036854775808 →
      interval_loop dbg refidMap namelen (fuel + 1)
          ⟨'!' :: (name ++ '!' :: ((if neg then ['-'] else []) ++
            (left ++ '!' :: (right ++ '!' :: (ds ++ b :: t))))), pos⟩ hints
        = ⟨if dbg = true ∧ ¬ ((digitsValue right : Int)
              > (if neg then -(digitsValue left : Int) else (digitsValue left : Int))) then
            .assertFailed else .thrown, hints⟩) := by
  refine ⟨fun hfirst hv => ?_, fun hl hlv hv => ?_, fun hl hlv hr hrv => ?_⟩
  · exact interval_loop_enter_fail dbg refidMap namelen fuel _ pos hints hpos .thrown
      (by rw [interval_hit_body_bad_left dbg refidMap namelen name id neg ds b t pos hname hlen
        hmap hds hb hfirst hv]; rfl)
  · exact interval_loop_enter_fail dbg refidMap namelen fuel _ pos hints hpos .thrown
      (by rw [interval_hit_body_bad_right dbg refidMap namelen name id neg left ds b t pos hname
        hlen hmap hds hb hl hlv hv]; rfl)
  · apply interval_loop_enter_fail dbg refidMap namelen fuel _ pos hints hpos
    rw [interval_hit_body_bad_len dbg refidMap namelen name id neg left right ds b t pos hname
        hlen hmap hds hb hl hlv hr hrv]
    by_cases hc : dbg = true ∧ ¬ ((digitsValue right : Int)
        > (if neg then -(digitsValue left : Int) else (digitsValue left : Int)))
    · rw [if_pos hc, if_pos hc]; rfl
    · rw [if_neg hc, if_neg hc]; rfl

/-- C8, witness: the left offset `--5`, and a second `-` in the right offset and
in the seed length, all end the call with `throw 1`; so do the calls on names
with the left offsets `--5` and `1a`. -/
theorem interval_digit_validation_witness :
    '!' ∉ "chr2".toList ∧ "chr2".toList.length < 1024 ∧ exampleTable "chr2".toList = some 9 ∧
    2 < 17 ∧ allDigits ([] : List Char) ∧ offending '-' ∧
    ((true = false → ([] : List Char) = [] → '-' ≠ '-') ∧
      digitsValue [] < 9223372036854775808 ∧
      interval_loop false exampleTable 17 1 ⟨"!chr2!--5!9!0!3".toList, 2⟩ [] = ⟨.thrown, []⟩) ∧
    (allDigits "7".toList ∧ digitsValue "7".toList < 9223372036854775808 ∧
      interval_loop false exampleTable 17 1 ⟨"!chr2!-7!-5!9!0!3".toList, 2⟩ [] = ⟨.thrown, []⟩) ∧
    (allDigits "8".toList ∧ digitsValue "8".toList < 9223372036854775808 ∧
      interval_loop false exampleTable 17 1 ⟨"!chr2!-7!8!-5!9!0!3".toList, 2⟩ []
        = ⟨.thrown, []⟩) ∧
    parse_interval_hints false ⟨"!h!chr2!--5!9!0!3".toList, 'x', []⟩ 0 [] exampleTable
      = ⟨.thrown, []⟩ ∧
    parse_interval_hints false ⟨"!h!chr2!1a!9!0!3".toList, 'x', []⟩ 0 [] exampleTable
      = ⟨.thrown, []⟩ := by
  have hd0 : allDigits ([] : List Char) := by unfold allDigits; decide
  have hd7 : allDigits "7".toList := by unfold allDigits; decide
  have hd8 : allDigits "8".toList := by unfold allDigits; decide
  have hoff : offending '-' := by unfold offending; decide
  have h := interval_digit_validation false exampleTable 17 0 "chr2".toList 9 true "7".toList
    "8".toList [] '-' "5!9!0!3".toList 2 [] (by decide) (by decide) (by decide) (by decide) hd0
    hoff
  exact ⟨by decide, by decide, by decide, by decide, hd0, hoff,
    ⟨by decide, by decide, h.1 (by decide) (by decide)⟩,
    ⟨hd7, by decide, h.2.1 hd7 (by decide) (by decide)⟩,
    ⟨hd8, by decide, h.2.2 hd7 (by decide) hd8 (by decide)⟩, by decide, by decide⟩

/-- C9, the code at the failing input: with assertions compiled out,
`parse_hints` on `!h!chr1!1a!+!5!0` returns normally with a hit whose offset,
`1 * 10 + ('a' - '0') = 59`, was accumulated from the non-digit `a`; the digits
of the offset are only checked by `assert`, which ends the call when
assertions are compiled in, while `parse_interval_hints` throws on the same
offset. -/
theorem parse_hints_accepts_non_digit_offset :
    parse_hints false ⟨"!h!chr1!1a!+!5!0".toList, 'x', []⟩ 0 [] exampleTable
      = ⟨.returned, [⟨⟨7, 59, true, 5⟩, 0⟩]⟩ ∧
    parse_hints true ⟨"!h!chr1!1a!+!5!0".toList, 'x', []⟩ 0 [] exampleTable
      = ⟨.assertFailed, []⟩ ∧
    parse_interval_hints false ⟨"!h!chr1!1a!5!5!0".toList, 'x', []⟩ 0 [] exampleTable
      = ⟨.thrown, []⟩ := by
  decide

/-- C10, as stated, fails: in `!h!chr1!5!+!3!7` the sentinel is followed by a
character other than `!`, and both decoders return a hit; when the name ends
with the sentinel the decoder reads a reference name from what the buffer
holds behind the name. -/
theorem sentinel_then_name_is_decoded :
    parse_hints false ⟨"!h!chr1!5!+!3!7".toList, 'x', []⟩ 0 [] exampleTable
      = ⟨.returned, [⟨⟨7, 5, true, 3⟩, 7⟩]⟩ ∧
    parse_interval_hints false ⟨"!h!chr1!5!9!3!7".toList, 'x', []⟩ 0 [] exampleTable
      = ⟨.returned, [⟨⟨7, 5, true, 5⟩, 7, 3⟩]⟩ ∧
    parse_hints false ⟨"!h!".toList, 'x', []⟩ 0 [] exampleTable = ⟨.undefined, []⟩ ∧
    parse_hints false ⟨"!h!".toList, '!', "!".toList⟩ 0 [] exampleTable = ⟨.thrown, []⟩ := by
  decide

/-- C10, amended: empty result.  `parse_hints`, and likewise
`parse_interval_hints`, returns normally with no hit appended exactly when the
guard of the loop fails at its first test: `hint_off` is not negative, the
assertions at the head of the function pass or are compiled out, and the
character at `hint_off + 2`, the place of the last `!` of the sentinel, is not
`!` or does not lie in front of the end of the name.  With `!h!` at `hint_off`
inside the name this is never so: the last `!` of the sentinel opens a record
and what follows it is read as a reference name. -/
theorem empty_result_iff_guard_fails (dbg : Bool) (r : Read) (hint_off : Int)
    (hints : List SeedHit) (ihints : List IntervalHit) (refidMap : List Char → Option Int) :
    (parse_hints dbg r hint_off hints refidMap = ⟨.returned, hints⟩ ↔
      0 ≤ hint_off ∧ entry_asserts dbg (r.storage.drop hint_off.toNat) = none ∧
      ∃ c, r.storage[hint_off.toNat + 2]? = some c ∧
        ¬ (c = '!' ∧ hint_off.toNat + 2 < r.name.length)) ∧
    (parse_interval_hints dbg r hint_off ihints refidMap = ⟨.returned, ihints⟩ ↔
      0 ≤ hint_off ∧ entry_asserts dbg (r.storage.drop hint_off.toNat) = none ∧
      ∃ c, r.storage[hint_off.toNat + 2]? = some c ∧
        ¬ (c = '!' ∧ hint_off.toNat + 2 < r.name.length)) :=
  ⟨parse_hints_empty_iff dbg r hint_off hints refidMap,
   parse_interval_hints_empty_iff dbg r hint_off ihints refidMap⟩

/-- C11, as stated with its witness, fails: on the documented string
`!h!!chr2!-10!5!0!3` the cursor starts on the last `!` of the sentinel, so the
`!` behind it closes an empty reference name; the empty name is not in the
table and `parse_interval_hints` throws with nothing appended, so no left
offset `-10` is decoded. -/
theorem negative_left_documented_example :
    parse_interval_hints false ⟨"!h!!chr2!-10!5!0!3".toList, 'x', []⟩ 0 [] exampleTable
      = ⟨.thrown, []⟩ ∧
    parse_interval_hints true ⟨"!h!!chr2!-10!5!0!3".toList, 'x', []⟩ 0 [] exampleTable
      = ⟨.thrown, []⟩ ∧
    exampleTable "chr2".toList = some 9 ∧ exampleTable [] = none := by
  decide

/-- C11, amended: negative left offset.  A pass of the loop of
`parse_interval_hints` over a record `!name![-]left!right!len!five` whose
fields can be read (the name in the table, the numbers digit runs in range)
and which ends inside the name, at any record position and with any list so
far.  When the left field carries a `-`, the decoded record has the left
offset `-m`, the positional length `r + m + 1` and as hit length the negation
of `len` in `size_t`, that is `(2^64 - len) mod 2^64`, which is `0` for
`len = 0`; without the `-` the left offset is `m`, the positional length
`r - m + 1` and the hit length `len`.  The record is decoded unless the
assertion `right > left` is compiled in and fails, the positional length
overflows `TRefOff`, or the name does not fit `refname`.  The `-` counts even
in front of an empty digit run or of zeros. -/
theorem negative_left_offset (dbg : Bool) (refidMap : List Char → Option Int)
    (namelen fuel : Nat) (f : IntervalFields) (c : Char) (t : List Char) (pos : Nat)
    (hints : List IntervalHit)
    (hwf : f.wellFormed refidMap)
    (hin : pos + f.text.length ≤ namelen)
    (hstop : c.isDigit = false ∨ namelen ≤ pos + f.text.length) :
    (f.neg = true →
      interval_loop dbg refidMap namelen (fuel + 1) ⟨f.text ++ c :: t, pos⟩ hints
        = if f.name.length < 1024 then
            if dbg = true ∧ ¬ (-(digitsValue f.left : Int) < (digitsValue f.right : Int)) then
              ⟨.assertFailed, hints⟩
            else if (digitsValue f.right : Int) + (digitsValue f.left : Int) + 1
                < 9223372036854775808 then
              interval_loop dbg refidMap namelen fuel ⟨c :: t, pos + f.text.length⟩
                (hints ++ [⟨⟨(refidMap f.name).getD (-1), -(digitsValue f.left : Int), true,
                  (digitsValue f.right : Int) + (digitsValue f.left : Int) + 1⟩,
                  digitsValue f.five, (SIZE_MOD - digitsValue f.len) % SIZE_MOD⟩])
            else ⟨.undefined, hints⟩
          else ⟨.undefined, hints⟩) ∧
    (f.neg = false →
      interval_loop dbg refidMap namelen (fuel + 1) ⟨f.text ++ c :: t, pos⟩ hints
        = if f.name.length < 1024 then
            if dbg = true ∧ ¬ ((digitsValue f.left : Int) < (digitsValue f.right : Int)) then
              ⟨.assertFailed, hints⟩
            else if (digitsValue f.right : Int) - (digitsValue f.left : Int) + 1
                < 9223372036854775808 then
              interval_loop dbg refidMap namelen fuel ⟨c :: t, pos + f.text.length⟩
                (hints ++ [⟨⟨(refidMap f.name).getD (-1), (digitsValue f.left : Int), true,
                  (digitsValue f.right : Int) - (digitsValue f.left : Int) + 1⟩,
                  digitsValue f.five, digitsValue f.len⟩])
            else ⟨.undefined, hints⟩
          else ⟨.undefined, hints⟩) := by
  have h := interval_loop_signed_text dbg refidMap namelen fuel f c t pos hints hwf hin hstop
  constructor
  · intro hneg
    have hl : f.leftValue = -(digitsValue f.left : Int) := by
      simp [IntervalFields.leftValue, hneg]
    have hh : f.hit refidMap = ⟨⟨(refidMap f.name).getD (-1), -(digitsValue f.left : Int), true,
        (digitsValue f.right : Int) + (digitsValue f.left : Int) + 1⟩,
        digitsValue f.five, (SIZE_MOD - digitsValue f.len) % SIZE_MOD⟩ := by
      simp only [IntervalFields.hit, hl, hneg, if_true]
      congr 2
      omega
    rw [h, hl, hh]
    have e : (digitsValue f.right : Int) - -(digitsValue f.left : Int) + 1
        = (digitsValue f.right : Int) + (digitsValue f.left : Int) + 1 := by omega
    rw [e]
  · intro hneg
    have hl : f.leftValue = (digitsValue f.left : Int) := by
      simp [IntervalFields.leftValue, hneg]
    have hh : f.hit refidMap = ⟨⟨(refidMap f.name).getD (-1), (digitsValue f.left : Int), true,
        (digitsValue f.right : Int) - (digitsValue f.left : Int) + 1⟩,
        digitsValue f.five, digitsValue f.len⟩ := by
      simp [IntervalFields.hit, hl, hneg]
    rw [h, hl, hh]

theorem negative_left_offset_witness :
    negFields.wellFormed exampleTable ∧ 2 + negFields.text.length ≤ 17 ∧
    ('x'.isDigit = false ∨ 17 ≤ 2 + negFields.text.length) ∧ negFields.neg = true ∧
    interval_loop true exampleTable 17 2 ⟨"!chr2!-10!5!0!3x".toList, 2⟩ []
      = ⟨.returned, [⟨⟨9, -10, true, 16⟩, 3, 0⟩]⟩ ∧
    parse_interval_hints true ⟨"!h!chr2!-10!5!0!3".toList, 'x', []⟩ 0 [] exampleTable
      = ⟨.returned, [⟨⟨9, -10, true, 16⟩, 3, 0⟩]⟩ ∧
    parse_interval_hints true ⟨"!h!chr2!-10!5!7!3".toList, 'x', []⟩ 0 [] exampleTable
      = ⟨.returned, [⟨⟨9, -10, true, 16⟩, 3, 18446744073709551609⟩]⟩ ∧
    parse_interval_hints true ⟨"!h!chr2!10!50!7!3".toList, 'x', []⟩ 0 [] exampleTable
      = ⟨.returned, [⟨⟨9, 10, true, 41⟩, 3, 7⟩]⟩ :=
  ⟨negFields_wellFormed, by decide, by decide, rfl,
    ((negative_left_offset true exampleTable 17 1 negFields 'x' [] 2 []
      negFields_wellFormed (by decide) (by decide)).1 rfl).trans (by decide),
    by decide, by decide, by decide⟩

/-- C13, the code on short names: the bound `r.name.length() - 2` of the loop
of `has_hint` is computed in `size_t`, so for a name of length 0 it is
`2^64 - 2` and for a name of length 1 it is `2^64 - 1`; the loop is entered
and `r.name[i]` is read at an index that is not below the length (`none`), for
every content of the name and of the buffer behind it.  Only for a name of
length 2 the bound is 0 and `has_hint` returns `-1` without a read. -/
theorem has_hint_short_names (behind : Char) (slack : List Char) (c d : Char) :
    has_hint ⟨[], behind, slack⟩ = none ∧
    has_hint ⟨[c], behind, slack⟩ = none ∧
    has_hint ⟨[c, d], behind, slack⟩ = some (-1) ∧
    has_hint_bound 0 = 18446744073709551614 ∧ has_hint_bound 1 = 18446744073709551615 ∧
    has_hint_bound 2 = 0 :=
  ⟨has_hint_empty_name behind slack, has_hint_one_char behind slack c,
    has_hint_two_chars behind slack c d, by decide, by decide, by decide⟩

/-- C14: the decoders only append.  For `parse_hints` and for
`parse_interval_hints`, every list `L` passed in, read, `hint_off` and table:
the call ends as it ends on the empty list, and the list after the call is `L`
followed by what the call on the empty list yields, however the call ends.
And when `j` passes of the loop decode the records `hs` and the pass number
`j + 1`, which starts inside the name, ends the call with `st` (a throw, a
failed assertion or undefined behaviour), the call ends with `st` and the list
is exactly `L` followed by `hs`, in the order of decoding, with nothing of the
failed record. -/
theorem decoders_only_append (dbg : Bool) (r : Read) (hint_off : Int)
    (hints : List SeedHit) (ihints : List IntervalHit) (refidMap : List Char → Option Int)
    (j : Nat) (t : List Char) (pos : Nat) (st : Status) (hs : List SeedHit)
    (ihs : List IntervalHit) :
    parse_hints dbg r hint_off hints refidMap
      = ⟨(parse_hints dbg r hint_off [] refidMap).status,
          hints ++ (parse_hints dbg r hint_off [] refidMap).hints⟩ ∧
    parse_interval_hints dbg r hint_off ihints refidMap
      = ⟨(parse_interval_hints dbg r hint_off [] refidMap).status,
          ihints ++ (parse_interval_hints dbg r hint_off [] refidMap).hints⟩ ∧
    (0 ≤ hint_off → entry_asserts dbg (r.storage.drop hint_off.toNat) = none →
      passes (seed_hit_body dbg refidMap r.name.length) r.name.length j
        ⟨(r.storage.drop hint_off.toNat).drop 2, hint_off.toNat + 2⟩
        = some (hs, ⟨'!' :: t, pos⟩) →
      pos < r.name.length →
      (seed_hit_body dbg refidMap r.name.length ⟨'!' :: t, pos⟩).failure = some st →
      parse_hints dbg r hint_off hints refidMap = ⟨st, hints ++ hs⟩) ∧
    (0 ≤ hint_off → entry_asserts dbg (r.storage.drop hint_off.toNat) = none →
      passes (interval_hit_body dbg refidMap r.name.length) r.name.length j
        ⟨(r.storage.drop hint_off.toNat).drop 2, hint_off.toNat + 2⟩
        = some (ihs, ⟨'!' :: t, pos⟩) →
      pos < r.name.length →
      (interval_hit_body dbg refidMap r.name.length ⟨'!' :: t, pos⟩).failure = some st →
      parse_interval_hints dbg r hint_off ihints refidMap = ⟨st, ihints ++ ihs⟩) :=
  ⟨parse_hints_frame dbg r hint_off hints refidMap,
   parse_interval_hints_frame dbg r hint_off ihints refidMap,
   fun h1 h2 h3 h4 h5 =>
     parse_hints_fails_after dbg r hint_off hints refidMap j hs t pos st h1 h2 h3 h4 h5,
   fun h1 h2 h3 h4 h5 =>
     parse_interval_hints_fails_after dbg r hint_off ihints refidMap j ihs t pos st h1 h2 h3 h4
       h5⟩

theorem decoders_only_append_witness :
    (0 : Int) ≤ 2 ∧ entry_asserts true (secondUnknown.storage.drop 2) = none ∧
    passes (seed_hit_body true exampleTable secondUnknown.name.length)
        secondUnknown.name.length 1 ⟨(secondUnknown.storage.drop 2).drop 2, 4⟩
      = some ([⟨⟨7, 100, true, 50⟩, 10⟩], ⟨"!chrX!3!-!4!5x".toList, 21⟩) ∧
    21 < secondUnknown.name.length ∧
    (seed_hit_body true exampleTable secondUnknown.name.length
        ⟨"!chrX!3!-!4!5x".toList, 21⟩).failure = some .thrown ∧
    parse_hints true secondUnknown 2 [⟨⟨0, 1, false, 2⟩, 3⟩] exampleTable
      = ⟨.thrown, [⟨⟨0, 1, false, 2⟩, 3⟩, ⟨⟨7, 100, true, 50⟩, 10⟩]⟩ ∧
    entry_asserts true (secondMalformed.storage.drop 2) = none ∧
    passes (interval_hit_body true exampleTable secondMalformed.name.length)
        secondMalformed.name.length 1 ⟨(secondMalformed.storage.drop 2).drop 2, 4⟩
      = some ([⟨⟨7, 100, true, 51⟩, 10, 7⟩], ⟨"!chr2!1a!9!4!5x".toList, 22⟩) ∧
    22 < secondMalformed.name.length ∧
    (interval_hit_body true exampleTable secondMalformed.name.length
        ⟨"!chr2!1a!9!4!5x".toList, 22⟩).failure = some .thrown ∧
    parse_interval_hints true secondMalformed 2 [⟨⟨0, 1, true, 2⟩, 3, 4⟩] exampleTable
      = ⟨.thrown, [⟨⟨0, 1, true, 2⟩, 3, 4⟩, ⟨⟨7, 100, true, 51⟩, 10, 7⟩]⟩ :=
  ⟨by decide, by decide, by decide, by decide, by decide,
    (decoders_only_append true secondUnknown 2 [⟨⟨0, 1, false, 2⟩, 3⟩] [] exampleTable 1
      "chrX!3!-!4!5x".toList 21 .thrown [⟨⟨7, 100, true, 50⟩, 10⟩] []).2.2.1
      (by decide) (by decide) (by decide) (by decide) (by decide),
    by decide, by decide, by decide, by decide,
    (decoders_only_append true secondMalformed 2 [] [⟨⟨0, 1, true, 2⟩, 3, 4⟩] exampleTable 1
      "chr2!1a!9!4!5x".toList 22 .thrown [] [⟨⟨7, 100, true, 51⟩, 10, 7⟩]).2.2.2
      (by decide) (by decide) (by decide) (by decide) (by decide)⟩

/-- C15: emitted records carry a resolved reference id.  For every input and
however the call ends, the list after `parse_hints`, and likewise after
`parse_interval_hints`, is the list passed in followed by new records, and for
every `j` the new record number `j + 1` is the one pushed by the pass that
is entered at the cursor `c` where the `j` passes in front of it, which pushed
the `j` records in front of it, have left off; its reference id is the value
that the table holds for the reference name of that record, the run of
characters other than `!` behind the `!` at `c`.  Hence, when no name of the
table maps to `-1`, the initial value of `refid`, no new record has the
reference id `-1`.  Pass by pass: a pass of either loop that pushes a record
gives it the table value of the name that stands at its cursor. -/
theorem emitted_reference_ids (dbg : Bool) (r : Read) (hint_off : Int)
    (hints : List SeedHit) (ihints : List IntervalHit) (refidMap : List Char → Option Int) :
    (∃ new, (parse_hints dbg r hint_off hints refidMap).hints = hints ++ new ∧
      (∀ (j : Nat) (h : SeedHit), new[j]? = some h →
        ∃ c cur', passes (seed_hit_body dbg refidMap r.name.length) r.name.length j
            ⟨(r.storage.drop hint_off.toNat).drop 2, hint_off.toNat + 2⟩
            = some (new.take j, c) ∧
          seed_hit_body dbg refidMap r.name.length c = .ok (h, cur') ∧
          refidMap (record_name c) = some h.refival.refid) ∧
      ((∀ name, refidMap name ≠ some (-1)) → ∀ h ∈ new, h.refival.refid ≠ -1)) ∧
    (∃ new, (parse_interval_hints dbg r hint_off ihints refidMap).hints = ihints ++ new ∧
      (∀ (j : Nat) (h : IntervalHit), new[j]? = some h →
        ∃ c cur', passes (interval_hit_body dbg refidMap r.name.length) r.name.length j
            ⟨(r.storage.drop hint_off.toNat).drop 2, hint_off.toNat + 2⟩
            = some (new.take j, c) ∧
          interval_hit_body dbg refidMap r.name.length c = .ok (h, cur') ∧
          refidMap (record_name c) = some h.refival.refid) ∧
      ((∀ name, refidMap name ≠ some (-1)) → ∀ h ∈ new, h.refival.refid ≠ -1)) ∧
    (∀ (namelen : Nat) (cur : Cursor) (hc : SeedHit × Cursor),
      seed_hit_body dbg refidMap namelen cur = .ok hc →
      refidMap (record_name cur) = some hc.1.refival.refid) ∧
    (∀ (namelen : Nat) (cur : Cursor) (hc : IntervalHit × Cursor),
      interval_hit_body dbg refidMap namelen cur = .ok hc →
      refidMap (record_name cur) = some hc.1.refival.refid) := by
  refine ⟨?_, ?_, fun namelen cur hc h => seed_hit_body_record_name dbg refidMap namelen cur hc h,
    fun namelen cur hc h => interval_hit_body_record_name dbg refidMap namelen cur hc h⟩
  · obtain ⟨new, h1, h2⟩ := parse_hints_records_of_passes dbg r hint_off hints refidMap
    have h3 : ∀ (j : Nat) (h : SeedHit), new[j]? = some h →
        ∃ c cur', passes (seed_hit_body dbg refidMap r.name.length) r.name.length j
            ⟨(r.storage.drop hint_off.toNat).drop 2, hint_off.toNat + 2⟩
            = some (new.take j, c) ∧
          seed_hit_body dbg refidMap r.name.length c = .ok (h, cur') ∧
          refidMap (record_name c) = some h.refival.refid := by
      intro j h hj
      obtain ⟨c, cur', hp, hb⟩ := h2 j h hj
      exact ⟨c, cur', hp, hb, seed_hit_body_record_name dbg refidMap _ c _ hb⟩
    refine ⟨new, h1, h3, fun hno h hh heq => ?_⟩
    obtain ⟨j, hj⟩ := List.getElem?_of_mem hh
    obtain ⟨c, _, _, _, hid⟩ := h3 j h hj
    rw [heq] at hid
    exact hno _ hid
  · obtain ⟨new, h1, h2⟩ := parse_interval_hints_records_of_passes dbg r hint_off ihints refidMap
    have h3 : ∀ (j : Nat) (h : IntervalHit), new[j]? = some h →
        ∃ c cur', passes (interval_hit_body dbg refidMap r.name.length) r.name.length j
            ⟨(r.storage.drop hint_off.toNat).drop 2, hint_off.toNat + 2⟩
            = some (new.take j, c) ∧
          interval_hit_body dbg refidMap r.name.length c = .ok (h, cur') ∧
          refidMap (record_name c) = some h.refival.refid := by
      intro j h hj
      obtain ⟨c, cur', hp, hb⟩ := h2 j h hj
      exact ⟨c, cur', hp, hb, interval_hit_body_record_name dbg refidMap _ c _ hb⟩
    refine ⟨new, h1, h3, fun hno h hh heq => ?_⟩
    obtain ⟨j, hj⟩ := List.getElem?_of_mem hh
    obtain ⟨c, _, _, _, hid⟩ := h3 j h hj
    rw [heq] at hid
    exact hno _ hid

theorem emitted_reference_ids_witness :
    (∀ name, exampleTable name ≠ some (-1)) ∧
    (parse_hints true twoHits 2 [⟨⟨-1, 1, false, 2⟩, 3⟩] exampleTable).hints
      = [⟨⟨-1, 1, false, 2⟩, 3⟩] ++ [⟨⟨7, 100, true, 50⟩, 10⟩, ⟨⟨9, 3, false, 4⟩, 5⟩] ∧
    passes (seed_hit_body true exampleTable twoHits.name.length) twoHits.name.length 1
        ⟨(twoHits.storage.drop 2).drop 2, 4⟩
      = some ([⟨⟨7, 100, true, 50⟩, 10⟩], ⟨"!chr2!3!r!4!5x".toList, 21⟩) ∧
    record_name ⟨"!chr2!3!r!4!5x".toList, 21⟩ = "chr2".toList ∧
    exampleTable "chr2".toList = some 9 ∧
    (∀ h ∈ ([⟨⟨7, 100, true, 50⟩, 10⟩, ⟨⟨9, 3, false, 4⟩, 5⟩] : List SeedHit),
      h.refival.refid ≠ -1) := by
  have hev : (parse_hints true twoHits 2 [⟨⟨-1, 1, false, 2⟩, 3⟩] exampleTable).hints
      = [⟨⟨-1, 1, false, 2⟩, 3⟩] ++ [⟨⟨7, 100, true, 50⟩, 10⟩, ⟨⟨9, 3, false, 4⟩, 5⟩] := by
    decide
  obtain ⟨new, h1, _, h3⟩ := (emitted_reference_ids true twoHits 2 [⟨⟨-1, 1, false, 2⟩, 3⟩] []
    exampleTable).1
  have hnew : new = [⟨⟨7, 100, true, 50⟩, 10⟩, ⟨⟨9, 3, false, 4⟩, 5⟩] :=
    List.append_cancel_left (h1.symm.trans hev)
  subst hnew
  exact ⟨exampleTable_ne_placeholder, hev, by decide, by decide, by decide,
    h3 exampleTable_ne_placeholder⟩

/-- C16, the code on an over-long name: for the reference name `longName` of
1024 characters without `!`, at the first record behind a sentinel anywhere
in the name, in builds with and without assertions and for every table, the
copy loop of lines 57-60 and 125-128 writes `refname` at index 1024, which
lies outside `char refname[1024]`; no check stands in front of the writes and
nothing is thrown, so the behaviour of both decoders is undefined from there
and the list is as it was.  For the name `chr1` the writes, the terminator
included, are at the indices 0 to 4. -/
theorem long_name_overflows_refname (dbg : Bool) (pre t : List Char) (behind : Char)
    (slack : List Char) (refidMap : List Char → Option Int) (hints : List SeedHit)
    (ihints : List IntervalHit) :
    longName.length = 1024 ∧ '!' ∉ longName ∧
    1024 ∈ refname_writes (longName ++ '!' :: t) 0 ∧
    copy_refname (longName ++ '!' :: t) (pre.length + 3) [] = .undefined ∧
    parse_hints dbg ⟨pre ++ '!' :: 'h' :: '!' :: (longName ++ '!' :: t), behind, slack⟩
        (pre.length : Int) hints refidMap = ⟨.undefined, hints⟩ ∧
    parse_interval_hints dbg
        ⟨pre ++ '!' :: 'h' :: '!' :: (longName ++ '!' :: t), behind, slack⟩
        (pre.length : Int) ihints refidMap = ⟨.undefined, ihints⟩ ∧
    refname_writes "chr1!5!+!3!7".toList 0 = [0, 1, 2, 3, 4] :=
  ⟨longName_length, longName_no_bang,
   refname_writes_long longName t longName_no_bang (by rw [longName_length]),
   (copy_refname_undefined_iff _ _ _).2
     (Or.inr ⟨1024, refname_writes_long longName t longName_no_bang (by rw [longName_length]),
       Nat.le_refl _⟩),
   (parse_overflow dbg pre longName ('!' :: t) behind slack refidMap longName_no_bang
      (by rw [longName_length]) hints ihints).1,
   (parse_overflow dbg pre longName ('!' :: t) behind slack refidMap longName_no_bang
      (by rw [longName_length]) hints ihints).2,
   by decide⟩

/-- C17, as stated, fails for two kinds of names in the table: for the name
`longName` of 1024 characters the copy to `refname` overruns the buffer, and
for the name `a!b`, which holds the separator, the decoder reads the name `a`,
which is not in the table, and throws. -/
theorem empty_fields_name_conditions :
    parse_hints false ⟨"!h!".toList ++ longName ++ "!!+!!".toList, 'x', []⟩ 0 [] longTable
      = ⟨.undefined, []⟩ ∧
    longTable longName = some 1 ∧
    parse_hints false ⟨"!h!".toList ++ "a!b".toList ++ "!!+!!".toList, 'x', []⟩ 0 [] bangTable
      = ⟨.thrown, []⟩ ∧
    bangTable "a!b".toList = some 3 :=
  ⟨(parse_overflow false [] longName "!!+!!".toList 'x' [] longTable longName_no_bang
      (by rw [longName_length]) [] []).1,
   if_pos rfl, by decide, by decide⟩

/-- C17, amended: empty numeric fields decode as zero.  For every reference
name `n` in the table that holds no `!` and has fewer than 1024 characters,
`parse_hints` with `hint_off = 0` on `"!h!" ++ n ++ "!!+!!"`, followed by the
end of the name or by a character that is neither a digit nor `!`, returns
normally with exactly one record: the id of `n`, offset 0, forward, length 0,
five-prime offset 0.  In general, for a record whose fields can be read, each
digit-run field decodes to the decimal value of its digits, and the value of
the empty run is 0. -/
theorem empty_fields_decode_as_zero (dbg : Bool) (n post : List Char) (behind : Char)
    (slack : List Char) (refidMap : List Char → Option Int) (id : Int) (f : PointFields)
    (hn : '!' ∉ n) (hlen : n.length < 1024) (hid : refidMap n = some id)
    (hpost : ∀ c ∈ post.head?, c.isDigit = false ∧ c ≠ '!')
    (hwf : f.wellFormed refidMap) :
    parse_hints dbg ⟨"!h!".toList ++ n ++ "!!+!!".toList ++ post, behind, slack⟩ 0 [] refidMap
      = ⟨.returned, [⟨⟨id, 0, true, 0⟩, 0⟩]⟩ ∧
    parse_hints dbg ⟨'!' :: 'h' :: f.text ++ post, behind, slack⟩ 0 [] refidMap
      = ⟨.returned, [⟨⟨(refidMap f.name).getD (-1), (digitsValue f.off : Int), f.orient = '+',
          (digitsValue f.len : Int)⟩, digitsValue f.five⟩]⟩ ∧
    digitsValue [] = 0 := by
  refine ⟨?_, ?_, rfl⟩
  · have hwf0 : (PointFields.mk n [] '+' [] []).wellFormed refidMap := by
      have h0 : digitsValue [] = 0 := rfl
      have ha : allDigits [] := fun c hc => by simp at hc
      exact ⟨hn, hlen, by simp [hid], ha, by rw [h0]; decide, ha,
        by rw [h0]; unfold SIZE_MOD; decide, ha, by rw [h0]; unfold SIZE_MOD; decide⟩
    have h := parse_hints_records dbg [] post behind slack [PointFields.mk n [] '+' [] []] []
      refidMap (by simp) (by intro g hg; rw [List.mem_singleton.1 hg]; exact hwf0) hpost
    have e : "!h!".toList ++ n ++ "!!+!!".toList ++ post
        = [] ++ '!' :: 'h' :: pointText [PointFields.mk n [] '+' [] []] ++ post := by
      simp [pointText, PointFields.text]
    rw [e, show ((0 : Int) = (([] : List Char).length : Int)) from rfl, h]
    simp [PointFields.hit, hid, digitsValue, digitsValueFrom]
  · have h := parse_hints_records dbg [] post behind slack [f] [] refidMap (by simp)
      (by intro g hg; rw [List.mem_singleton.1 hg]; exact hwf) hpost
    have e : '!' :: 'h' :: f.text ++ post = [] ++ '!' :: 'h' :: pointText [f] ++ post := by
      simp [pointText]
    rw [e, show ((0 : Int) = (([] : List Char).length : Int)) from rfl, h]
    simp [PointFields.hit]

theorem empty_fields_decode_as_zero_witness :
    '!' ∉ "chr1".toList ∧ "chr1".toList.length < 1024 ∧ exampleTable "chr1".toList = some 7 ∧
    (∀ c ∈ ";x".toList.head?, c.isDigit = false ∧ c ≠ '!') ∧
    sparseFields.wellFormed exampleTable ∧
    parse_hints true ⟨"!h!chr1!!+!!;x".toList, '3', "!".toList⟩ 0 [] exampleTable
      = ⟨.returned, [⟨⟨7, 0, true, 0⟩, 0⟩]⟩ ∧
    parse_hints true ⟨"!h!chr1!07!-!!;x".toList, '3', "!".toList⟩ 0 [] exampleTable
      = ⟨.returned, [⟨⟨7, 7, false, 0⟩, 0⟩]⟩ ∧
    parse_hints true ⟨"!h!chr1!!+!!".toList, '3', "!".toList⟩ 0 [] exampleTable
      = ⟨.returned, [⟨⟨7, 0, true, 0⟩, 0⟩]⟩ := by
  have h := empty_fields_decode_as_zero true "chr1".toList ";x".toList '3' "!".toList
    exampleTable 7 sparseFields (by decide) (by decide) (by decide) (by decide)
    sparseFields_wellFormed
  have h' := empty_fields_decode_as_zero true "chr1".toList [] '3' "!".toList
    exampleTable 7 sparseFields (by decide) (by decide) (by decide) (by decide)
    sparseFields_wellFormed
  exact ⟨by decide, by decide, by decide, by decide, sparseFields_wellFormed, h.1, h.2.1, h'.1⟩

end Hints
